import Mathlib

/-!
# Verification of the Copy-Content-Validation-Tool discovery / pipeline core

This file gives a shallow embedding, in Lean 4, of the core of the
Copy-Content-Validation-Tool backend:

* `app/utils/url_security.py` — SSRF gate (`validate_url`), URL
  normalization (`normalize_url`), `is_same_domain`, smart-exclude table;
* the parts of Python's `urllib.parse` (`urlparse`, `urlsplit`,
  `urlunparse`) those functions rely on;
* `app/domain/fingerprints.py` — `normalize_text`, `normalize_url`,
  `compute_issue_fingerprint` (with a full SHA-256 implementation
  mirroring `hashlib.sha256`);
* `app/services/diff_service.py` — `DiffService.compare`;
* `app/services/exclusion_service.py` — `ExclusionService._is_excluded`;
* `app/services/discovery_service.py` — `DiscoveryService.discover`,
  `_discover_sitemap`, `_discover_nav`, `_crawl_bfs`, `_should_exclude`;
* `app/workers/tasks.py` — `run_validation_job` and its progress events;
* `app/services/scraper_service.py` — `ScraperService.scrape_url`.

Python strings are modeled as `List Char`.  Network, browser and database
effects are modeled by explicit oracle parameters; exceptions are modeled
with `Except`.  Unicode-specific behaviour (`str.lower` beyond ASCII, the
NFKC netloc check of `urllib.parse`) is modeled for the ASCII fragment,
where Python agrees with the model.
-/

set_option maxRecDepth 10000

abbrev PyStr := List Char

/-- Convert a Lean string literal to the `List Char` model of Python strings. -/
def s2l (s : String) : PyStr := s.data

/-- Python exceptions relevant to the embedded code. -/
inductive PyExn where
  | valueError : PyExn
  | ssrfError : PyExn
deriving DecidableEq

/-! ## Basic Python string operations on `List Char` -/

/-- ASCII lowercase character test. -/
def isLowerAlpha (c : Char) : Bool := 'a' ≤ c && c ≤ 'z'

/-- ASCII uppercase character test. -/
def isUpperAlpha (c : Char) : Bool := 'A' ≤ c && c ≤ 'Z'

/-- `url[0].isascii() and url[0].isalpha()` for ASCII letters. -/
def isAsciiAlpha (c : Char) : Bool := isLowerAlpha c || isUpperAlpha c

/-- ASCII digit test. -/
def isAsciiDigit (c : Char) : Bool := '0' ≤ c && c ≤ '9'

/-- `str.lower` on one character (ASCII fragment, where Python agrees). -/
def pyLowerChar (c : Char) : Char := c.toLower

/-- `str.lower` (ASCII fragment). -/
def pyLower (l : PyStr) : PyStr := l.map pyLowerChar

/-- Python `needle in hay` substring test (`str.__contains__`). -/
def pyContainsSub (hay needle : PyStr) : Bool :=
  match hay with
  | [] => needle.isEmpty
  | _ :: t => needle.isPrefixOf hay || pyContainsSub t needle

/-- `l.split(sep, 1)[0]`-style split at the first character satisfying `p`:
returns the part before the first hit and, when a hit exists, the part after it. -/
def splitFirst (p : Char → Bool) (l : PyStr) : PyStr × Option PyStr :=
  match l.dropWhile (fun c => !p c) with
  | [] => (l, none)
  | _ :: rest => (l.takeWhile (fun c => !p c), some rest)

/-- Split at the last character satisfying `p` (used for `str.rfind`). -/
def splitLast (p : Char → Bool) (l : PyStr) : Option (PyStr × PyStr) :=
  match splitFirst p l.reverse with
  | (_, none) => none
  | (post, some pre) => some (pre.reverse, post.reverse)

/-- `str.rstrip('/')`. -/
def rstripSlash (l : PyStr) : PyStr := l.rdropWhile (· == '/')

/-- WHATWG C0-control-or-space class used by `urllib.parse.urlsplit`'s `lstrip`. -/
def isC0OrSpace (c : Char) : Bool := c.toNat ≤ 32

/-- The bytes `urlsplit` removes anywhere in the URL (tab, CR, LF). -/
def isUnsafeUrlByte (c : Char) : Bool := c = '\t' || c = '\r' || c = '\n'

/-! ## Embedding of `urllib.parse` (the fragment the repository uses)

Mirrors CPython `Lib/urllib/parse.py`: `urlsplit`, `_splitparams`,
`urlparse`, `urlunsplit`, `urlunparse`, and the `hostname` property.
The `ValueError` raised for a netloc with unbalanced square brackets is
modeled; the NFKC check for exotic non-ASCII netlocs is not (ASCII scope). -/

structure SplitResult where
  scheme : PyStr
  netloc : PyStr
  path : PyStr
  query : PyStr
  fragment : PyStr
deriving DecidableEq

structure ParseResult where
  scheme : PyStr
  netloc : PyStr
  path : PyStr
  params : PyStr
  query : PyStr
  fragment : PyStr
deriving DecidableEq

/-- Characters allowed in a URL scheme after the first letter. -/
def isSchemeChar (c : Char) : Bool :=
  isAsciiAlpha c || isAsciiDigit c || c = '+' || c = '-' || c = '.'

/-- `i > 0 and url[0].isascii() and url[0].isalpha() and all(c in scheme_chars …)`:
the candidate scheme text is nonempty, starts with an ASCII letter, and
continues with scheme characters. -/
def schemeOk : PyStr → Bool
  | [] => false
  | c :: rest => isAsciiAlpha c && rest.all isSchemeChar

/-- The scheme-splitting step of `urlsplit`: if the text up to the first `':'`
is a nonempty valid scheme, split it off (lowercased). -/
def splitScheme (url : PyStr) : PyStr × PyStr :=
  match splitFirst (· = ':') url with
  | (_, none) => ([], url)
  | (pre, some post) =>
    if schemeOk pre then (pyLower pre, post) else ([], url)

/-- `_splitnetloc(url, 2)`: netloc runs until the first of `/`, `?`, `#`. -/
def isNetlocEnd (c : Char) : Bool := c = '/' || c = '?' || c = '#'

/-- `l.split(c, 1)`: the parts before and after the first hit (the whole list
and `[]` when there is none). -/
def cutFirst (p : Char → Bool) (l : PyStr) : PyStr × PyStr :=
  match splitFirst p l with
  | (pre, some post) => (pre, post)
  | (_, none) => (l, [])

/-- The fragment/query extraction steps of `urlsplit`: split off the fragment
at the first `#`, then the query at the first `?`, returning
`(path, query, fragment)`. -/
def splitFragQuery (x : PyStr) : PyStr × PyStr × PyStr :=
  let pf := cutFirst (· = '#') x
  let pq := cutFirst (· = '?') pf.1
  (pq.1, pq.2, pf.2)

/-- The netloc with unbalanced square brackets that makes `urlsplit` raise
`ValueError: Invalid IPv6 URL`. -/
def badBrackets (n : PyStr) : Prop :=
  ('[' ∈ n ∧ ']' ∉ n) ∨ (']' ∈ n ∧ '[' ∉ n)

instance (n : PyStr) : Decidable (badBrackets n) := by
  unfold badBrackets; infer_instance

/-- The sanitization `urlsplit` applies first: `lstrip` of C0-control/space,
then removal of tab/CR/LF anywhere. -/
def cleanUrl (u : PyStr) : PyStr :=
  (u.dropWhile isC0OrSpace).filter (fun c => !isUnsafeUrlByte c)

/-- CPython `urlsplit` (without the scheme/allow_fragments parameters, which the
repository never passes).  The error models the `ValueError` raised for a
netloc with unbalanced square brackets.  (Python ≥ 3.11 additionally rejects
a bracketed host that is not a valid IPv6/IPvFuture address; that check only
concerns bracketed-host URLs and is not modeled.) -/
def urlsplitE (url0 : PyStr) : Except PyExn SplitResult :=
  let url := cleanUrl url0
  let s := splitScheme url
  match s.2 with
  | '/' :: '/' :: r =>
    let n := r.takeWhile (fun c => !isNetlocEnd c)
    if badBrackets n then Except.error PyExn.valueError
    else
      let pqf := splitFragQuery (r.dropWhile (fun c => !isNetlocEnd c))
      Except.ok ⟨s.1, n, pqf.1, pqf.2.1, pqf.2.2⟩
  | _ =>
    let pqf := splitFragQuery s.2
    Except.ok ⟨s.1, [], pqf.1, pqf.2.1, pqf.2.2⟩

/-- The schemes for which `urlparse` splits `;params` (CPython `uses_params`). -/
def usesParams : List PyStr :=
  [s2l "", s2l "ftp", s2l "hdl", s2l "prospero", s2l "http", s2l "imap",
   s2l "https", s2l "shttp", s2l "rtsp", s2l "rtspu", s2l "sip", s2l "sips",
   s2l "mms", s2l "sftp", s2l "tel"]

/-- The schemes for which `urlunsplit` re-inserts `//` (CPython `uses_netloc`). -/
def usesNetloc : List PyStr :=
  [s2l "", s2l "ftp", s2l "http", s2l "gopher", s2l "nntp", s2l "telnet",
   s2l "imap", s2l "wais", s2l "file", s2l "mms", s2l "https", s2l "shttp",
   s2l "snews", s2l "prospero", s2l "rtsp", s2l "rtsps", s2l "rtspu",
   s2l "rsync", s2l "svn", s2l "svn+ssh", s2l "sftp", s2l "nfs", s2l "git",
   s2l "git+ssh", s2l "ws", s2l "wss"]

/-- CPython `_splitparams`: split `;params` off the last path segment.
Only called when `';' ∈ url`. -/
def splitParams (url : PyStr) : PyStr × PyStr :=
  match splitLast (· = '/') url with
  | some (pre, lastSeg) =>
    match splitFirst (· = ';') lastSeg with
    | (seg, some ps) => (pre ++ '/' :: seg, ps)
    | (_, none) => (url, [])
  | none =>
    match splitFirst (· = ';') url with
    | (seg, some ps) => (seg, ps)
    | (_, none) => (url, [])

/-- CPython `urlparse`. -/
def urlparseE (url : PyStr) : Except PyExn ParseResult :=
  match urlsplitE url with
  | Except.error e => Except.error e
  | Except.ok s =>
    if s.scheme ∈ usesParams ∧ ';' ∈ s.path then
      Except.ok ⟨s.scheme, s.netloc, (splitParams s.path).1, (splitParams s.path).2,
        s.query, s.fragment⟩
    else
      Except.ok ⟨s.scheme, s.netloc, s.path, [], s.query, s.fragment⟩

/-- CPython 3.11 `urlunsplit` (the Python this repository targets):
`if netloc or (scheme and scheme in uses_netloc and url[:2] != '//'): ...`. -/
def urlunsplit (scheme netloc url query fragment : PyStr) : PyStr :=
  let u1 :=
    if netloc ≠ [] ∨ (scheme ≠ [] ∧ scheme ∈ usesNetloc ∧ url.take 2 ≠ ['/', '/']) then
      let u := if url ≠ [] ∧ url.take 1 ≠ ['/'] then '/' :: url else url
      '/' :: '/' :: (netloc ++ u)
    else url
  let u2 := if scheme ≠ [] then scheme ++ ':' :: u1 else u1
  let u3 := if query ≠ [] then u2 ++ '?' :: query else u2
  if fragment ≠ [] then u3 ++ '#' :: fragment else u3

/-- CPython `urlunparse`. -/
def urlunparse (r : ParseResult) : PyStr :=
  let u := if r.params ≠ [] then r.path ++ ';' :: r.params else r.path
  urlunsplit r.scheme r.netloc u r.query r.fragment

/-- The `hostname` property of a parse result (CPython `_hostinfo` plus
lowercasing); `none` models Python's `None` for an empty hostname. -/
def hostnameOf (netloc : PyStr) : Option PyStr :=
  let hostinfo :=
    match splitLast (· = '@') netloc with
    | some (_, post) => post
    | none => netloc
  let host :=
    match splitFirst (· = '[') hostinfo with
    | (_, some bracketed) => (splitFirst (· = ']') bracketed).1
    | (_, none) => (splitFirst (· = ':') hostinfo).1
  if host = [] then none else some (pyLower host)

/-! ## `app/utils/url_security.py` -/

/-- `normalize_url(url)` path canonicalization: `parsed.path.rstrip("/") or "/"`. -/
def normPath (p : PyStr) : PyStr :=
  if rstripSlash p = [] then ['/'] else rstripSlash p

/-- `url_security.normalize_url` with no `base_url` (the form `discover` uses
for deduplication): remove the fragment and canonicalize trailing slashes. -/
def normalize1E (url : PyStr) : Except PyExn PyStr :=
  match urlparseE url with
  | Except.error e => Except.error e
  | Except.ok r =>
    Except.ok (urlunparse ⟨r.scheme, r.netloc, normPath r.path, r.params, r.query, []⟩)

/-- `url_security.normalize_url(url, base_url)`.  `urljoin` is abstracted as the
parameter `join` (its internals decide no claim in scope); the claims quantify
over it. -/
def normalizeWithBaseE (join : PyStr → PyStr → PyStr) (base : PyStr)
    (url : PyStr) : Except PyExn PyStr :=
  let url' :=
    if base ≠ [] ∧ ¬((s2l "http://").isPrefixOf url ∨ (s2l "https://").isPrefixOf url) then
      join base url
    else url
  normalize1E url'

/-- An IP address as returned by `socket.getaddrinfo`: a version-4 address is a
32-bit number, a version-6 address a 128-bit number. -/
inductive IPAddr where
  | v4 (a : Nat) : IPAddr
  | v6 (a : Nat) : IPAddr
deriving DecidableEq

/-- Membership of an address in the module's `_BLOCKED_RANGES`
(127.0.0.0/8, 10.0.0.0/8, 172.16.0.0/12, 192.168.0.0/16, 169.254.0.0/16,
0.0.0.0/8, ::1/128, fc00::/7, fe80::/10). -/
def inBlockedRanges : IPAddr → Bool
  | IPAddr.v4 a =>
    a / 2 ^ 24 = 127 || a / 2 ^ 24 = 10 || a / 2 ^ 20 = 0xAC1 ||
    a / 2 ^ 16 = 0xC0A8 || a / 2 ^ 16 = 0xA9FE || a / 2 ^ 24 = 0
  | IPAddr.v6 a =>
    a = 1 || a / 2 ^ 121 = 0x7E || a / 2 ^ 118 = 0x3FA

/-- The module's `_BLOCKED_HOSTS` (cloud metadata endpoints). -/
def blockedHosts : List PyStr :=
  [s2l "metadata.google.internal", s2l "169.254.169.254"]

/-- A DNS oracle standing for `socket.getaddrinfo`: `none` models
`socket.gaierror` (unresolvable), `some ips` the resolved address list. -/
abbrev DnsOracle := PyStr → Option (List IPAddr)

/-- `url_security.validate_url`.  Returns the (unchanged) URL when safe,
`SSRFError` when the gate rejects, and propagates the `ValueError` that
`urlparse` raises for an unbalanced-bracket netloc. -/
def validateUrlE (resolve : DnsOracle) (url : PyStr) : Except PyExn PyStr :=
  match urlparseE url with
  | Except.error e => Except.error e
  | Except.ok parsed =>
    if ¬(parsed.scheme = s2l "http" ∨ parsed.scheme = s2l "https") then
      Except.error PyExn.ssrfError
    else
      match hostnameOf parsed.netloc with
      | none => Except.error PyExn.ssrfError
      | some hostname =>
        if hostname ∈ blockedHosts then
          Except.error PyExn.ssrfError
        else
          match resolve hostname with
          | none => Except.error PyExn.ssrfError
          | some ips =>
            if ips.any inBlockedRanges then Except.error PyExn.ssrfError
            else Except.ok url

/-- `url_security.is_same_domain` (exceptions yield `False`). -/
def isSameDomain (url base : PyStr) : Bool :=
  match urlparseE url, urlparseE base with
  | Except.ok pu, Except.ok pb =>
    pyLower ((hostnameOf pu.netloc).getD []) = pyLower ((hostnameOf pb.netloc).getD [])
  | _, _ => false

/-! ## Character-level facts -/

theorem char_ofNat_toNat (m : Nat) (h : m < 55296) : (Char.ofNat m).toNat = m := by
  simp only [Char.ofNat, Nat.isValidChar]
  rw [dif_pos (Or.inl h)]
  rfl

theorem char_toNat_inj {a b : Char} (h : a.toNat = b.toNat) : a = b := by
  apply Char.eq_of_val_eq
  apply UInt32.eq_of_toBitVec_eq
  exact BitVec.eq_of_toNat_eq h

theorem char_le_iff {a b : Char} : a ≤ b ↔ a.toNat ≤ b.toNat := by
  rw [Char.le_def]; rfl

theorem char_eq_iff {a b : Char} : a = b ↔ a.toNat = b.toNat :=
  ⟨fun h => h ▸ rfl, char_toNat_inj⟩

theorem char_toLower_toNat (c : Char) :
    (Char.toLower c).toNat =
      if 65 ≤ c.toNat ∧ c.toNat ≤ 90 then c.toNat + 32 else c.toNat := by
  unfold Char.toLower
  split
  · next h => rw [if_pos ⟨h.1, h.2⟩, char_ofNat_toNat _ (by omega)]
  · next h => rw [if_neg (by omega)]

theorem pyLowerChar_toNat (c : Char) :
    (pyLowerChar c).toNat =
      if 65 ≤ c.toNat ∧ c.toNat ≤ 90 then c.toNat + 32 else c.toNat :=
  char_toLower_toNat c

theorem isLowerAlpha_iff {c : Char} :
    isLowerAlpha c = true ↔ 97 ≤ c.toNat ∧ c.toNat ≤ 122 := by
  simp [isLowerAlpha, char_le_iff]

theorem isUpperAlpha_iff {c : Char} :
    isUpperAlpha c = true ↔ 65 ≤ c.toNat ∧ c.toNat ≤ 90 := by
  simp [isUpperAlpha, char_le_iff]

theorem isAsciiDigit_iff {c : Char} :
    isAsciiDigit c = true ↔ 48 ≤ c.toNat ∧ c.toNat ≤ 57 := by
  simp [isAsciiDigit, char_le_iff]

theorem isAsciiAlpha_iff {c : Char} :
    isAsciiAlpha c = true ↔ (97 ≤ c.toNat ∧ c.toNat ≤ 122) ∨ (65 ≤ c.toNat ∧ c.toNat ≤ 90) := by
  simp [isAsciiAlpha, isLowerAlpha_iff, isUpperAlpha_iff]

theorem isSchemeChar_iff {c : Char} :
    isSchemeChar c = true ↔
      (97 ≤ c.toNat ∧ c.toNat ≤ 122) ∨ (65 ≤ c.toNat ∧ c.toNat ≤ 90) ∨
      (48 ≤ c.toNat ∧ c.toNat ≤ 57) ∨ c.toNat = 43 ∨ c.toNat = 45 ∨ c.toNat = 46 := by
  simp [isSchemeChar, isAsciiAlpha_iff, isAsciiDigit_iff, char_eq_iff]
  tauto

theorem isC0OrSpace_iff {c : Char} : isC0OrSpace c = true ↔ c.toNat ≤ 32 := by
  simp [isC0OrSpace]

theorem isUnsafeUrlByte_iff {c : Char} :
    isUnsafeUrlByte c = true ↔ c.toNat = 9 ∨ c.toNat = 13 ∨ c.toNat = 10 := by
  simp [isUnsafeUrlByte, char_eq_iff]
  tauto

theorem pyLowerChar_idem (c : Char) : pyLowerChar (pyLowerChar c) = pyLowerChar c := by
  apply char_toNat_inj
  rw [pyLowerChar_toNat, pyLowerChar_toNat]
  split_ifs <;> omega

theorem pyLower_idem (l : PyStr) : pyLower (pyLower l) = pyLower l := by
  simp [pyLower, Function.comp]
  exact fun c _ => pyLowerChar_idem c

theorem pyLowerChar_schemeChar {c : Char} (h : isSchemeChar c = true) :
    isSchemeChar (pyLowerChar c) = true := by
  rw [isSchemeChar_iff] at h ⊢
  rw [pyLowerChar_toNat]
  split_ifs <;> omega

theorem pyLowerChar_alpha {c : Char} (h : isAsciiAlpha c = true) :
    isAsciiAlpha (pyLowerChar c) = true := by
  rw [isAsciiAlpha_iff] at h ⊢
  rw [pyLowerChar_toNat]
  split_ifs <;> omega

/-- A scheme character is not a delimiter, an unsafe byte, or C0/space. -/
theorem schemeChar_props {c : Char} (h : isSchemeChar c = true) :
    c ≠ ':' ∧ c ≠ '/' ∧ c ≠ '?' ∧ c ≠ '#' ∧
    isUnsafeUrlByte c = false ∧ isC0OrSpace c = false := by
  rw [isSchemeChar_iff] at h
  refine ⟨?_, ?_, ?_, ?_, ?_, ?_⟩
  · intro hc; subst hc; revert h; decide
  · intro hc; subst hc; revert h; decide
  · intro hc; subst hc; revert h; decide
  · intro hc; subst hc; revert h; decide
  · rcases hb : isUnsafeUrlByte c
    · rfl
    · rw [isUnsafeUrlByte_iff] at hb; omega
  · rcases hb : isC0OrSpace c
    · rfl
    · rw [isC0OrSpace_iff] at hb; omega

/-! ## List splitting toolkit -/

theorem takeWhile_append_all {q : Char → Bool} {a : PyStr} (x : PyStr)
    (h : ∀ c ∈ a, q c = true) : (a ++ x).takeWhile q = a ++ x.takeWhile q := by
  induction a with
  | nil => simp
  | cons c t ih =>
    simp only [List.cons_append, List.takeWhile_cons]
    rw [h c (by simp), ih fun d hd => h d (by simp [hd])]
    simp

theorem dropWhile_append_all {q : Char → Bool} {a : PyStr} (x : PyStr)
    (h : ∀ c ∈ a, q c = true) : (a ++ x).dropWhile q = x.dropWhile q := by
  induction a with
  | nil => simp
  | cons c t ih =>
    simp only [List.cons_append, List.dropWhile_cons]
    rw [h c (by simp)]
    simp only [if_true]
    exact ih fun d hd => h d (by simp [hd])

theorem splitFirst_none_of {p : Char → Bool} {l : PyStr} (h : ∀ c ∈ l, p c = false) :
    splitFirst p l = (l, none) := by
  unfold splitFirst
  have hd : l.dropWhile (fun c => !p c) = [] := by
    rw [List.dropWhile_eq_nil_iff]
    intro x hx
    simp [h x hx]
  rw [hd]

theorem splitFirst_append_found {p : Char → Bool} {a : PyStr} (d : Char) (b : PyStr)
    (ha : ∀ c ∈ a, p c = false) (hd : p d = true) :
    splitFirst p (a ++ d :: b) = (a, some b) := by
  unfold splitFirst
  have h1 : (a ++ d :: b).dropWhile (fun c => !p c) = d :: b := by
    rw [dropWhile_append_all _ (fun c hc => by simp [ha c hc])]
    simp [List.dropWhile_cons, hd]
  have h2 : (a ++ d :: b).takeWhile (fun c => !p c) = a := by
    rw [takeWhile_append_all _ (fun c hc => by simp [ha c hc])]
    simp [List.takeWhile_cons, hd]
  rw [h1, h2]

theorem splitFirst_some_spec {p : Char → Bool} {l pre post : PyStr}
    (h : splitFirst p l = (pre, some post)) :
    ∃ d, l = pre ++ d :: post ∧ p d = true ∧ ∀ c ∈ pre, p c = false := by
  unfold splitFirst at h
  rcases hdw : l.dropWhile (fun c => !p c) with _ | ⟨d, rest⟩
  · rw [hdw] at h; simp at h
  · rw [hdw] at h
    simp only [Prod.mk.injEq, Option.some.injEq] at h
    obtain ⟨hpre, hpost⟩ := h
    refine ⟨d, ?_, ?_, ?_⟩
    · rw [← hpre, ← hpost, ← hdw, List.takeWhile_append_dropWhile]
    · have := List.head?_dropWhile_not (fun c => !p c) l
      rw [hdw] at this
      simp at this
      exact this
    · intro c hc
      rw [← hpre] at hc
      have := List.mem_takeWhile_imp hc
      simpa using this

theorem splitFirst_fst_eq {p : Char → Bool} {l : PyStr} :
    ∀ c ∈ (splitFirst p l).1, p c = false := by
  rcases h : splitFirst p l with ⟨pre, post⟩
  rcases post with _ | post
  · unfold splitFirst at h
    rcases hdw : l.dropWhile (fun c => !p c) with _ | ⟨d, rest⟩
    · rw [hdw] at h
      simp only [Prod.mk.injEq] at h
      intro c hc
      rw [← h.1] at hc
      have h2 := (List.dropWhile_eq_nil_iff).mp hdw c hc
      simpa using h2
    · rw [hdw] at h; simp at h
  · intro c hc
    simp only at hc
    obtain ⟨d, _, _, hall⟩ := splitFirst_some_spec h
    exact hall c hc

theorem splitFirst_none_spec {p : Char → Bool} {l l' : PyStr}
    (h : splitFirst p l = (l', none)) : l' = l ∧ ∀ c ∈ l, p c = false := by
  unfold splitFirst at h
  rcases hdw : l.dropWhile (fun c => !p c) with _ | ⟨d, rest⟩
  · rw [hdw] at h
    simp only [Prod.mk.injEq] at h
    refine ⟨h.1.symm, fun c hc => ?_⟩
    have h2 := (List.dropWhile_eq_nil_iff).mp hdw c hc
    simpa using h2
  · rw [hdw] at h; simp at h


/-! ## rstrip / normPath lemmas -/

theorem rstripSlash_decomp (l : PyStr) :
    ∃ t, l = rstripSlash l ++ t ∧ ∀ c ∈ t, c = '/' := by
  refine ⟨(l.reverse.takeWhile (· == '/')).reverse, ?_, ?_⟩
  · rw [rstripSlash, List.rdropWhile]
    conv_lhs => rw [← List.reverse_reverse l, ← List.takeWhile_append_dropWhile (p := (· == '/')) (l := l.reverse)]
    rw [List.reverse_append]
  · intro c hc
    rw [List.mem_reverse] at hc
    have := List.mem_takeWhile_imp hc
    simpa using this

theorem rstripSlash_idem (l : PyStr) : rstripSlash (rstripSlash l) = rstripSlash l :=
  List.rdropWhile_idempotent _ _

theorem normPath_ne_nil (p : PyStr) : normPath p ≠ [] := by
  unfold normPath
  split
  · simp
  · next h => exact h

theorem normPath_idem (p : PyStr) : normPath (normPath p) = normPath p := by
  by_cases h : rstripSlash p = []
  · have hp : normPath p = ['/'] := by rw [normPath, if_pos h]
    rw [hp]
    decide
  · have hp : normPath p = rstripSlash p := by rw [normPath, if_neg h]
    rw [hp, normPath, rstripSlash_idem, if_neg h]

theorem normPath_cases (p : PyStr) :
    (normPath p = rstripSlash p ∧ ∃ t, p = normPath p ++ t ∧ ∀ c ∈ t, c = '/') ∨
    (normPath p = ['/'] ∧ rstripSlash p = []) := by
  by_cases h : rstripSlash p = []
  · right
    exact ⟨by rw [normPath, if_pos h], h⟩
  · left
    rw [normPath, if_neg h]
    exact ⟨rfl, rstripSlash_decomp p⟩

theorem normPath_mem {p : PyStr} {c : Char} (hc : c ∈ normPath p) : c ∈ p ∨ c = '/' := by
  rcases normPath_cases p with ⟨he, t, ht, _⟩ | ⟨he, _⟩
  · left
    rw [ht]
    exact List.mem_append_left _ hc
  · right
    rw [he] at hc
    simpa using hc

theorem dropWhile_append_of_ne_nil {q : Char → Bool} {x : PyStr} (y : PyStr)
    (h : x.dropWhile q ≠ []) : (x ++ y).dropWhile q = x.dropWhile q ++ y := by
  induction x with
  | nil => simp at h
  | cons c t ih =>
    simp only [List.cons_append, List.dropWhile_cons] at h ⊢
    rcases hq : q c
    · simp only [hq] at h ⊢
      simp
    · simp only [hq] at h ⊢
      simp only [if_true] at h ⊢
      exact ih h

/-- `rstrip` over a concatenation whose right part does not strip to empty. -/
theorem rstripSlash_append {a b : PyStr} (hb : rstripSlash b ≠ []) :
    rstripSlash (a ++ b) = a ++ rstripSlash b := by
  have hb' : b.reverse.dropWhile (· == '/') ≠ [] := by
    intro hcon
    apply hb
    rw [rstripSlash, List.rdropWhile, hcon]
    rfl
  rw [rstripSlash, List.rdropWhile, List.reverse_append,
    dropWhile_append_of_ne_nil _ hb', List.reverse_append, List.reverse_reverse]
  rw [rstripSlash, List.rdropWhile]

/-- `normPath` fixes `'/' :: normPath p` when `p` does not strip to empty. -/
theorem normPath_cons_slash {p : PyStr} (h : rstripSlash p ≠ []) :
    normPath ('/' :: normPath p) = '/' :: normPath p := by
  have hp : normPath p = rstripSlash p := by rw [normPath, if_neg h]
  have hfix : rstripSlash (normPath p) = normPath p := by
    rw [hp, rstripSlash_idem]
  have happ : rstripSlash (['/'] ++ normPath p) = ['/'] ++ normPath p := by
    rw [rstripSlash_append (by rw [hfix]; rw [hp]; exact h), hfix]
  simp only [List.singleton_append] at happ
  rw [normPath, happ, if_neg (by simp)]

/-! ## splitScheme lemmas -/

theorem splitScheme_of_valid {s : PyStr} (w : PyStr) (hok : schemeOk s = true)
    (hlow : pyLower s = s) (hnc : ∀ c ∈ s, c ≠ ':') :
    splitScheme (s ++ ':' :: w) = (s, w) := by
  unfold splitScheme
  rw [splitFirst_append_found ':' w (fun c hc => by simp [hnc c hc]) (by simp)]
  simp [hok, hlow]

theorem splitScheme_slash {l : PyStr} (h : l.head? = some '/') : splitScheme l = ([], l) := by
  unfold splitScheme
  rcases hsp : splitFirst (· = ':') l with ⟨pre, _ | w⟩
  · rfl
  · obtain ⟨d, hl, hd, hall⟩ := splitFirst_some_spec hsp
    have hpre : pre.head? = some '/' := by
      cases pre with
      | nil =>
        simp at hd
        rw [hl] at h
        simp at h
        simp [h] at hd
      | cons a t =>
        rw [hl] at h
        simpa using h
    cases pre with
    | nil => simp at hpre
    | cons a t =>
      simp at hpre
      subst hpre
      simp [schemeOk, isAsciiAlpha, isLowerAlpha, isUpperAlpha]

theorem schemeOk_chars {s : PyStr} (h : schemeOk s = true) :
    ∀ c ∈ s, isSchemeChar c = true := by
  cases s with
  | nil => simp
  | cons a t =>
    simp only [schemeOk, Bool.and_eq_true, List.all_eq_true] at h
    intro c hc
    rcases List.mem_cons.mp hc with hc | hc
    · subst hc
      rw [isSchemeChar_iff]
      rw [isAsciiAlpha_iff] at h
      tauto
    · exact h.2 c hc

theorem schemeOk_pyLower {pre : PyStr} (h : schemeOk pre = true) :
    schemeOk (pyLower pre) = true := by
  cases pre with
  | nil => simp [schemeOk] at h
  | cons a t =>
    simp only [schemeOk, pyLower, List.map_cons, Bool.and_eq_true, List.all_eq_true] at h ⊢
    refine ⟨pyLowerChar_alpha h.1, ?_⟩
    intro c hc
    rw [List.mem_map] at hc
    obtain ⟨d, hd, hdc⟩ := hc
    rw [← hdc]
    exact pyLowerChar_schemeChar (h.2 d hd)

theorem schemeOk_false_of_mem {pre : PyStr} (c : Char) (hc : c ∈ pre)
    (h1 : isAsciiAlpha c = false) (h2 : isSchemeChar c = false) : schemeOk pre = false := by
  cases pre with
  | nil => rfl
  | cons a t =>
    simp only [schemeOk, Bool.and_eq_false_iff]
    rcases List.mem_cons.mp hc with hc | hc
    · subst hc
      left
      exact h1
    · right
      rw [List.all_eq_false]
      exact ⟨c, hc, by simp [h2]⟩

/-- The possible outcomes of `splitScheme`. -/
theorem splitScheme_spec (l : PyStr) :
    splitScheme l = ([], l) ∨
    ∃ pre w, splitFirst (· = ':') l = (pre, some w) ∧ schemeOk pre = true ∧
      splitScheme l = (pyLower pre, w) := by
  rcases hsp : splitFirst (· = ':') l with ⟨pre, _ | w⟩
  · left
    unfold splitScheme
    rw [hsp]
  · by_cases hok : schemeOk pre
    · right
      refine ⟨pre, w, rfl, hok, ?_⟩
      unfold splitScheme
      rw [hsp]
      simp [hok]
    · left
      unfold splitScheme
      rw [hsp]
      simp [hok]

/-- If the text before the first `':'` of `a ++ x` is contained in `a` and is
not a valid scheme, then no extension `a ++ y` is split as a scheme either. -/
theorem splitScheme_none_colon_in {a x y : PyStr} (hc : ':' ∈ a)
    (h : splitScheme (a ++ x) = ([], a ++ x)) : splitScheme (a ++ y) = ([], a ++ y) := by
  obtain ⟨pre, rest, hsp⟩ : ∃ pre rest, splitFirst (· = ':') a = (pre, some rest) := by
    rcases hsp : splitFirst (· = ':') a with ⟨pre, _ | rest⟩
    · obtain ⟨_, hall⟩ := splitFirst_none_spec hsp
      have := hall ':' hc
      simp at this
    · exact ⟨pre, rest, rfl⟩
  obtain ⟨d, ha, hd, hall⟩ := splitFirst_some_spec hsp
  have hd' : d = ':' := by simpa using hd
  subst hd'
  have hx : splitFirst (· = ':') (a ++ x) = (pre, some (rest ++ x)) := by
    rw [ha, List.append_assoc, List.cons_append]
    exact splitFirst_append_found ':' (rest ++ x) hall (by simp)
  have hy : splitFirst (· = ':') (a ++ y) = (pre, some (rest ++ y)) := by
    rw [ha, List.append_assoc, List.cons_append]
    exact splitFirst_append_found ':' (rest ++ y) hall (by simp)
  have hok : schemeOk pre = false := by
    by_contra hok
    rw [Bool.not_eq_false] at hok
    unfold splitScheme at h
    rw [hx] at h
    simp only [hok, if_true] at h
    have : pyLower pre = [] := (Prod.mk.injEq _ _ _ _ ▸ h).1
    have hpre : pre = [] := by
      cases pre with
      | nil => rfl
      | cons u v => simp [pyLower] at this
    rw [hpre] at hok
    simp [schemeOk] at hok
  unfold splitScheme
  rw [hy]
  simp [hok]

/-! ## cutFirst / splitFragQuery / cleanUrl lemmas -/

theorem cutFirst_none {p : Char → Bool} {l : PyStr} (h : ∀ c ∈ l, p c = false) :
    cutFirst p l = (l, []) := by
  unfold cutFirst
  rw [splitFirst_none_of h]

theorem cutFirst_found {p : Char → Bool} {a : PyStr} (d : Char) (b : PyStr)
    (ha : ∀ c ∈ a, p c = false) (hd : p d = true) :
    cutFirst p (a ++ d :: b) = (a, b) := by
  unfold cutFirst
  rw [splitFirst_append_found d b ha hd]

theorem cutFirst_fst_no {p : Char → Bool} {l : PyStr} :
    ∀ c ∈ (cutFirst p l).1, p c = false := by
  unfold cutFirst
  rcases hsp : splitFirst p l with ⟨pre, _ | post⟩
  · obtain ⟨h1, h2⟩ := splitFirst_none_spec hsp
    simpa using h2
  · obtain ⟨d, hl, hd, hall⟩ := splitFirst_some_spec hsp
    simpa using hall

theorem cutFirst_decomp {p : Char → Bool} (l : PyStr) :
    ∃ m, l = (cutFirst p l).1 ++ m := by
  unfold cutFirst
  rcases hsp : splitFirst p l with ⟨pre, _ | post⟩
  · obtain ⟨h1, _⟩ := splitFirst_none_spec hsp
    exact ⟨[], by simp [h1]⟩
  · obtain ⟨d, hl, _, _⟩ := splitFirst_some_spec hsp
    exact ⟨d :: post, hl⟩

theorem cutFirst_snd_sub {p : Char → Bool} {l : PyStr} :
    ∀ c ∈ (cutFirst p l).2, c ∈ l := by
  unfold cutFirst
  rcases hsp : splitFirst p l with ⟨pre, _ | post⟩
  · simp
  · obtain ⟨d, hl, _, _⟩ := splitFirst_some_spec hsp
    intro c hc
    rw [hl]
    simp only at hc
    simp [hc]

theorem splitFragQuery_reconstruct (P q : PyStr)
    (hP : ∀ c ∈ P, c ≠ '#' ∧ c ≠ '?') (hq : ∀ c ∈ q, c ≠ '#') :
    splitFragQuery (P ++ (if q ≠ [] then '?' :: q else [])) = (P, q, []) := by
  by_cases hq0 : q = []
  · subst hq0
    rw [if_neg (by simp), List.append_nil]
    have h1 : cutFirst (· = '#') P = (P, []) :=
      cutFirst_none (fun c hc => by simp [(hP c hc).1])
    have h2 : cutFirst (· = '?') P = (P, []) :=
      cutFirst_none (fun c hc => by simp [(hP c hc).2])
    simp [splitFragQuery, h1, h2]
  · rw [if_pos hq0]
    have hnohash : ∀ c ∈ P ++ '?' :: q, (fun c => decide (c = '#')) c = false := by
      intro c hc
      rcases List.mem_append.mp hc with hc | hc
      · simp [(hP c hc).1]
      · rcases List.mem_cons.mp hc with hc | hc
        · subst hc; simp
        · simp [hq c hc]
    have h1 : cutFirst (· = '#') (P ++ '?' :: q) = (P ++ '?' :: q, []) :=
      cutFirst_none hnohash
    have h2 : cutFirst (· = '?') (P ++ '?' :: q) = (P, q) :=
      cutFirst_found '?' q (fun c hc => by simp [(hP c hc).2]) (by simp)
    simp [splitFragQuery, h1, h2]

/-- Parts of the `splitFragQuery` output: the path has no `#`/`?`, the query no
`#`, both are made of characters of the input, and the path is a prefix. -/
theorem splitFragQuery_parts (x : PyStr) :
    (∀ c ∈ (splitFragQuery x).1, ¬c = '#' ∧ ¬c = '?') ∧
    (∀ c ∈ (splitFragQuery x).2.1, ¬c = '#') ∧
    (∀ c ∈ (splitFragQuery x).1, c ∈ x) ∧
    (∀ c ∈ (splitFragQuery x).2.1, c ∈ x) ∧
    (∃ m, x = (splitFragQuery x).1 ++ m) := by
  unfold splitFragQuery
  obtain ⟨m1, hm1⟩ := cutFirst_decomp (p := (· = '#')) x
  obtain ⟨m2, hm2⟩ := cutFirst_decomp (p := (· = '?')) (cutFirst (· = '#') x).1
  have hfst1 := cutFirst_fst_no (p := (· = '#')) (l := x)
  have hfst2 := cutFirst_fst_no (p := (· = '?')) (l := (cutFirst (· = '#') x).1)
  have hsub2 : ∀ c ∈ (cutFirst (· = '?') (cutFirst (· = '#') x).1).1, c ∈ (cutFirst (· = '#') x).1 := by
    intro c hc
    rw [hm2]
    exact List.mem_append_left _ hc
  have hsubq : ∀ c ∈ (cutFirst (· = '?') (cutFirst (· = '#') x).1).2, c ∈ (cutFirst (· = '#') x).1 :=
    fun c hc => cutFirst_snd_sub c hc
  have hsubx : ∀ c ∈ (cutFirst (· = '#') x).1, c ∈ x := by
    intro c hc
    rw [hm1]
    exact List.mem_append_left _ hc
  refine ⟨?_, ?_, ?_, ?_, ?_⟩
  · intro c hc
    refine ⟨?_, ?_⟩
    · have := hfst1 c (hsub2 c hc)
      simpa using this
    · have := hfst2 c hc
      simpa using this
  · intro c hc
    have := hfst1 c (hsubq c hc)
    simpa using this
  · exact fun c hc => hsubx c (hsub2 c hc)
  · exact fun c hc => hsubx c (hsubq c hc)
  · refine ⟨m2 ++ m1, ?_⟩
    conv_lhs => rw [hm1]
    conv_lhs => rw [hm2]
    simp

theorem head_dropWhile_false {q : Char → Bool} {l : PyStr} {h : Char}
    (hh : (l.dropWhile q).head? = some h) : q h = false := by
  have := List.head?_dropWhile_not q l
  rw [hh] at this
  simpa using this

theorem cleanUrl_head {u : PyStr} {h : Char} (hh : (cleanUrl u).head? = some h) :
    isC0OrSpace h = false := by
  unfold cleanUrl at hh
  rcases hd : u.dropWhile isC0OrSpace with _ | ⟨c, t⟩
  · rw [hd] at hh; simp at hh
  · rw [hd] at hh
    have hc : isC0OrSpace c = false := by
      apply head_dropWhile_false (l := u)
      rw [hd]; rfl
    have hc' : ¬c.toNat ≤ 32 := by
      intro hcon
      rw [← isC0OrSpace_iff] at hcon
      rw [hc] at hcon
      exact Bool.false_ne_true hcon
    have hcu : isUnsafeUrlByte c = false := by
      rcases hb : isUnsafeUrlByte c with _ | _
      · rfl
      · exfalso
        rw [isUnsafeUrlByte_iff] at hb
        omega
    simp only [List.filter_cons, hcu, Bool.not_false, if_true] at hh
    simp at hh
    rw [← hh]
    exact hc

/-- All characters surviving `cleanUrl` are safe. -/
theorem cleanUrl_safe {u : PyStr} : ∀ c ∈ cleanUrl u, isUnsafeUrlByte c = false := by
  intro c hc
  unfold cleanUrl at hc
  have := List.of_mem_filter hc
  simpa using this

/-! ## Round-trip lemmas: `urlsplitE` recovers the components `urlunsplit` joins -/

theorem alpha_not_C0 {c : Char} (h : isAsciiAlpha c = true) : isC0OrSpace c = false := by
  rw [isAsciiAlpha_iff] at h
  rcases hb : isC0OrSpace c with _ | _
  · rfl
  · rw [isC0OrSpace_iff] at hb
    omega

theorem take_one_slash {P : PyStr} (h : P.take 1 = ['/']) : ∃ t, P = '/' :: t := by
  cases P with
  | nil => simp at h
  | cons a t =>
    simp only [List.take_succ_cons, List.take_zero] at h
    exact ⟨t, by simp at h; rw [h]⟩

/-- `cleanUrl` is the identity on a string with a non-C0 head and no unsafe bytes. -/
theorem cleanUrl_noop {v : PyStr}
    (hhd : ∀ h0, v.head? = some h0 → isC0OrSpace h0 = false)
    (hsafe : ∀ c ∈ v, isUnsafeUrlByte c = false) : cleanUrl v = v := by
  unfold cleanUrl
  have hdw : v.dropWhile isC0OrSpace = v := by
    cases v with
    | nil => rfl
    | cons c t =>
      rw [List.dropWhile_cons, hhd c rfl]
      simp
  rw [hdw, List.filter_eq_self.mpr (fun c hc => by simp [hsafe c hc])]

/-- Splitting the string `urlunsplit` builds in the netloc case recovers the
original components. -/
theorem urlsplitE_reconstruct_net (s n P q : PyStr)
    (hS : s = [] ∨ (schemeOk s = true ∧ pyLower s = s))
    (hn : ∀ c ∈ n, isNetlocEnd c = false)
    (hbr : ¬badBrackets n)
    (hP1 : P.take 1 = ['/'])
    (hPc : ∀ c ∈ P, c ≠ '#' ∧ c ≠ '?')
    (hqc : ∀ c ∈ q, c ≠ '#')
    (hnU : ∀ c ∈ n, isUnsafeUrlByte c = false)
    (hPU : ∀ c ∈ P, isUnsafeUrlByte c = false)
    (hqU : ∀ c ∈ q, isUnsafeUrlByte c = false) :
    urlsplitE ((if s ≠ [] then s ++ [':'] else []) ++ '/' :: '/' :: ((n ++ P)
        ++ (if q ≠ [] then '?' :: q else []))) = Except.ok ⟨s, n, P, q, []⟩ := by
  set qp : PyStr := if q ≠ [] then '?' :: q else [] with hqp
  set v : PyStr := (if s ≠ [] then s ++ [':'] else []) ++ '/' :: '/' :: ((n ++ P) ++ qp) with hv
  have hqpU : ∀ c ∈ qp, isUnsafeUrlByte c = false := by
    rw [hqp]
    split
    · intro c hc
      rcases List.mem_cons.mp hc with hc | hc
      · subst hc; rfl
      · exact hqU c hc
    · simp
  have hsU : ∀ c ∈ s, isUnsafeUrlByte c = false := by
    rcases hS with hS | hS
    · subst hS; simp
    · exact fun c hc => (schemeChar_props (schemeOk_chars hS.1 c hc)).2.2.2.2.1
  have hsafe : ∀ c ∈ v, isUnsafeUrlByte c = false := by
    rw [hv]
    intro c hc
    rcases List.mem_append.mp hc with hc | hc
    · rcases hs0 : s with _ | _
      · subst hs0; simp at hc
      · rw [hs0] at hc
        simp only [ne_eq, reduceCtorEq, not_false_eq_true, if_true] at hc
        rcases List.mem_append.mp hc with hc | hc
        · exact hsU c (hs0 ▸ hc)
        · simp at hc; subst hc; rfl
    · rcases List.mem_cons.mp hc with hc | hc
      · subst hc; rfl
      · rcases List.mem_cons.mp hc with hc | hc
        · subst hc; rfl
        · rcases List.mem_append.mp hc with hc | hc
          · rcases List.mem_append.mp hc with hc | hc
            · exact hnU c hc
            · exact hPU c hc
          · exact hqpU c hc
  have hhd : ∀ h0, v.head? = some h0 → isC0OrSpace h0 = false := by
    intro h0 hh
    rw [hv] at hh
    rcases hs0 : s with _ | ⟨a, s'⟩
    · subst hs0
      simp at hh
      subst hh
      rfl
    · rw [hs0] at hh
      simp only [ne_eq, reduceCtorEq, not_false_eq_true, if_true] at hh
      simp at hh
      rcases hS with hS | hS
      · rw [hs0] at hS; simp at hS
      · have := hS.1
        rw [hs0] at this
        simp only [schemeOk, Bool.and_eq_true] at this
        subst hh
        exact alpha_not_C0 this.1
  have hclean : cleanUrl v = v := cleanUrl_noop hhd hsafe
  have hss : splitScheme v = (s, '/' :: '/' :: ((n ++ P) ++ qp)) := by
    rcases hs0 : s with _ | ⟨a, s'⟩
    · rw [hv, hs0]
      have hif : ((if ([] : PyStr) ≠ [] then ([] : PyStr) ++ [':'] else []) : PyStr) = [] := by
        simp
      rw [hif, List.nil_append]
      exact splitScheme_slash rfl
    · rw [hv, hs0]
      simp only [ne_eq, reduceCtorEq, not_false_eq_true, if_true]
      rw [List.append_assoc]
      simp only [List.singleton_append]
      rw [← hs0]
      apply splitScheme_of_valid
      · rcases hS with hS | hS
        · rw [hS] at hs0; simp at hs0
        · exact hS.1
      · rcases hS with hS | hS
        · rw [hS] at hs0; simp at hs0
        · exact hS.2
      · intro c hc
        rcases hS with hS | hS
        · rw [hS] at hs0; simp at hs0
        · exact (schemeChar_props (schemeOk_chars hS.1 c hc)).1
  obtain ⟨P', hP'⟩ := take_one_slash hP1
  have htw : ((n ++ P) ++ qp).takeWhile (fun c => !isNetlocEnd c) = n := by
    rw [List.append_assoc, takeWhile_append_all _ (fun c hc => by simp [hn c hc]), hP']
    simp [List.takeWhile_cons, isNetlocEnd]
  have hdw : ((n ++ P) ++ qp).dropWhile (fun c => !isNetlocEnd c) = P ++ qp := by
    rw [List.append_assoc, dropWhile_append_all _ (fun c hc => by simp [hn c hc]), hP']
    simp [List.dropWhile_cons, isNetlocEnd]
  have hfq : splitFragQuery (P ++ qp) = (P, q, []) := splitFragQuery_reconstruct P q hPc hqc
  unfold urlsplitE
  simp only [hclean, hss]
  rw [htw, hdw, if_neg hbr, hfq]

/-- Splitting the string `urlunsplit` builds when it does not insert `//`
recovers the original components. -/
theorem urlsplitE_reconstruct_nonet (s P q : PyStr)
    (hS : s = [] ∨ (schemeOk s = true ∧ pyLower s = s))
    (hP0 : P ≠ [])
    (hP2 : P.take 2 ≠ ['/', '/'])
    (hPc : ∀ c ∈ P, c ≠ '#' ∧ c ≠ '?')
    (hqc : ∀ c ∈ q, c ≠ '#')
    (hPU : ∀ c ∈ P, isUnsafeUrlByte c = false)
    (hqU : ∀ c ∈ q, isUnsafeUrlByte c = false)
    (hPhd : s = [] → ∀ h0, P.head? = some h0 → isC0OrSpace h0 = false)
    (hsch : s = [] → splitScheme (P ++ (if q ≠ [] then '?' :: q else [])) =
        ([], P ++ (if q ≠ [] then '?' :: q else []))) :
    urlsplitE ((if s ≠ [] then s ++ [':'] else []) ++ (P
        ++ (if q ≠ [] then '?' :: q else []))) = Except.ok ⟨s, [], P, q, []⟩ := by
  set qp : PyStr := if q ≠ [] then '?' :: q else [] with hqp
  set v : PyStr := (if s ≠ [] then s ++ [':'] else []) ++ (P ++ qp) with hv
  have hqpU : ∀ c ∈ qp, isUnsafeUrlByte c = false := by
    rw [hqp]
    split
    · intro c hc
      rcases List.mem_cons.mp hc with hc | hc
      · subst hc; rfl
      · exact hqU c hc
    · simp
  have hsU : ∀ c ∈ s, isUnsafeUrlByte c = false := by
    rcases hS with hS | hS
    · subst hS; simp
    · exact fun c hc => (schemeChar_props (schemeOk_chars hS.1 c hc)).2.2.2.2.1
  have hsafe : ∀ c ∈ v, isUnsafeUrlByte c = false := by
    rw [hv]
    intro c hc
    rcases List.mem_append.mp hc with hc | hc
    · rcases hs0 : s with _ | _
      · subst hs0; simp at hc
      · rw [hs0] at hc
        simp only [ne_eq, reduceCtorEq, not_false_eq_true, if_true] at hc
        rcases List.mem_append.mp hc with hc | hc
        · exact hsU c (hs0 ▸ hc)
        · simp at hc; subst hc; rfl
    · rcases List.mem_append.mp hc with hc | hc
      · exact hPU c hc
      · exact hqpU c hc
  have hhd : ∀ h0, v.head? = some h0 → isC0OrSpace h0 = false := by
    intro h0 hh
    rw [hv] at hh
    rcases hs0 : s with _ | ⟨a, s'⟩
    · subst hs0
      simp only [ne_eq, not_true_eq_false] at hh
      rw [if_neg (by simp)] at hh
      rw [List.nil_append] at hh
      rcases hp0 : P with _ | ⟨b, t⟩
      · exact absurd hp0 hP0
      · rw [hp0] at hh
        simp at hh
        subst hh
        exact hPhd rfl b (by rw [hp0]; rfl)
    · rw [hs0] at hh
      simp only [ne_eq, reduceCtorEq, not_false_eq_true, if_true] at hh
      simp at hh
      rcases hS with hS | hS
      · rw [hs0] at hS; simp at hS
      · have := hS.1
        rw [hs0] at this
        simp only [schemeOk, Bool.and_eq_true] at this
        subst hh
        exact alpha_not_C0 this.1
  have hclean : cleanUrl v = v := cleanUrl_noop hhd hsafe
  have hss : splitScheme v = (s, P ++ qp) := by
    rcases hs0 : s with _ | ⟨a, s'⟩
    · rw [hv, hs0]
      have hif : ((if ([] : PyStr) ≠ [] then ([] : PyStr) ++ [':'] else []) : PyStr) = [] := by
        simp
      rw [hif, List.nil_append]
      exact hs0 ▸ hsch hs0
    · rw [hv, hs0]
      simp only [ne_eq, reduceCtorEq, not_false_eq_true, if_true]
      rw [List.append_assoc]
      simp only [List.singleton_append]
      rw [← hs0]
      apply splitScheme_of_valid
      · rcases hS with hS | hS
        · rw [hS] at hs0; simp at hs0
        · exact hS.1
      · rcases hS with hS | hS
        · rw [hS] at hs0; simp at hs0
        · exact hS.2
      · intro c hc
        rcases hS with hS | hS
        · rw [hS] at hs0; simp at hs0
        · exact (schemeChar_props (schemeOk_chars hS.1 c hc)).1
  have hfq : splitFragQuery (P ++ qp) = (P, q, []) := splitFragQuery_reconstruct P q hPc hqc
  have hnotnet : ∀ r : PyStr, P ++ qp ≠ '/' :: '/' :: r := by
    intro r hcon
    rcases hp0 : P with _ | ⟨b, t⟩
    · exact absurd hp0 hP0
    · rcases t with _ | ⟨b2, t2⟩
      · rw [hp0] at hcon
        simp only [List.cons_append, List.nil_append, List.cons.injEq] at hcon
        have hb : b = '/' := hcon.1
        have hqp2 : qp = '/' :: r := hcon.2
        rw [hqp] at hqp2
        rcases hq0 : q with _ | _
        · rw [hq0] at hqp2; simp at hqp2
        · rw [hq0] at hqp2
          simp only [ne_eq, reduceCtorEq, not_false_eq_true, if_true] at hqp2
          simp at hqp2
      · rw [hp0] at hcon
        simp only [List.cons_append, List.cons.injEq] at hcon
        apply hP2
        rw [hp0, hcon.1, hcon.2.1]
        rfl
  unfold urlsplitE
  simp only [hclean, hss]
  rw [hfq]

theorem mem_of_takeWhile {q : Char → Bool} {l : PyStr} {c : Char}
    (hc : c ∈ l.takeWhile q) : c ∈ l := by
  rw [← List.takeWhile_append_dropWhile (p := q) (l := l)]
  exact List.mem_append_left _ hc

theorem mem_of_dropWhile {q : Char → Bool} {l : PyStr} {c : Char}
    (hc : c ∈ l.dropWhile q) : c ∈ l := by
  rw [← List.takeWhile_append_dropWhile (p := q) (l := l)]
  exact List.mem_append_right _ hc

/-- Invariants of the components produced by a successful `urlsplitE`. -/
theorem urlsplitE_ok_inv {u : PyStr} {r : SplitResult} (h : urlsplitE u = Except.ok r) :
    (r.scheme = [] ∨ (schemeOk r.scheme = true ∧ pyLower r.scheme = r.scheme)) ∧
    (∀ c ∈ r.netloc, isNetlocEnd c = false) ∧
    ¬badBrackets r.netloc ∧
    (∀ c ∈ r.path, ¬c = '#' ∧ ¬c = '?') ∧
    (∀ c ∈ r.query, ¬c = '#') ∧
    (∀ c ∈ r.netloc, isUnsafeUrlByte c = false) ∧
    (∀ c ∈ r.path, isUnsafeUrlByte c = false) ∧
    (∀ c ∈ r.query, isUnsafeUrlByte c = false) ∧
    (r.scheme = [] → r.netloc = [] →
      r.path.take 1 = ['/'] ∨ r.path = [] ∨
      (∃ t, cleanUrl u = r.path ++ t ∧ splitScheme (cleanUrl u) = ([], cleanUrl u))) := by
  have hsspec := splitScheme_spec (cleanUrl u)
  unfold urlsplitE at h
  rcases hsp2 : splitScheme (cleanUrl u) with ⟨sc, rest⟩
  simp only [hsp2] at h
  rw [hsp2] at hsspec
  have hrest_sub : ∀ c ∈ rest, c ∈ cleanUrl u := by
    rcases hsspec with hs1 | ⟨pre, w, hsf, hok, heq⟩
    · intro c hc
      have : rest = cleanUrl u := (Prod.mk.injEq _ _ _ _ ▸ hs1).2
      rwa [this] at hc
    · obtain ⟨d, hl, _, _⟩ := splitFirst_some_spec hsf
      have hw : rest = w := (Prod.mk.injEq _ _ _ _ ▸ heq).2
      intro c hc
      rw [hl]
      rw [hw] at hc
      simp [hc]
  have hscheme : sc = [] ∨ (schemeOk sc = true ∧ pyLower sc = sc) := by
    rcases hsspec with hs1 | ⟨pre, w, hsf, hok, heq⟩
    · left
      exact (Prod.mk.injEq _ _ _ _ ▸ hs1).1
    · right
      have hsc : sc = pyLower pre := (Prod.mk.injEq _ _ _ _ ▸ heq).1
      rw [hsc]
      exact ⟨schemeOk_pyLower hok, pyLower_idem pre⟩
  have hscheme_nil : sc = [] → rest = cleanUrl u ∧ splitScheme (cleanUrl u) = ([], cleanUrl u) := by
    intro hsc
    rcases hsspec with hs1 | ⟨pre, w, hsf, hok, heq⟩
    · refine ⟨(Prod.mk.injEq _ _ _ _ ▸ hs1).2, ?_⟩
      rw [hsp2, hs1]
    · exfalso
      have hsc2 : sc = pyLower pre := (Prod.mk.injEq _ _ _ _ ▸ heq).1
      rw [hsc] at hsc2
      have hpre : pre = [] := by
        cases pre with
        | nil => rfl
        | cons a t => simp [pyLower] at hsc2
      rw [hpre] at hok
      simp [schemeOk] at hok
  have hsafe_clean := cleanUrl_safe (u := u)
  split at h
  · next r2 =>
    by_cases hbr : badBrackets (r2.takeWhile (fun c => !isNetlocEnd c))
    · rw [if_pos hbr] at h
      exact absurd h (by simp)
    · rw [if_neg hbr] at h
      injection h with h
      subst h
      have hr2sub : ∀ c ∈ r2, c ∈ '/' :: '/' :: r2 := by
        intro c hc
        simp [hc]
      have hfq := splitFragQuery_parts (r2.dropWhile (fun c => !isNetlocEnd c))
      refine ⟨hscheme, ?_, hbr, hfq.1, hfq.2.1, ?_, ?_, ?_, ?_⟩
      · intro c hc
        have := List.mem_takeWhile_imp hc
        simpa using this
      · intro c hc
        exact hsafe_clean c (hrest_sub c (hr2sub c (mem_of_takeWhile hc)))
      · intro c hc
        exact hsafe_clean c (hrest_sub c (hr2sub c (mem_of_dropWhile (hfq.2.2.1 c hc))))
      · intro c hc
        exact hsafe_clean c (hrest_sub c (hr2sub c (mem_of_dropWhile (hfq.2.2.2.1 c hc))))
      · intro _ _
        rcases hdw : r2.dropWhile (fun c => !isNetlocEnd c) with _ | ⟨d, dtail⟩
        · right; left
          simp only [hdw]
          rfl
        · have hd : isNetlocEnd d = true := by
            have := head_dropWhile_false (l := r2) (q := fun c => !isNetlocEnd c) (by rw [hdw]; rfl)
            simpa using this
          rw [hdw] at hfq
          obtain ⟨m, hm⟩ := hfq.2.2.2.2
          rcases hp : (splitFragQuery (d :: dtail)).1 with _ | ⟨p0, ptail⟩
          · right; left
            simp only
          · left
            rw [hp] at hm
            simp only [List.cons_append, List.cons.injEq] at hm
            have hp0 : p0 = d := hm.1.symm
            have hfacts := hfq.1 p0 (by rw [hp]; simp)
            rw [hp0] at hfacts
            have hd' : d = '/' := by
              simp only [isNetlocEnd, Bool.or_eq_true, decide_eq_true_eq] at hd
              rcases hd with (hd | hd) | hd
              · exact hd
              · exact absurd hd hfacts.2
              · exact absurd hd hfacts.1
            simp only
            rw [hp0, hd']
            rfl
  · have hfq := splitFragQuery_parts rest
    injection h with h
    subst h
    refine ⟨hscheme, by simp, by simp [badBrackets], hfq.1, hfq.2.1, by simp, ?_, ?_, ?_⟩
    · intro c hc
      exact hsafe_clean c (hrest_sub c (hfq.2.2.1 c hc))
    · intro c hc
      exact hsafe_clean c (hrest_sub c (hfq.2.2.2.1 c hc))
    · intro hsc _
      right; right
      obtain ⟨hrw, hss⟩ := hscheme_nil hsc
      obtain ⟨m, hm⟩ := hfq.2.2.2.2
      refine ⟨m, by rw [← hrw]; exact hm, ?_⟩
      rw [← hsp2]
      exact hss

/-! ## Shape of `urlunparse` output and the idempotency of `normalize_url` -/

theorem splitFirst_append_left {p : Char → Bool} {a : PyStr} (x : PyStr)
    (ha : ∀ c ∈ a, p c = false) :
    splitFirst p (a ++ x) = (a ++ (splitFirst p x).1, (splitFirst p x).2) := by
  rcases hx : splitFirst p x with ⟨pre, _ | post⟩
  · obtain ⟨hpre, hall⟩ := splitFirst_none_spec hx
    rw [hpre]
    rw [splitFirst_none_of (fun c hc => by
      rcases List.mem_append.mp hc with hc | hc
      · exact ha c hc
      · exact hall c hc)]
  · obtain ⟨d, hl, hd, hall⟩ := splitFirst_some_spec hx
    rw [hl, ← List.append_assoc]
    rw [splitFirst_append_found d post (fun c hc => by
      rcases List.mem_append.mp hc with hc | hc
      · exact ha c hc
      · exact hall c hc) hd]

theorem splitScheme_no_colon {l : PyStr} (h : ':' ∉ l) : splitScheme l = ([], l) := by
  unfold splitScheme
  rw [splitFirst_none_of (fun c hc => by
    simp only [decide_eq_false_iff_not]
    intro hcon
    exact h (hcon ▸ hc))]

/-- `urlparse` on a path without `';'` adds empty params. -/
theorem urlparseE_no_semi {u : PyStr} {sr : SplitResult} (h : urlsplitE u = Except.ok sr)
    (hsemi : ';' ∉ sr.path) :
    urlparseE u = Except.ok ⟨sr.scheme, sr.netloc, sr.path, [], sr.query, sr.fragment⟩ := by
  unfold urlparseE
  rw [h]
  exact if_neg (fun hcon => hsemi hcon.2)

theorem urlunparse_shape_net (s n P q : PyStr)
    (hcond : n ≠ [] ∨ (s ≠ [] ∧ s ∈ usesNetloc ∧ P.take 2 ≠ ['/', '/'])) :
    urlunparse ⟨s, n, P, [], q, []⟩ =
      (if s ≠ [] then s ++ [':'] else []) ++ '/' :: '/' ::
        ((n ++ (if P ≠ [] ∧ P.take 1 ≠ ['/'] then '/' :: P else P)) ++
          (if q ≠ [] then '?' :: q else [])) := by
  by_cases hn : n = []
  · have h2 : s ≠ [] ∧ s ∈ usesNetloc ∧ P.take 2 ≠ ['/', '/'] := by
      rcases hcond with h | h
      · exact absurd hn h
      · exact h
    by_cases hq : q = [] <;> by_cases hP : P ≠ [] ∧ P.take 1 ≠ ['/'] <;>
      simp [urlunparse, urlunsplit, hn, hq, hP, h2.1, h2.2.1, h2.2.2, List.append_assoc]
  · by_cases hs : s = [] <;> by_cases hq : q = [] <;> by_cases hP : P ≠ [] ∧ P.take 1 ≠ ['/'] <;>
      simp [urlunparse, urlunsplit, hs, hn, hq, hP, List.append_assoc]

theorem urlunparse_shape_nonet (s P q : PyStr)
    (hcond : ¬(s ≠ [] ∧ s ∈ usesNetloc ∧ P.take 2 ≠ ['/', '/'])) :
    urlunparse ⟨s, [], P, [], q, []⟩ =
      (if s ≠ [] then s ++ [':'] else []) ++ (P ++ (if q ≠ [] then '?' :: q else [])) := by
  by_cases hs : s = []
  · by_cases hq : q = [] <;>
      simp [urlunparse, urlunsplit, hs, hq, List.append_assoc]
  · by_cases hu : s ∈ usesNetloc
    · have h3 : P.take 2 = ['/', '/'] := by
        by_contra h4
        exact hcond ⟨hs, hu, h4⟩
      by_cases hq : q = [] <;>
        simp [urlunparse, urlunsplit, hs, hu, h3, hq, List.append_assoc]
    · by_cases hq : q = [] <;>
        simp [urlunparse, urlunsplit, hs, hu, hq, List.append_assoc]

theorem take1_eq_head {l : PyStr} {c : Char} (h : l.take 1 = [c]) : l.head? = some c := by
  cases l with
  | nil => simp at h
  | cons a t =>
    simp only [List.take_succ_cons, List.take_zero] at h
    simp at h
    simp [h]

theorem head_append_left {a : PyStr} (b : PyStr) (ha : a ≠ []) :
    (a ++ b).head? = a.head? := by
  cases a with
  | nil => exact absurd rfl ha
  | cons c t => rfl

theorem take1_append_left {a : PyStr} (b : PyStr) (ha : a ≠ []) :
    (a ++ b).take 1 = a.take 1 := by
  cases a with
  | nil => exact absurd rfl ha
  | cons c t => rfl

/-- The head of `normPath p` is the head of `p`, unless `normPath p = ['/']`. -/
theorem normPath_head (p : PyStr) :
    normPath p = ['/'] ∨ (normPath p).head? = p.head? := by
  rcases normPath_cases p with ⟨hPr, t, hpt, _⟩ | ⟨hP, _⟩
  · right
    conv_rhs => rw [hpt]
    rw [head_append_left t (normPath_ne_nil p)]
  · left
    exact hP

/-- Idempotency of the embedded `normalize_url`, for URLs whose (pre-params)
path contains no `';'` and which do not combine an empty netloc with a
normalized path starting in `//`.  (Outside those two classes, idempotency
genuinely fails in the source — see the counterexamples below.) -/
theorem normalize1E_idem {u v : PyStr} {sr : SplitResult}
    (hsr : urlsplitE u = Except.ok sr)
    (hsemi : ';' ∉ sr.path)
    (hnet : sr.netloc = [] → (normPath sr.path).take 2 ≠ ['/', '/'])
    (hv : normalize1E u = Except.ok v) :
    normalize1E v = Except.ok v := by
  obtain ⟨hS, hn, hbr, hPc0, hqc, hnU, hPU0, hqU, halign⟩ := urlsplitE_ok_inv hsr
  have hpr := urlparseE_no_semi hsr hsemi
  unfold normalize1E at hv
  rw [hpr] at hv
  injection hv with hv
  have hPne : normPath sr.path ≠ [] := normPath_ne_nil sr.path
  have hPc : ∀ c ∈ normPath sr.path, ¬c = '#' ∧ ¬c = '?' := by
    intro c hc
    rcases normPath_mem hc with h | h
    · exact hPc0 c h
    · subst h
      exact ⟨by decide, by decide⟩
  have hPU : ∀ c ∈ normPath sr.path, isUnsafeUrlByte c = false := by
    intro c hc
    rcases normPath_mem hc with h | h
    · exact hPU0 c h
    · subst h
      rfl
  have hPsemi : ';' ∉ normPath sr.path := by
    intro hc
    rcases normPath_mem hc with h | h
    · exact hsemi h
    · exact absurd h (by decide)
  by_cases hC : sr.netloc ≠ [] ∨ (sr.scheme ≠ [] ∧ sr.scheme ∈ usesNetloc ∧
      (normPath sr.path).take 2 ≠ ['/', '/'])
  · -- `urlunsplit` inserted `//`
    set P' : PyStr := if normPath sr.path ≠ [] ∧ (normPath sr.path).take 1 ≠ ['/'] then
        '/' :: normPath sr.path else normPath sr.path with hPPdef
    have hv' : v = (if sr.scheme ≠ [] then sr.scheme ++ [':'] else []) ++ '/' :: '/' ::
        ((sr.netloc ++ P') ++ (if sr.query ≠ [] then '?' :: sr.query else [])) := by
      rw [← hv, urlunparse_shape_net _ _ _ _ hC]
    have hP'1 : P'.take 1 = ['/'] := by
      rw [hPPdef]
      split
      · rfl
      · next hcon =>
        rcases not_and_or.mp hcon with h | h
        · exact absurd hPne (by simpa using h)
        · simpa using h
    have hP'c : ∀ c ∈ P', ¬c = '#' ∧ ¬c = '?' := by
      rw [hPPdef]
      split
      · intro c hc
        rcases List.mem_cons.mp hc with hc | hc
        · subst hc; exact ⟨by decide, by decide⟩
        · exact hPc c hc
      · exact hPc
    have hP'U : ∀ c ∈ P', isUnsafeUrlByte c = false := by
      rw [hPPdef]
      split
      · intro c hc
        rcases List.mem_cons.mp hc with hc | hc
        · subst hc; rfl
        · exact hPU c hc
      · exact hPU
    have hP'semi : ';' ∉ P' := by
      rw [hPPdef]
      split
      · intro hc
        rcases List.mem_cons.mp hc with hc | hc
        · exact absurd hc (by decide)
        · exact hPsemi hc
      · exact hPsemi
    have hrec := urlsplitE_reconstruct_net sr.scheme sr.netloc P' sr.query
      hS hn hbr hP'1 hP'c hqc hnU hP'U hqU
    rw [← hv'] at hrec
    have hpr2 : urlparseE v = Except.ok ⟨sr.scheme, sr.netloc, P', [], sr.query, []⟩ :=
      urlparseE_no_semi hrec hP'semi
    unfold normalize1E
    rw [hpr2]
    show Except.ok (urlunparse ⟨sr.scheme, sr.netloc, normPath P', [], sr.query, []⟩) =
      Except.ok v
    have hnormP' : normPath P' = P' := by
      rw [hPPdef]
      split
      · next hcon =>
        apply normPath_cons_slash
        intro hrs
        have : normPath sr.path = ['/'] := by rw [normPath, if_pos hrs]
        exact hcon.2 (by rw [this]; rfl)
      · exact normPath_idem sr.path
    have hcond2 : sr.netloc ≠ [] ∨ (sr.scheme ≠ [] ∧ sr.scheme ∈ usesNetloc ∧
        P'.take 2 ≠ ['/', '/']) := by
      rcases hC with h | h
      · exact Or.inl h
      · right
        refine ⟨h.1, h.2.1, ?_⟩
        rw [hPPdef]
        split
        · next hcon =>
          rcases hp0 : normPath sr.path with _ | ⟨b, t⟩
          · exact absurd hp0 hPne
          · have hb : ¬b = '/' := by
              intro hb
              apply hcon.2
              rw [hp0, hb]
              rfl
            intro hcon2
            simp at hcon2
            exact hb hcon2
        · exact h.2.2
    have hif : ¬(P' ≠ [] ∧ P'.take 1 ≠ ['/']) := fun hcon => hcon.2 hP'1
    rw [hnormP', urlunparse_shape_net _ _ _ _ hcond2, if_neg hif, ← hv']
  · -- `urlunsplit` did not insert `//`
    have hn0 : sr.netloc = [] := by
      by_contra hcon
      exact hC (Or.inl hcon)
    have hP2 : (normPath sr.path).take 2 ≠ ['/', '/'] := hnet hn0
    have hsu : ¬(sr.scheme ≠ [] ∧ sr.scheme ∈ usesNetloc ∧
        (normPath sr.path).take 2 ≠ ['/', '/']) := fun hcon => hC (Or.inr hcon)
    have hv' : v = (if sr.scheme ≠ [] then sr.scheme ++ [':'] else []) ++
        (normPath sr.path ++ (if sr.query ≠ [] then '?' :: sr.query else [])) := by
      rw [← hv, hn0, urlunparse_shape_nonet _ _ _ hsu]
    have hPhead : sr.scheme = [] → ((normPath sr.path).head? = some '/' ∨
        (∃ t, cleanUrl u = normPath sr.path ++ t ∧
          splitScheme (cleanUrl u) = ([], cleanUrl u))) := by
      intro hs0
      rcases halign hs0 hn0 with hal | hal | hal
      · left
        rcases normPath_head sr.path with hh | hh
        · rw [hh]; rfl
        · rw [hh]
          exact take1_eq_head hal
      · left
        rcases normPath_head sr.path with hh | hh
        · rw [hh]; rfl
        · rw [hal] at hh
          exact absurd hh (by decide)
      · obtain ⟨t, hcl, hsscl⟩ := hal
        rcases normPath_cases sr.path with ⟨hPr, t', hpt, _⟩ | ⟨hP1, _⟩
        · right
          refine ⟨t' ++ t, ?_, hsscl⟩
          rw [hcl]
          conv_lhs => rw [hpt]
          rw [List.append_assoc]
        · left
          rw [hP1]
          rfl
    have hsch : sr.scheme = [] → splitScheme (normPath sr.path ++
        (if sr.query ≠ [] then '?' :: sr.query else [])) =
        ([], normPath sr.path ++ (if sr.query ≠ [] then '?' :: sr.query else [])) := by
      intro hs0
      rcases hPhead hs0 with hh | ⟨t, hcl, hsscl⟩
      · apply splitScheme_slash
        rw [head_append_left _ hPne]
        exact hh
      · by_cases hcol : ':' ∈ normPath sr.path
        · apply splitScheme_none_colon_in hcol
          rw [← hcl]
          exact hsscl
        · by_cases hcq : ':' ∈ (if sr.query ≠ [] then '?' :: sr.query else []) 
          · have hqne : sr.query ≠ [] := by
              intro hq0
              rw [if_neg (by simp [hq0])] at hcq
              simp at hcq
            rw [if_pos hqne] at hcq ⊢
            unfold splitScheme
            rw [splitFirst_append_left _ (fun c hc => by
              simp only [decide_eq_false_iff_not]
              intro hcon
              exact hcol (hcon ▸ hc))]
            rcases hq2 : splitFirst (· = ':') ('?' :: sr.query) with ⟨pre2, _ | post2⟩
            · rfl
            · obtain ⟨d, hl, hd, hall⟩ := splitFirst_some_spec hq2
              have hq3 : '?' ∈ pre2 := by
                cases pre2 with
                | nil =>
                  simp at hl
                  have : d = '?' := hl.1.symm
                  rw [this] at hd
                  simp at hd
                | cons a t2 =>
                  have : a = '?' := by
                    have := hl
                    simp at this
                    exact this.1.symm
                  rw [this]
                  simp
              have hok : schemeOk (normPath sr.path ++ pre2) = false :=
                schemeOk_false_of_mem '?' (List.mem_append_right _ hq3)
                  (by decide) (by decide)
              simp [hok]
          · apply splitScheme_no_colon
            intro hc
            rcases List.mem_append.mp hc with hc | hc
            · exact hcol hc
            · exact hcq hc
    have hPhd : sr.scheme = [] → ∀ h0, (normPath sr.path).head? = some h0 →
        isC0OrSpace h0 = false := by
      intro hs0 h0 hh0
      rcases hPhead hs0 with hh | ⟨t, hcl, hsscl⟩
      · rw [hh0] at hh
        injection hh with hh
        rw [hh]
        rfl
      · apply cleanUrl_head (u := u)
        rw [hcl, head_append_left _ hPne]
        exact hh0
    have hrec := urlsplitE_reconstruct_nonet sr.scheme (normPath sr.path) sr.query
      hS hPne hP2 hPc hqc hPU hqU hPhd hsch
    rw [← hv'] at hrec
    have hpr2 : urlparseE v =
        Except.ok ⟨sr.scheme, [], normPath sr.path, [], sr.query, []⟩ :=
      urlparseE_no_semi hrec hPsemi
    unfold normalize1E
    rw [hpr2]
    show Except.ok (urlunparse ⟨sr.scheme, [], normPath (normPath sr.path), [],
      sr.query, []⟩) = Except.ok v
    have hsu2 : ¬(sr.scheme ≠ [] ∧ sr.scheme ∈ usesNetloc ∧
        (normPath (normPath sr.path)).take 2 ≠ ['/', '/']) := by
      rw [normPath_idem]
      exact hsu
    rw [urlunparse_shape_nonet _ _ _ hsu2, normPath_idem, ← hv']

/-! ## SHA-256 (`hashlib.sha256(...).hexdigest()`), over byte lists -/

def rotr32 (n x : Nat) : Nat := ((x >>> n) ||| (x <<< (32 - n))) % 2 ^ 32

def notW (x : Nat) : Nat := 0xffffffff - x % 2 ^ 32

def bigSigma0 (x : Nat) : Nat := rotr32 2 x ^^^ rotr32 13 x ^^^ rotr32 22 x

def bigSigma1 (x : Nat) : Nat := rotr32 6 x ^^^ rotr32 11 x ^^^ rotr32 25 x

def smallSigma0 (x : Nat) : Nat := rotr32 7 x ^^^ rotr32 18 x ^^^ (x >>> 3)

def smallSigma1 (x : Nat) : Nat := rotr32 17 x ^^^ rotr32 19 x ^^^ (x >>> 10)

def chW (x y z : Nat) : Nat := (x &&& y) ^^^ (notW x &&& z)

def majW (x y z : Nat) : Nat := (x &&& y) ^^^ (x &&& z) ^^^ (y &&& z)

/-- The 64 SHA-256 round constants (FIPS 180-4), in decimal. -/
def sha256K : List Nat :=
  [1116352408, 1899447441, 3049323471, 3921009573, 961987163, 1508970993,
   2453635748, 2870763221, 3624381080, 310598401, 607225278, 1426881987,
   1925078388, 2162078206, 2614888103, 3248222580, 3835390401, 4022224774,
   264347078, 604807628, 770255983, 1249150122, 1555081692, 1996064986,
   2554220882, 2821834349, 2952996808, 3210313671, 3336571891, 3584528711,
   113926993, 338241895, 666307205, 773529912, 1294757372, 1396182291,
   1695183700, 1986661051, 2177026350, 2456956037, 2730485921, 2820302411,
   3259730800, 3345764771, 3516065817, 3600352804, 4094571909, 275423344,
   430227734, 506948616, 659060556, 883997877, 958139571, 1322822218,
   1537002063, 1747873779, 1955562222, 2024104815, 2227730452, 2361852424,
   2428436474, 2756734187, 3204031479, 3329325298]

structure Sha256State where
  sa : Nat
  sb : Nat
  sc : Nat
  sd : Nat
  se : Nat
  sf : Nat
  sg : Nat
  sh : Nat

def sha256Init : Sha256State :=
  ⟨1779033703, 3144134277, 1013904242, 2773480762,
   1359893119, 2600822924, 528734635, 1541459225⟩

/-- Extend the 16 message-schedule words to 64. -/
def extendW : Nat → List Nat → List Nat
  | 0, ws => ws
  | k + 1, ws =>
    let m := ws.length
    let w := (smallSigma1 (ws.getD (m - 2) 0) + ws.getD (m - 7) 0 +
              smallSigma0 (ws.getD (m - 15) 0) + ws.getD (m - 16) 0) % 2 ^ 32
    extendW k (ws ++ [w])

def sha256Round (st : Sha256State) (wk : Nat × Nat) : Sha256State :=
  let t1 := (st.sh + bigSigma1 st.se + chW st.se st.sf st.sg + wk.2 + wk.1) % 2 ^ 32
  let t2 := (bigSigma0 st.sa + majW st.sa st.sb st.sc) % 2 ^ 32
  ⟨(t1 + t2) % 2 ^ 32, st.sa, st.sb, st.sc, (st.sd + t1) % 2 ^ 32, st.se, st.sf, st.sg⟩

def wordsOfBlock (block : List Nat) : List Nat :=
  (List.range 16).map fun i =>
    block.getD (4 * i) 0 * 2 ^ 24 + block.getD (4 * i + 1) 0 * 2 ^ 16 +
    block.getD (4 * i + 2) 0 * 2 ^ 8 + block.getD (4 * i + 3) 0

def sha256Block (st : Sha256State) (block : List Nat) : Sha256State :=
  let ws := extendW 48 (wordsOfBlock block)
  let e := (ws.zip sha256K).foldl sha256Round st
  ⟨(st.sa + e.sa) % 2 ^ 32, (st.sb + e.sb) % 2 ^ 32, (st.sc + e.sc) % 2 ^ 32,
   (st.sd + e.sd) % 2 ^ 32, (st.se + e.se) % 2 ^ 32, (st.sf + e.sf) % 2 ^ 32,
   (st.sg + e.sg) % 2 ^ 32, (st.sh + e.sh) % 2 ^ 32⟩

/-- SHA-256 padding: `0x80`, zeros to 56 mod 64, then the 64-bit bit length. -/
def sha256Pad (msg : List Nat) : List Nat :=
  let padZeros := (119 - msg.length % 64) % 64
  msg ++ [0x80] ++ List.replicate padZeros 0 ++
    (List.range 8).map (fun i => (msg.length * 8) >>> (56 - 8 * i) % 2 ^ 64 % 256)

def sha256Words (msg : List Nat) : List Nat :=
  let final := ((sha256Pad msg).toChunks 64).foldl sha256Block sha256Init
  [final.sa, final.sb, final.sc, final.sd, final.se, final.sf, final.sg, final.sh]

def hexDigit (n : Nat) : Char :=
  if n < 10 then Char.ofNat (48 + n) else Char.ofNat (87 + n)

def word32Hex (w : Nat) : PyStr :=
  (List.range 8).map fun i => hexDigit (w >>> (28 - 4 * i) % 16)

/-- `hashlib.sha256(bytes).hexdigest()`. -/
def sha256Hex (msg : List Nat) : PyStr :=
  ((sha256Words msg).map word32Hex).flatten

/-- UTF-8 encoding of one character (`str.encode('utf-8')`). -/
def utf8Encode (c : Char) : List Nat :=
  let n := c.toNat
  if n < 0x80 then [n]
  else if n < 0x800 then
    [0xC0 ||| (n >>> 6), 0x80 ||| (n &&& 0x3F)]
  else if n < 0x10000 then
    [0xE0 ||| (n >>> 12), 0x80 ||| ((n >>> 6) &&& 0x3F), 0x80 ||| (n &&& 0x3F)]
  else
    [0xF0 ||| (n >>> 18), 0x80 ||| ((n >>> 12) &&& 0x3F),
     0x80 ||| ((n >>> 6) &&& 0x3F), 0x80 ||| (n &&& 0x3F)]

def utf8Bytes (l : PyStr) : List Nat := (l.map utf8Encode).flatten

/-! ## `app/domain/fingerprints.py` -/

/-- Python's `\s` class for the ASCII fragment. -/
def isPySpace (c : Char) : Bool :=
  c = ' ' || c = '\t' || c = '\n' || c = '\r' || c = Char.ofNat 11 || c = Char.ofNat 12

/-- `str.strip()` (ASCII whitespace fragment). -/
def pyStrip (l : PyStr) : PyStr :=
  (l.dropWhile isPySpace).rdropWhile isPySpace

/-- Helper for `re.sub(r'\s+', ' ', text)`: `inRun` says the previous
character was whitespace (so this run's `' '` is already emitted). -/
def collapseAux : Bool → PyStr → PyStr
  | _, [] => []
  | inRun, c :: t =>
    if isPySpace c then
      if inRun then collapseAux true t else ' ' :: collapseAux true t
    else c :: collapseAux false t

/-- `re.sub(r'\s+', ' ', text)`: collapse whitespace runs to single spaces. -/
def collapseWs (l : PyStr) : PyStr := collapseAux false l

/-- `fingerprints.normalize_text`: lowercase, strip, collapse whitespace. -/
def normalizeText (text : PyStr) : PyStr :=
  if text = [] then []
  else collapseWs (pyStrip (pyLower text))

/-- `fingerprints.normalize_url`: drop the fragment, strip trailing slashes,
lowercase. -/
def fpNormalizeUrl (url : PyStr) : PyStr :=
  if url = [] then []
  else pyLower (rstripSlash (cutFirst (· = '#') url).1)

/-- `fingerprints.compute_content_hash`. -/
def computeContentHash (text : PyStr) : PyStr :=
  sha256Hex (utf8Bytes (normalizeText text))

/-- The `"|".join(parts)` string that `compute_issue_fingerprint` hashes.
`guideline_rule_id` is `none` for Python `None`; an empty string is falsy in
Python and is likewise skipped. -/
def fingerprintInput (page_url category issue_type evidence : PyStr)
    (guideline_rule_id : Option PyStr) : PyStr :=
  let parts := [fpNormalizeUrl page_url,
                if category = [] then [] else pyLower category,
                if issue_type = [] then [] else pyLower issue_type,
                (normalizeText evidence).take 200]
  let parts :=
    match guideline_rule_id with
    | some rid => if rid = [] then parts else parts ++ [rid]
    | none => parts
  List.intercalate ['|'] parts

/-- `fingerprints.compute_issue_fingerprint`. -/
def computeIssueFingerprint (page_url category issue_type evidence : PyStr)
    (guideline_rule_id : Option PyStr) : PyStr :=
  sha256Hex (utf8Bytes (fingerprintInput page_url category issue_type evidence
    guideline_rule_id))

/-! ## `app/services/diff_service.py` — `DiffService.compare`

Fingerprint-keyed dicts are association lists in insertion order; findings
are records with the attributes `_count_by_attr` reads (`severity`,
`category`, defaulting to `"unknown"` when absent) plus an opaque payload. -/

structure DFinding where
  severity : Option PyStr
  category : Option PyStr
  payload : PyStr
deriving DecidableEq

structure DiffResult where
  new_issues : List DFinding
  resolved_issues : List DFinding
  unchanged_count : Nat
  new_count : Nat
  resolved_count : Nat
  new_by_severity : List (PyStr × Nat)
  resolved_by_severity : List (PyStr × Nat)
  new_by_category : List (PyStr × Nat)
  resolved_by_category : List (PyStr × Nat)
deriving DecidableEq

def dictKeys (d : List (PyStr × DFinding)) : List PyStr := d.map Prod.fst

def dictGet (d : List (PyStr × DFinding)) (k : PyStr) : Option DFinding :=
  (d.find? fun p => decide (p.1 = k)).map Prod.snd

/-- One step of `counts[val] = counts.get(val, 0) + 1` on an insertion-ordered
counter dict. -/
def bumpCount (counts : List (PyStr × Nat)) (val : PyStr) : List (PyStr × Nat) :=
  if counts.any (fun p => decide (p.1 = val)) then
    counts.map fun p => if p.1 = val then (p.1, p.2 + 1) else p
  else counts ++ [(val, 1)]

/-- `DiffService._count_by_attr` (`str(getattr(issue, attr, None) or
issue.get(attr, "unknown"))` reduces to `issue.get(attr, "unknown")` on
dict-shaped findings). -/
def countByAttr (attr : DFinding → Option PyStr) (issues : List DFinding) :
    List (PyStr × Nat) :=
  issues.foldl (fun counts f => bumpCount counts ((attr f).getD (s2l "unknown"))) []

/-- `DiffService.compare`. Key-set differences and the intersection are
computed over the dicts' (unique) keys; Python's set iteration order is
unspecified, so list order of `new_issues`/`resolved_issues` here is one
representative (source insertion order). -/
def diffCompare (a b : List (PyStr × DFinding)) : DiffResult :=
  let aKeys := dictKeys a
  let bKeys := dictKeys b
  let newKeys := bKeys.filter fun k => decide (k ∉ aKeys)
  let resolvedKeys := aKeys.filter fun k => decide (k ∉ bKeys)
  let unchangedKeys := aKeys.filter fun k => decide (k ∈ bKeys)
  let newIssues := newKeys.filterMap (dictGet b)
  let resolvedIssues := resolvedKeys.filterMap (dictGet a)
  { new_issues := newIssues
    resolved_issues := resolvedIssues
    unchanged_count := unchangedKeys.length
    new_count := newKeys.length
    resolved_count := resolvedKeys.length
    new_by_severity := countByAttr DFinding.severity newIssues
    resolved_by_severity := countByAttr DFinding.severity resolvedIssues
    new_by_category := countByAttr DFinding.category newIssues
    resolved_by_category := countByAttr DFinding.category resolvedIssues }

theorem dictGet_mem {d : List (PyStr × DFinding)} {k : PyStr} {f : DFinding}
    (h : dictGet d k = some f) : (k, f) ∈ d := by
  unfold dictGet at h
  rcases Option.map_eq_some'.mp h with ⟨p, hp, hsnd⟩
  have hmem := List.mem_of_find?_eq_some hp
  have hpred := List.find?_some hp
  simp only [decide_eq_true_eq] at hpred
  have : p = (k, f) := by
    cases p; simp_all
  rw [this] at hmem; exact hmem

theorem mem_dictGet {d : List (PyStr × DFinding)}
    (hd : (dictKeys d).Nodup) {k : PyStr} {f : DFinding}
    (h : (k, f) ∈ d) : dictGet d k = some f := by
  induction d with
  | nil => cases h
  | cons p t ih =>
    rcases List.mem_cons.mp h with heq | ht
    · subst heq
      simp [dictGet, List.find?]
    · have hk : k ∈ dictKeys t := List.mem_map_of_mem Prod.fst ht
      have hne : p.1 ≠ k := by
        intro hc
        have := (List.nodup_cons.mp hd).1
        rw [hc] at this
        exact this hk
      have ht' : (dictKeys t).Nodup := (List.nodup_cons.mp hd).2
      simp only [dictGet, List.find?]
      rw [decide_eq_false hne]
      exact ih ht' ht

/-! ## Exclusion rules: `exclusion_service.ExclusionService._is_excluded` and
`discovery_service.DiscoveryService._should_exclude`

`re.search(rule_value, url, re.IGNORECASE)` is abstracted as the oracle `rx`;
both functions treat `re.error` exactly like a non-match (warn-and-fall-through
in one, `continue` in the other), so the oracle returns the effective Bool. -/

structure ExRule where
  rule_type : PyStr
  rule_value : PyStr
deriving DecidableEq

abbrev RegexOracle := PyStr → PyStr → Bool

/-- The rule loop of `ExclusionService._is_excluded`; `path` is the
pre-computed `urlparse(url).path.lower()`, `hostD` the
`urlparse(url).hostname or ""` used by `domain_blocklist` rules. -/
def isExcludedLoop (rx : RegexOracle) (url path hostD : PyStr) :
    List ExRule → Bool
  | [] => false
  | r :: rest =>
    if r.rule_type = s2l "url_contains" then
      if pyContainsSub (pyLower url) (pyLower r.rule_value) then true
      else isExcludedLoop rx url path hostD rest
    else if r.rule_type = s2l "url_regex" then
      if rx r.rule_value url then true else isExcludedLoop rx url path hostD rest
    else if r.rule_type = s2l "path_blocklist" then
      if pyContainsSub path (pyLower r.rule_value) then true
      else isExcludedLoop rx url path hostD rest
    else if r.rule_type = s2l "domain_blocklist" then
      if pyContainsSub (pyLower hostD) (pyLower r.rule_value) then true
      else isExcludedLoop rx url path hostD rest
    else isExcludedLoop rx url path hostD rest

/-- `ExclusionService._is_excluded` (the `urlparse` on line one can raise
`ValueError` for an unbalanced-bracket netloc, hence `Except`). -/
def isExcludedE (rx : RegexOracle) (url : PyStr) (rules : List ExRule) :
    Except PyExn Bool :=
  match urlparseE url with
  | Except.error e => Except.error e
  | Except.ok pr =>
    Except.ok (isExcludedLoop rx url (pyLower pr.path)
      ((hostnameOf pr.netloc).getD []) rules)

/-- The rule loop of `DiscoveryService._should_exclude`: note its
`url_contains` branch tests `rule_value.lower() in path` — the PATH, not the
full URL. -/
def shouldExcludeLoop (rx : RegexOracle) (url path : PyStr) :
    List ExRule → Bool
  | [] => false
  | r :: rest =>
    if r.rule_type = s2l "url_contains" then
      if pyContainsSub path (pyLower r.rule_value) then true
      else shouldExcludeLoop rx url path rest
    else if r.rule_type = s2l "url_regex" then
      if rx r.rule_value url then true else shouldExcludeLoop rx url path rest
    else if r.rule_type = s2l "path_blocklist" then
      if pyContainsSub path (pyLower r.rule_value) then true
      else shouldExcludeLoop rx url path rest
    else shouldExcludeLoop rx url path rest

/-- `DiscoveryService._should_exclude`. -/
def shouldExcludeE (rx : RegexOracle) (url : PyStr) (rules : List ExRule) :
    Except PyExn Bool :=
  match urlparseE url with
  | Except.error e => Except.error e
  | Except.ok pr => Except.ok (shouldExcludeLoop rx url (pyLower pr.path) rules)

/-! ## `app/workers/tasks.py` — `run_validation_job` and `_update_progress`

Pure model of the worker pipeline.  Effects are oracles:
`scrapeOk i` says whether page `i`'s scrape try-block succeeds (its body —
`scrape_url`, chunk saving, progress publish — either completes or raises;
either way the loop continues and `scraped += 1`); `valIssues i` gives the
issues committed for page `i` when its validation runs (validator internals,
their inner try/except, and the rule-id lookup are folded into the oracle).
The outer `except Exception` is modeled by `interrupt`: `some k` means the
pipeline raises after `k` progress events were published, upon which the
handler marks the job failed and publishes the counterless
`{"stage": "failed"}` event.  The Redis publisher and the logger are assumed
reliable (they never raise), so interrupts fall at event boundaries and the
failure handler always emits its event. -/

inductive ScrapeSt where
  | done
  | failedS
deriving DecidableEq

inductive JobStatusL where
  | running
  | completed
  | failedJ
deriving DecidableEq

inductive EvStage where
  | scraping
  | validating
  | finalizing
  | failedE
deriving DecidableEq

structure Event where
  stage : EvStage
  total_pages : Option Nat
  scraped : Option Nat
  validated : Option Nat
deriving DecidableEq

structure IssueData where
  category : PyStr
  itype : PyStr
  evidence : PyStr
  ruleId : Option PyStr
deriving DecidableEq

/-- The fingerprint the worker stores with a committed issue. -/
def mkIssueFp (url : PyStr) (d : IssueData) : PyStr :=
  computeIssueFingerprint url d.category d.itype d.evidence d.ruleId

def failedEvent : Event := ⟨EvStage.failedE, none, none, none⟩

/-- The full event sequence of an uninterrupted run: the scraping start
event, one event per page in the scraping loop (counters read before the
scrape), the validating start event, one event per page whose
`scrape_status` is DONE (pages skipped by the `continue` publish nothing but
still increment `validated`), and the finalizing event. -/
def jobFullEvents (n : Nat) (scrapeOk : Nat → Bool) : List Event :=
  (⟨EvStage.scraping, some n, some 0, some 0⟩ ::
    (List.range n).map fun i => ⟨EvStage.scraping, some n, some i, some 0⟩) ++
  (⟨EvStage.validating, some n, some n, some 0⟩ ::
    (List.range n).filterMap fun i =>
      if scrapeOk i then some ⟨EvStage.validating, some n, some n, some i⟩
      else none) ++
  [⟨EvStage.finalizing, some n, some n, some n⟩]

/-- The events a subscriber observes: the full sequence, or — when the
pipeline raises after `k` publishes — the `k`-event prefix followed by the
failure handler's event. -/
def jobEvents (n : Nat) (scrapeOk : Nat → Bool) (interrupt : Option Nat) :
    List Event :=
  match interrupt with
  | none => jobFullEvents n scrapeOk
  | some k => (jobFullEvents n scrapeOk).take k ++ [failedEvent]

structure JobOutcome where
  status : JobStatusL
  finalizedStage : Bool
  scraped : Nat
  validated : Nat
  pageStatus : List ScrapeSt
  issues : List PyStr
  events : List Event
deriving DecidableEq

/-- The scraping loop (`for page in pages: try ... except`): page `i`'s
try-block either completes — chunks saved, `scrape_status = DONE` — or
raises, and the handler sets `scrape_status = FAILED`; `scraped += 1` on
BOTH paths, and the loop continues with the next page either way. -/
def scrapeLoop (scrapeOk : Nat → Bool) :
    List Nat → Nat → List ScrapeSt → Nat × List ScrapeSt
  | [], scraped, statuses => (scraped, statuses)
  | i :: rest, scraped, statuses =>
    if scrapeOk i then
      scrapeLoop scrapeOk rest (scraped + 1) (statuses ++ [ScrapeSt.done])
    else
      scrapeLoop scrapeOk rest (scraped + 1) (statuses ++ [ScrapeSt.failedS])

/-- The validating loop over pages paired with their scrape status: a page
whose status is not DONE is skipped by the `continue` (still
`validated += 1`); a DONE page has its issues committed with their
fingerprints, and `validated += 1` whether the per-page try succeeds or
its handler runs (the committed issues are the oracle `valIssues`). -/
def validateLoop (valIssues : Nat → List IssueData) (urls : List PyStr) :
    List (Nat × ScrapeSt) → Nat → List PyStr → Nat × List PyStr
  | [], validated, issues => (validated, issues)
  | (i, st) :: rest, validated, issues =>
    if st = ScrapeSt.done then
      validateLoop valIssues urls rest (validated + 1)
        (issues ++ (valIssues i).map (mkIssueFp (urls.getD i [])))
    else
      validateLoop valIssues urls rest (validated + 1) issues

/-- `run_validation_job` on the selected pages' URLs: run the scraping loop
over all pages, then the validating loop over the pages with the statuses
the first loop produced; an uninterrupted run then executes the final
UPDATE that sets status COMPLETED and stage FINALIZING with the counters
the loops computed.  An interrupted run is marked FAILED by the handler
(which writes no counters). -/
def runValidationJob (pages : List PyStr) (scrapeOk : Nat → Bool)
    (valIssues : Nat → List IssueData) (interrupt : Option Nat) : JobOutcome :=
  let n := pages.length
  match interrupt with
  | some k =>
    { status := JobStatusL.failedJ
      finalizedStage := false
      scraped := 0, validated := 0
      pageStatus := []
      issues := []
      events := jobEvents n scrapeOk (some k) }
  | none =>
    let sres := scrapeLoop scrapeOk (List.range n) 0 []
    let vres := validateLoop valIssues pages ((List.range n).zip sres.2) 0 []
    { status := JobStatusL.completed
      finalizedStage := true
      scraped := sres.1
      validated := vres.1
      pageStatus := sres.2
      issues := vres.2
      events := jobEvents n scrapeOk none }

/-- Events a subscriber can compare for counter monotonicity: both counters
are non-decreasing wherever both events carry them. -/
def evLe (a b : Event) : Prop :=
  (∀ x y, a.scraped = some x → b.scraped = some y → x ≤ y) ∧
  (∀ x y, a.validated = some x → b.validated = some y → x ≤ y)

def isTerminalEv (e : Event) : Bool :=
  e.stage = EvStage.finalizing || e.stage = EvStage.failedE

/-! ## `app/utils/html_extract.py` and
`app/services/scraper_service.py` — `ScraperService.scrape_url` -/

/-- Helper for `str.split()`: `cur` is the current word, reversed. -/
def splitWsAux (cur : PyStr) : PyStr → List PyStr
  | [] => if cur = [] then [] else [cur.reverse]
  | c :: t =>
    if isPySpace c then
      if cur = [] then splitWsAux [] t else cur.reverse :: splitWsAux [] t
    else splitWsAux (c :: cur) t

/-- `str.split()` with no separator: split on whitespace runs, ignoring
leading/trailing whitespace. -/
def pySplitWs (l : PyStr) : List PyStr := splitWsAux [] l

/-- `html_extract.clean_text`: collapse whitespace runs, then strip. -/
def cleanText (t : PyStr) : PyStr :=
  if t = [] then [] else pyStrip (collapseWs t)

/-- `html_extract.estimate_tokens`: `int(len(text.split()) / 0.75)`.  The
float division is exact enough that the result is `⌊4·words/3⌋` for every
realistic size (`words < 2^50`). -/
def estimateTokens (t : PyStr) : Nat :=
  if t = [] then 0 else 4 * (pySplitWs t).length / 3

/-- `html_extract.heading_level`: `re.match(r'^h(\d)$', tag.lower())`. -/
def headingLevel (tag : PyStr) : Option Nat :=
  match pyLower tag with
  | ['h', d] => if isAsciiDigit d then some (d.toNat - 48) else none
  | _ => none

structure Chunk where
  heading_path : PyStr
  content_text : PyStr
  content_hash : PyStr
  token_estimate : Nat
  title : PyStr
deriving DecidableEq

/-- One `f"H{lv}: {t}"` heading-path entry (`lv` is a single digit). -/
def headingEntry (lv : Nat) (t : PyStr) : PyStr :=
  'H' :: Char.ofNat (48 + lv) :: ':' :: ' ' :: t

/-- `" > ".join(f"H{lv}: {t}" for lv, t in heading_stack)`. -/
def headingPath (stack : List (Nat × PyStr)) : PyStr :=
  List.intercalate (s2l " > ") (stack.map fun p => headingEntry p.1 p.2)

def joinNl (ts : List PyStr) : PyStr := List.intercalate ['\n'] ts

def mkChunk (path text title : PyStr) : Chunk :=
  ⟨path, text, computeContentHash text, estimateTokens text, title⟩

/-- The heading-grouping loop of `_extract_structured_content` over the
`(tag, text)` pairs the page evaluation returned. -/
def extractLoop (title : PyStr) (els : List (PyStr × PyStr))
    (stack : List (Nat × PyStr)) (curPath : PyStr) (curTexts : List PyStr)
    (chunks : List Chunk) : List Chunk :=
  match els with
  | [] =>
    if curTexts ≠ [] ∧ pyStrip (joinNl curTexts) ≠ [] then
      chunks ++ [mkChunk curPath (joinNl curTexts) title]
    else chunks
  | (tag, text) :: rest =>
    match headingLevel tag with
    | some level =>
      let chunks' :=
        if curTexts ≠ [] ∧ pyStrip (joinNl curTexts) ≠ [] then
          chunks ++ [mkChunk curPath (joinNl curTexts) title]
        else chunks
      let stack' := (stack.rdropWhile fun p => decide (level ≤ p.1)) ++ [(level, text)]
      extractLoop title rest stack' (headingPath stack') [] chunks'
    | none => extractLoop title rest stack curPath (curTexts ++ [text]) chunks

/-- `_extract_structured_content`: a raised page evaluation is caught (the
chunks so far — none — are returned), an empty element list returns `[]`. -/
def extractStructured (els : Except Unit (List (PyStr × PyStr)))
    (title : PyStr) : List Chunk :=
  match els with
  | Except.error _ => []
  | Except.ok [] => []
  | Except.ok es => extractLoop title es [] [] [] []

/-- The effects of one `scrape_url` call.  `outcome`: `error` is an exception
anywhere in the outer try-block up to the `goto`, `ok none` a `None`
response, `ok (some (status, title))` a response.  `elements` is the
structured-extraction page evaluation (`error` = it raised).  `fallback` is
the second playwright session of the fallback branch (`error` = it raised,
`ok t` = the container's `inner_text`). -/
structure PageFetch where
  outcome : Except Unit (Option (Nat × PyStr))
  elements : Except Unit (List (PyStr × PyStr))
  fallback : Except Unit PyStr

/-- `ScraperService.scrape_url`.  Only `SSRFError` from the gate is caught;
the `ValueError` that `urlparse` raises for an unbalanced-bracket netloc
propagates (the call sits before/outside the outer try). -/
def scrapeUrlE (resolve : DnsOracle) (f : PageFetch) (url : PyStr) :
    Except PyExn (List Chunk) :=
  match validateUrlE resolve url with
  | Except.error PyExn.ssrfError => Except.ok []
  | Except.error e => Except.error e
  | Except.ok _ =>
    match f.outcome with
    | Except.error _ => Except.ok []
    | Except.ok none => Except.ok []
    | Except.ok (some (status, title)) =>
      if 400 ≤ status then Except.ok []
      else
        let chunks := extractStructured f.elements title
        if chunks = [] then
          match f.fallback with
          | Except.error _ => Except.ok []
          | Except.ok rawText =>
            let text := cleanText rawText
            if text = [] then Except.ok []
            else Except.ok [mkChunk [] (text.take 5000) title]
        else Except.ok chunks

/-! ## `app/services/discovery_service.py` — `DiscoveryService.discover`

Network and browser effects are oracles: `SitemapFetch` for the sitemap
HTTP/XML stage, `navLinks` for the Playwright nav-link harvest, and a
per-url `CrawlFetch` for the BFS crawl; `urljoin` stays the abstract `join`.
The BFS loop takes explicit fuel (the claims hold for every fuel). -/

inductive PageSrc where
  | sitemap
  | nav
  | crawl
deriving DecidableEq

structure DPage where
  url : PyStr
  title : Option PyStr
  source : PageSrc
  selected : Bool
deriving DecidableEq

/-- The capped same-domain URL accumulation of `_discover_sitemap`
(`append`, then `if len(urls) >= max_pages: break`). -/
def sitemapCollect (base : PyStr) (maxP : Nat) :
    List PyStr → List PyStr → List PyStr
  | [], acc => acc
  | u :: rest, acc =>
    if isSameDomain u base then
      let acc' := acc ++ [u]
      if maxP ≤ acc'.length then acc'
      else sitemapCollect base maxP rest acc'
    else sitemapCollect base maxP rest acc

/-- The sitemap-index loop: at most 5 sub-sitemaps, a failed sub-fetch is
skipped (`except Exception: continue`), and the outer cap check breaks after
each sub-sitemap. -/
def sitemapIndexCollect (base : PyStr) (maxP : Nat) :
    List (Except Unit (List PyStr)) → List PyStr → List PyStr
  | [], acc => acc
  | s :: rest, acc =>
    match s with
    | Except.error _ => sitemapIndexCollect base maxP rest acc
    | Except.ok us =>
      let acc' := sitemapCollect base maxP us acc
      if maxP ≤ acc'.length then acc'
      else sitemapIndexCollect base maxP rest acc'

/-- Outcome of fetching `{base}/sitemap.xml`: an exception anywhere
(caught, pages so far returned — none reach the page-building loop in that
case), a non-200 status, a sitemap index (each sub-sitemap an `Except`), or
a regular sitemap's `loc` texts. -/
inductive SitemapFetch where
  | err
  | badStatus
  | index (subs : List (Except Unit (List PyStr)))
  | plain (urls : List PyStr)

/-- `DiscoveryService._discover_sitemap` (`titleOf` stands for the parallel
title fetch, which returns `None` on any failure). -/
def discoverSitemap (titleOf : PyStr → Option PyStr) (fetch : SitemapFetch)
    (base : PyStr) (maxP : Nat) : List DPage :=
  match fetch with
  | SitemapFetch.err => []
  | SitemapFetch.badStatus => []
  | SitemapFetch.index subs =>
    (sitemapIndexCollect base maxP (subs.take 5) []).map fun u =>
      ⟨u, titleOf u, PageSrc.sitemap, true⟩
  | SitemapFetch.plain us =>
    (sitemapCollect base maxP us []).map fun u =>
      ⟨u, titleOf u, PageSrc.sitemap, true⟩

/-- `href.startswith(('#', 'javascript:', 'tel:', 'mailto:'))`. -/
def badHrefStart (h : PyStr) : Bool :=
  (s2l "#").isPrefixOf h || (s2l "javascript:").isPrefixOf h ||
  (s2l "tel:").isPrefixOf h || (s2l "mailto:").isPrefixOf h

/-- `DiscoveryService._discover_nav`: each harvested link is `none` when its
attribute access raised (`except Exception: continue`), otherwise its
`(href, text)`; a `ValueError` from `normalize_url` is likewise caught by
the per-link `except`. -/
def discoverNav (join : PyStr → PyStr → PyStr)
    (navLinks : List (Option (PyStr × PyStr))) (base : PyStr) : List DPage :=
  navLinks.filterMap fun l =>
    match l with
    | none => none
    | some (href, text) =>
      if href ≠ [] ∧ badHrefStart href = false then
        match normalizeWithBaseE join base href with
        | Except.error _ => none
        | Except.ok full =>
          if isSameDomain full base then
            some ⟨full, if text = [] then none else some text, PageSrc.nav, true⟩
          else none
      else none

/-- One crawled link's `get_attribute('href')`: raised, `None`, or a value. -/
inductive LinkRes where
  | raised
  | noHref
  | href (h : PyStr)

/-- Outcome of `page.goto` on one crawl node: raised (caught → `continue`),
`None` response, or a response with status, title and harvested links. -/
inductive CrawlFetch where
  | err
  | noResp
  | resp (status : Nat) (title : Option PyStr) (links : List LinkRes)

/-- The `while queue and len(pages) < max_pages` loop of
`DiscoveryService._crawl_bfs`.  A node deeper than `max_depth` is dropped;
re-normalization happens at pop time (outside the per-node try, so a
`ValueError` there escapes the loop into the method's outer handler, which
returns the pages accumulated so far); links are harvested only when
`depth < max_depth`, truncated to 100, joined against the node's url, and
enqueued when same-domain and unvisited. -/
def crawlStep (join : PyStr → PyStr → PyStr) (fetch : PyStr → CrawlFetch)
    (base : PyStr) (maxP maxD : Nat) :
    Nat → List (PyStr × Nat) → List PyStr → List DPage → List DPage
  | 0, _, _, pages => pages
  | _ + 1, [], _, pages => pages
  | fuel + 1, (url, depth) :: queue, visited, pages =>
    if maxP ≤ pages.length then pages
    else if maxD < depth then
      crawlStep join fetch base maxP maxD fuel queue visited pages
    else
      match normalize1E url with
      | Except.error _ => pages
      | Except.ok norm =>
        if norm ∈ visited then
          crawlStep join fetch base maxP maxD fuel queue visited pages
        else
          let visited' := norm :: visited
          match fetch url with
          | CrawlFetch.err =>
            crawlStep join fetch base maxP maxD fuel queue visited' pages
          | CrawlFetch.noResp =>
            crawlStep join fetch base maxP maxD fuel queue visited' pages
          | CrawlFetch.resp status title links =>
            if 400 ≤ status then
              crawlStep join fetch base maxP maxD fuel queue visited' pages
            else
              let pages' := pages ++ [⟨norm, title, PageSrc.crawl, true⟩]
              let newLinks :=
                if depth < maxD then
                  (links.take 100).filterMap fun l =>
                    match l with
                    | LinkRes.raised => none
                    | LinkRes.noHref => none
                    | LinkRes.href h =>
                      if h ≠ [] ∧ badHrefStart h = false then
                        match normalizeWithBaseE join url h with
                        | Except.error _ => none
                        | Except.ok full =>
                          if isSameDomain full base ∧ full ∉ visited' then
                            some (full, depth + 1)
                          else none
                      else none
                else []
              crawlStep join fetch base maxP maxD fuel (queue ++ newLinks)
                visited' pages'

/-- The sitemap/crawl dedup loops of `discover`: keep a page when its
normalized URL is unseen (`normalize_url` can raise, which propagates). -/
def dedupSimple : List DPage → List PyStr → List DPage →
    Except PyExn (List PyStr × List DPage)
  | [], seen, pages => Except.ok (seen, pages)
  | p :: rest, seen, pages =>
    match normalize1E p.url with
    | Except.error e => Except.error e
    | Except.ok norm =>
      if norm ∈ seen then dedupSimple rest seen pages
      else dedupSimple rest (norm :: seen) (pages ++ [p])

/-- The nav dedup loop: additionally requires same domain and breaks once
`len(pages) >= max_pages` after an append. -/
def dedupNav (base : PyStr) (maxP : Nat) : List DPage → List PyStr →
    List DPage → Except PyExn (List PyStr × List DPage)
  | [], seen, pages => Except.ok (seen, pages)
  | p :: rest, seen, pages =>
    match normalize1E p.url with
    | Except.error e => Except.error e
    | Except.ok norm =>
      if norm ∉ seen ∧ isSameDomain p.url base then
        let pages' := pages ++ [p]
        if maxP ≤ pages'.length then Except.ok (norm :: seen, pages')
        else dedupNav base maxP rest (norm :: seen) pages'
      else dedupNav base maxP rest seen pages

/-- `SMART_EXCLUDE_PATTERNS` in dict insertion order. -/
def smartPatterns : List (PyStr × PyStr) :=
  [(s2l "privacy", s2l "Privacy policy page"),
   (s2l "terms", s2l "Terms and conditions page"),
   (s2l "cookie", s2l "Cookie policy page"),
   (s2l "login", s2l "Login/authentication page"),
   (s2l "account", s2l "Account management page"),
   (s2l "portal", s2l "Resident/user portal"),
   (s2l "apply", s2l "Application form page"),
   (s2l "resident", s2l "Resident-only page"),
   (s2l "admin", s2l "Admin page"),
   (s2l "sign-in", s2l "Sign-in page"),
   (s2l "sign-up", s2l "Sign-up page"),
   (s2l "register", s2l "Registration page"),
   (s2l "checkout", s2l "Checkout page"),
   (s2l "cart", s2l "Shopping cart page")]

def firstSmartMatch (path : PyStr) : List (PyStr × PyStr) →
    Option (PyStr × PyStr)
  | [] => none
  | (pat, reason) :: rest =>
    if pyContainsSub path pat then some (pat, reason)
    else firstSmartMatch path rest

/-- `url_security.get_smart_exclude_suggestions` (first matching pattern
wins; the unguarded `urlparse` can raise). -/
def smartSuggestE : List PyStr → Except PyExn (List (PyStr × PyStr × PyStr))
  | [] => Except.ok []
  | u :: rest =>
    match urlparseE u with
    | Except.error e => Except.error e
    | Except.ok pr =>
      match smartSuggestE rest with
      | Except.error e => Except.error e
      | Except.ok tl =>
        match firstSmartMatch (pyLower pr.path) smartPatterns with
        | some (pat, reason) => Except.ok ((u, reason, pat) :: tl)
        | none => Except.ok tl

/-- The exclusion partition of `discover`: excluded pages get
`selected = False`; order within each part is preserved. -/
def excludePartition (rx : RegexOracle) (rules : List ExRule) :
    List DPage → Except PyExn (List DPage × List DPage)
  | [] => Except.ok ([], [])
  | p :: rest =>
    match shouldExcludeE rx p.url rules with
    | Except.error e => Except.error e
    | Except.ok true =>
      match excludePartition rx rules rest with
      | Except.error e => Except.error e
      | Except.ok (a, ex) => Except.ok (a, { p with selected := false } :: ex)
    | Except.ok false =>
      match excludePartition rx rules rest with
      | Except.error e => Except.error e
      | Except.ok (a, ex) => Except.ok (p :: a, ex)

structure DiscoverOracles where
  resolve : DnsOracle
  join : PyStr → PyStr → PyStr
  titleOf : PyStr → Option PyStr
  sitemapFetch : SitemapFetch
  navLinks : List (Option (PyStr × PyStr))
  crawlFetch : PyStr → CrawlFetch
  crawlFuel : Nat
  rx : RegexOracle

structure DiscoverResult where
  pages : List DPage
  excluded : List DPage
  suggestions : List (PyStr × PyStr × PyStr)
  total_found : Nat

/-- `DiscoveryService.discover`.  `maxPages0 = 0` models a falsy
`max_pages` argument (`max_pages or self.max_pages`), likewise
`maxDepth0`; `defMaxP`/`defMaxD` are the settings defaults.  Only the
`SSRFError` from `validate_url` is caught (empty result); a `ValueError`
propagates. -/
def discover (o : DiscoverOracles) (base : PyStr)
    (useSitemap useNav crawlFallback : Bool) (maxPages0 maxDepth0 : Nat)
    (defMaxP defMaxD : Nat) (rules : List ExRule) :
    Except PyExn DiscoverResult :=
  let maxPages := if maxPages0 = 0 then defMaxP else maxPages0
  let maxDepth := if maxDepth0 = 0 then defMaxD else maxDepth0
  match validateUrlE o.resolve base with
  | Except.error PyExn.ssrfError => Except.ok ⟨[], [], [], 0⟩
  | Except.error e => Except.error e
  | Except.ok _ =>
    let smPages :=
      if useSitemap then discoverSitemap o.titleOf o.sitemapFetch base maxPages
      else []
    match dedupSimple smPages [] [] with
    | Except.error e => Except.error e
    | Except.ok (seen1, pages1) =>
      let navPs :=
        if useNav ∧ pages1.length < maxPages then discoverNav o.join o.navLinks base
        else []
      match dedupNav base maxPages navPs seen1 pages1 with
      | Except.error e => Except.error e
      | Except.ok (seen2, pages2) =>
        let crawlPs :=
          if crawlFallback ∧ pages2.length < maxPages then
            crawlStep o.join o.crawlFetch base (maxPages - pages2.length)
              maxDepth o.crawlFuel [(base, 0)] seen2 []
          else []
        match dedupSimple crawlPs seen2 pages2 with
        | Except.error e => Except.error e
        | Except.ok (_, pages3) =>
          match excludePartition o.rx rules pages3 with
          | Except.error e => Except.error e
          | Except.ok (active, excl) =>
            match smartSuggestE (active.map DPage.url) with
            | Except.error e => Except.error e
            | Except.ok sugg =>
              Except.ok ⟨active ++ excl, excl, sugg, pages3.length⟩

/-! ## Claim C6 -/

def df1 : DFinding := ⟨some (s2l "high"), some (s2l "tone"), s2l "p1"⟩

def df2 : DFinding := ⟨some (s2l "medium"), some (s2l "style"), s2l "p2"⟩

def df3 : DFinding := ⟨none, some (s2l "accessibility"), s2l "p3"⟩

def dexA : List (PyStr × DFinding) := [(s2l "f1", df1), (s2l "f2", df2)]

def dexB : List (PyStr × DFinding) := [(s2l "f1", df1), (s2l "f3", df3)]

/-- C6: `DiffService.compare` is the pure set-algebra on fingerprint keys:
`new_issues` are exactly the findings of B keyed outside A, `resolved_issues`
exactly the findings of A keyed outside B, and `unchanged_count` is the
cardinality of the key-set intersection (purity holds by construction —
`diffCompare` is a function of its two inputs and does not modify them).
In particular for baseline `{f1, f2}` and candidate `{f1, f3}`:
`new = [f3]`, `resolved = [f2]`, `unchanged_count = 1`. -/
theorem diffCompare_set_algebra :
    (∀ a b : List (PyStr × DFinding), (dictKeys a).Nodup → (dictKeys b).Nodup →
      (∀ f, f ∈ (diffCompare a b).new_issues ↔ ∃ k, (k, f) ∈ b ∧ k ∉ dictKeys a) ∧
      (∀ f, f ∈ (diffCompare a b).resolved_issues ↔ ∃ k, (k, f) ∈ a ∧ k ∉ dictKeys b) ∧
      (diffCompare a b).unchanged_count =
        ((dictKeys a).toFinset ∩ (dictKeys b).toFinset).card) ∧
    (diffCompare dexA dexB).new_issues = [df3] ∧
    (diffCompare dexA dexB).resolved_issues = [df2] ∧
    (diffCompare dexA dexB).unchanged_count = 1 := by
  refine ⟨fun a b ha hb => ⟨?_, ?_, ?_⟩, by decide, by decide, by decide⟩
  · intro f
    simp only [diffCompare, List.mem_filterMap, List.mem_filter,
      decide_eq_true_eq]
    constructor
    · rintro ⟨k, ⟨hkb, hka⟩, hget⟩
      exact ⟨k, dictGet_mem hget, hka⟩
    · rintro ⟨k, hkf, hka⟩
      exact ⟨k, ⟨List.mem_map_of_mem Prod.fst hkf, hka⟩, mem_dictGet hb hkf⟩
  · intro f
    simp only [diffCompare, List.mem_filterMap, List.mem_filter,
      decide_eq_true_eq]
    constructor
    · rintro ⟨k, ⟨hka, hkb⟩, hget⟩
      exact ⟨k, dictGet_mem hget, hkb⟩
    · rintro ⟨k, hkf, hkb⟩
      exact ⟨k, ⟨List.mem_map_of_mem Prod.fst hkf, hkb⟩, mem_dictGet ha hkf⟩
  · show ((dictKeys a).filter fun k => decide (k ∈ dictKeys b)).length =
      ((dictKeys a).toFinset ∩ (dictKeys b).toFinset).card
    have hnd : ((dictKeys a).filter fun k => decide (k ∈ dictKeys b)).Nodup :=
      ha.filter _
    rw [← List.toFinset_card_of_nodup hnd]
    congr 1
    ext k
    simp [List.mem_filter, Finset.mem_inter, List.mem_toFinset]

/-- Witness for C6 at the concrete baseline/candidate pair. -/
theorem diffCompare_set_algebra_witness :
    (diffCompare dexA dexB).unchanged_count =
      ((dictKeys dexA).toFinset ∩ (dictKeys dexB).toFinset).card :=
  (diffCompare_set_algebra.1 dexA dexB (by decide) (by decide)).2.2

/-! ## Claim C5 -/

theorem isExcludedLoop_urlContains (rx : RegexOracle) (url path hostD v : PyStr) :
    isExcludedLoop rx url path hostD [⟨s2l "url_contains", v⟩] =
      pyContainsSub (pyLower url) (pyLower v) := by
  cases h : pyContainsSub (pyLower url) (pyLower v) <;>
    simp [isExcludedLoop, h]

theorem isExcludedLoop_pathBlock (rx : RegexOracle) (url path hostD v : PyStr) :
    isExcludedLoop rx url path hostD [⟨s2l "path_blocklist", v⟩] =
      pyContainsSub path (pyLower v) := by
  simp only [isExcludedLoop]
  rw [if_neg (by decide), if_neg (by decide)]
  simp only [if_true]
  cases h : pyContainsSub path (pyLower v) <;> simp [h]

theorem shouldExcludeLoop_urlContains (rx : RegexOracle) (url path v : PyStr) :
    shouldExcludeLoop rx url path [⟨s2l "url_contains", v⟩] =
      pyContainsSub path (pyLower v) := by
  cases h : pyContainsSub path (pyLower v) <;>
    simp [shouldExcludeLoop, h]

theorem shouldExcludeLoop_pathBlock (rx : RegexOracle) (url path v : PyStr) :
    shouldExcludeLoop rx url path [⟨s2l "path_blocklist", v⟩] =
      pyContainsSub path (pyLower v) := by
  simp only [shouldExcludeLoop]
  rw [if_neg (by decide), if_neg (by decide)]
  simp only [if_true]
  cases h : pyContainsSub path (pyLower v) <;> simp [h]

/-- C5 counterexample: for the URL `https://a.com/p?login=1` and the
`url_contains` rule `login`, `ExclusionService._is_excluded` excludes (the
substring occurs in the full URL) but `DiscoveryService._should_exclude`
does not (its `url_contains` branch tests the PATH, which is `/p`): the two
exclusion checks do not implement the same `url_contains` semantics. -/
theorem shouldExclude_counterexample :
    isExcludedE (fun _ _ => false) (s2l "https://a.com/p?login=1")
        [⟨s2l "url_contains", s2l "login"⟩] = Except.ok true ∧
    shouldExcludeE (fun _ _ => false) (s2l "https://a.com/p?login=1")
        [⟨s2l "url_contains", s2l "login"⟩] = Except.ok false := by
  constructor <;> rfl

/-- C5 (amended): for every URL that `urlparse` accepts and every rule value,
`ExclusionService._is_excluded` treats `url_contains` as a case-insensitive
substring test against the FULL URL and `path_blocklist` against the
lowercased path; `DiscoveryService._should_exclude` treats BOTH
`url_contains` and `path_blocklist` as substring tests against the
lowercased path only (so the two components disagree on `url_contains`
rules whose value occurs outside the path). -/
theorem exclusion_rule_semantics :
    ∀ (rx : RegexOracle) (url v : PyStr) (pr : ParseResult),
      urlparseE url = Except.ok pr →
      isExcludedE rx url [⟨s2l "url_contains", v⟩] =
        Except.ok (pyContainsSub (pyLower url) (pyLower v)) ∧
      isExcludedE rx url [⟨s2l "path_blocklist", v⟩] =
        Except.ok (pyContainsSub (pyLower pr.path) (pyLower v)) ∧
      shouldExcludeE rx url [⟨s2l "url_contains", v⟩] =
        Except.ok (pyContainsSub (pyLower pr.path) (pyLower v)) ∧
      shouldExcludeE rx url [⟨s2l "path_blocklist", v⟩] =
        Except.ok (pyContainsSub (pyLower pr.path) (pyLower v)) := by
  intro rx url v pr hpr
  refine ⟨?_, ?_, ?_, ?_⟩ <;>
    simp only [isExcludedE, shouldExcludeE, hpr, isExcludedLoop_urlContains,
      isExcludedLoop_pathBlock, shouldExcludeLoop_urlContains,
      shouldExcludeLoop_pathBlock]

/-- Witness for C5 at a concrete URL and rule value. -/
theorem exclusion_rule_semantics_witness :
    isExcludedE (fun _ _ => false) (s2l "https://a.com/Portal/x")
        [⟨s2l "url_contains", s2l "portal"⟩] =
      Except.ok (pyContainsSub (pyLower (s2l "https://a.com/Portal/x"))
        (pyLower (s2l "portal"))) :=
  (exclusion_rule_semantics (fun _ _ => false) (s2l "https://a.com/Portal/x")
    (s2l "portal") ⟨s2l "https", s2l "a.com", s2l "/Portal/x", [], [], []⟩
    (by rfl)).1

/-! ## Claim C2 -/

/-- C2 counterexample: `validate_url("http://[::1/x")` raises `ValueError`
(from `urlparse`, for the unbalanced bracket), not `SSRFError` — so
`validate_url` does not raise `SSRFError` for EVERY unsafe URL it rejects. -/
theorem validateUrl_counterexample :
    validateUrlE (fun _ => none) (s2l "http://[::1/x") =
      Except.error PyExn.valueError := by rfl

/-- C2 (amended): for every URL that `urlparse` accepts, `validate_url`
succeeds (returning the URL unchanged) iff the scheme is http/https, a
hostname exists, it is not a metadata endpoint, DNS resolution succeeds, and
no resolved address lies in a blocked range; and on such URLs its only
failure mode is `SSRFError`.  (URLs that `urlparse` itself rejects raise
`ValueError` instead, per the counterexample.) -/
theorem validateUrl_characterization :
    ∀ (resolve : DnsOracle) (url : PyStr) (pr : ParseResult),
      urlparseE url = Except.ok pr →
      (validateUrlE resolve url = Except.ok url ↔
        (pr.scheme = s2l "http" ∨ pr.scheme = s2l "https") ∧
        ∃ h, hostnameOf pr.netloc = some h ∧ h ∉ blockedHosts ∧
          ∃ ips, resolve h = some ips ∧ ips.any inBlockedRanges = false) ∧
      (validateUrlE resolve url = Except.ok url ∨
        validateUrlE resolve url = Except.error PyExn.ssrfError) := by
  intro resolve url pr hpr
  have hbase : validateUrlE resolve url =
      (if ¬(pr.scheme = s2l "http" ∨ pr.scheme = s2l "https") then
        Except.error PyExn.ssrfError
      else
        match hostnameOf pr.netloc with
        | none => Except.error PyExn.ssrfError
        | some hostname =>
          if hostname ∈ blockedHosts then Except.error PyExn.ssrfError
          else
            match resolve hostname with
            | none => Except.error PyExn.ssrfError
            | some ips =>
              if ips.any inBlockedRanges then Except.error PyExn.ssrfError
              else Except.ok url) := by
    simp only [validateUrlE, hpr]
  rw [hbase]
  by_cases hsch : pr.scheme = s2l "http" ∨ pr.scheme = s2l "https"
  · rw [if_neg (not_not_intro hsch)]
    rcases hh : hostnameOf pr.netloc with _ | h
    · refine ⟨⟨(fun hc => by cases hc), ?_⟩, Or.inr rfl⟩
      rintro ⟨-, h2, hh2, -⟩
      cases hh2
    · simp only
      by_cases hbl : h ∈ blockedHosts
      · rw [if_pos hbl]
        refine ⟨⟨(fun hc => by cases hc), ?_⟩, Or.inr rfl⟩
        rintro ⟨-, h2, hh2, hnb, -⟩
        injection hh2 with he
        subst he
        exact absurd hbl hnb
      · rw [if_neg hbl]
        rcases hres : resolve h with _ | ips
        · refine ⟨⟨(fun hc => by cases hc), ?_⟩, Or.inr rfl⟩
          rintro ⟨-, h2, hh2, -, ips, hr2, -⟩
          injection hh2 with he
          subst he
          rw [hres] at hr2
          cases hr2
        · simp only
          by_cases hany : ips.any inBlockedRanges
          · rw [if_pos hany]
            refine ⟨⟨(fun hc => by cases hc), ?_⟩, Or.inr rfl⟩
            rintro ⟨-, h2, hh2, -, ips2, hr2, hno⟩
            injection hh2 with he
            subst he
            rw [hres] at hr2
            injection hr2 with he2
            subst he2
            rw [hany] at hno
            cases hno
          · rw [if_neg hany]
            exact ⟨⟨fun _ => ⟨hsch, h, rfl, hbl, ips, hres, by simpa using hany⟩,
              fun _ => rfl⟩, Or.inl rfl⟩
  · rw [if_pos hsch]
    refine ⟨⟨(fun hc => by cases hc), ?_⟩, Or.inr rfl⟩
    rintro ⟨hs, -⟩
    exact absurd hs hsch

/-- Witness for C2: a public URL with a resolving hostname is accepted. -/
theorem validateUrl_characterization_witness :
    validateUrlE (fun _ => some [IPAddr.v4 1572067362]) (s2l "http://a.com/x") =
      Except.ok (s2l "http://a.com/x") ↔
      (s2l "http" = s2l "http" ∨ s2l "http" = s2l "https") ∧
      ∃ h, hostnameOf (s2l "a.com") = some h ∧ h ∉ blockedHosts ∧
        ∃ ips, (fun _ : PyStr => some [IPAddr.v4 1572067362]) h = some ips ∧
          ips.any inBlockedRanges = false :=
  (validateUrl_characterization (fun _ => some [IPAddr.v4 1572067362])
    (s2l "http://a.com/x") ⟨s2l "http", s2l "a.com", s2l "/x", [], [], []⟩
    (by rfl)).1

/-! ## Claim C10 -/

theorem validateUrlE_cases (resolve : DnsOracle) {url : PyStr} {pr : ParseResult}
    (hpr : urlparseE url = Except.ok pr) :
    validateUrlE resolve url = Except.ok url ∨
    validateUrlE resolve url = Except.error PyExn.ssrfError := by
  simp only [validateUrlE, hpr]
  by_cases h1 : ¬(pr.scheme = s2l "http" ∨ pr.scheme = s2l "https")
  · rw [if_pos h1]; exact Or.inr rfl
  · rw [if_neg h1]
    rcases hostnameOf pr.netloc with _ | h
    · exact Or.inr rfl
    · simp only
      by_cases h2 : h ∈ blockedHosts
      · rw [if_pos h2]; exact Or.inr rfl
      · rw [if_neg h2]
        rcases resolve h with _ | ips
        · exact Or.inr rfl
        · simp only
          by_cases h3 : ips.any inBlockedRanges
          · rw [if_pos h3]; exact Or.inr rfl
          · rw [if_neg h3]; exact Or.inl rfl

/-- C10 counterexample: `scrape_url("http://[::1/x")` propagates the
`ValueError` that `validate_url`'s `urlparse` raises for the unbalanced
bracket — the SSRF-gate call sits outside the catch-all try, and only
`SSRFError` is caught around it, so `scrape_url` CAN raise. -/
theorem scrapeUrl_counterexample :
    scrapeUrlE (fun _ => none) ⟨Except.ok none, Except.ok [], Except.ok []⟩
      (s2l "http://[::1/x") = Except.error PyExn.valueError := by rfl

/-- C10 (amended): for every URL that `urlparse` accepts, `scrape_url`
returns normally whatever the page effects do, and each failure mode —
SSRF-gate rejection, an exception in the scraping block, a missing
response, a status ≥ 400 — returns the empty chunk list (indistinguishable
from an empty page); only the `ValueError` for a malformed URL escapes
(per the counterexample). -/
theorem scrapeUrl_total :
    ∀ (resolve : DnsOracle) (f : PageFetch) (url : PyStr) (pr : ParseResult),
      urlparseE url = Except.ok pr →
      (∃ l, scrapeUrlE resolve f url = Except.ok l) ∧
      (validateUrlE resolve url = Except.error PyExn.ssrfError →
        scrapeUrlE resolve f url = Except.ok []) ∧
      (f.outcome = Except.error () → scrapeUrlE resolve f url = Except.ok []) ∧
      (f.outcome = Except.ok none → scrapeUrlE resolve f url = Except.ok []) ∧
      (∀ st t, f.outcome = Except.ok (some (st, t)) → 400 ≤ st →
        scrapeUrlE resolve f url = Except.ok []) := by
  intro resolve f url pr hpr
  rcases validateUrlE_cases resolve hpr with hv | hv
  · have hsc : scrapeUrlE resolve f url =
        (match f.outcome with
          | Except.error _ => Except.ok []
          | Except.ok none => Except.ok []
          | Except.ok (some (status, title)) =>
            if 400 ≤ status then Except.ok []
            else
              let chunks := extractStructured f.elements title
              if chunks = [] then
                match f.fallback with
                | Except.error _ => Except.ok []
                | Except.ok rawText =>
                  let text := cleanText rawText
                  if text = [] then Except.ok []
                  else Except.ok [mkChunk [] (text.take 5000) title]
              else Except.ok chunks) := by
      simp only [scrapeUrlE, hv]
    refine ⟨?_, ?_, ?_, ?_, ?_⟩
    · rw [hsc]
      rcases ho : f.outcome with _ | (_ | ⟨st, t⟩)
      · exact ⟨[], rfl⟩
      · exact ⟨[], rfl⟩
      · simp only
        by_cases hst : 400 ≤ st
        · rw [if_pos hst]; exact ⟨[], rfl⟩
        · rw [if_neg hst]
          by_cases hch : extractStructured f.elements t = []
          · simp only [hch, if_pos rfl]
            rcases f.fallback with _ | raw
            · exact ⟨[], rfl⟩
            · simp only
              by_cases htx : cleanText raw = []
              · rw [if_pos htx]; exact ⟨[], rfl⟩
              · rw [if_neg htx]; exact ⟨_, rfl⟩
          · simp only [if_neg hch]
            exact ⟨_, rfl⟩
    · intro hc
      rw [hv] at hc; cases hc
    · intro ho
      rw [hsc, ho]
    · intro ho
      rw [hsc, ho]
    · intro st t ho hge
      rw [hsc, ho]
      simp only
      rw [if_pos hge]
  · have hrun : scrapeUrlE resolve f url = Except.ok [] := by
      simp only [scrapeUrlE, hv]
    exact ⟨⟨[], hrun⟩, fun _ => hrun, fun _ => hrun, fun _ => hrun,
      fun _ _ _ _ => hrun⟩

/-- Witness for C10: a well-formed URL whose scrape block raises still
returns the empty chunk list. -/
theorem scrapeUrl_total_witness :
    scrapeUrlE (fun _ => some [IPAddr.v4 1572067362])
      ⟨Except.error (), Except.ok [], Except.ok []⟩ (s2l "http://a.com/x") =
      Except.ok [] :=
  (scrapeUrl_total (fun _ => some [IPAddr.v4 1572067362])
    ⟨Except.error (), Except.ok [], Except.ok []⟩ (s2l "http://a.com/x")
    ⟨s2l "http", s2l "a.com", s2l "/x", [], [], []⟩ (by rfl)).2.2.1 rfl

/-! ## Claim C7 -/

theorem cutFirst_fst_append_mem {p : Char → Bool} {u : PyStr} (x : PyStr)
    (hx : ∃ c ∈ u, p c = true) :
    (cutFirst p (u ++ x)).1 = (cutFirst p u).1 := by
  rcases h : splitFirst p u with ⟨pre, post⟩
  rcases post with _ | post
  · obtain ⟨-, hall⟩ := splitFirst_none_spec h
    obtain ⟨c, hc, hpc⟩ := hx
    rw [hall c hc] at hpc; cases hpc
  · obtain ⟨d, hu, hd, hpre⟩ := splitFirst_some_spec h
    rw [hu, List.append_assoc, List.cons_append,
      cutFirst_found d (post ++ x) hpre hd, cutFirst_found d post hpre hd]

theorem fpNormalizeUrl_slash (u : PyStr) :
    fpNormalizeUrl (u ++ ['/']) = fpNormalizeUrl u := by
  rcases u with _ | ⟨c, t⟩
  · rfl
  · unfold fpNormalizeUrl
    rw [if_neg (by simp), if_neg (by simp)]
    by_cases hm : ∃ ch ∈ c :: t, decide (ch = '#') = true
    · rw [cutFirst_fst_append_mem ['/'] hm]
    · push_neg at hm
      have hall : ∀ ch ∈ (c :: t : PyStr), decide (ch = '#') = false := by
        intro ch hch
        simpa using hm ch hch
      have hall2 : ∀ ch ∈ (c :: t : PyStr) ++ ['/'], decide (ch = '#') = false := by
        intro ch hch
        rcases List.mem_append.mp hch with hch | hch
        · exact hall ch hch
        · rcases List.mem_singleton.mp hch with rfl
          decide
      rw [cutFirst_none hall2, cutFirst_none hall]
      show pyLower (rstripSlash ((c :: t) ++ ['/'])) = pyLower (rstripSlash (c :: t))
      unfold rstripSlash
      rw [List.rdropWhile_concat_pos _ _ _ (by decide)]

theorem fpNormalizeUrl_frag (u f : PyStr) :
    fpNormalizeUrl (u ++ '#' :: f) = fpNormalizeUrl u := by
  rcases u with _ | ⟨c, t⟩
  · show fpNormalizeUrl ([] ++ '#' :: f) = fpNormalizeUrl []
    unfold fpNormalizeUrl
    rw [if_neg (by simp), if_pos rfl,
      cutFirst_found '#' f (fun c h => absurd h (List.not_mem_nil c)) (by decide)]
    rfl
  · unfold fpNormalizeUrl
    rw [if_neg (by simp), if_neg (by simp)]
    by_cases hm : ∃ ch ∈ c :: t, decide (ch = '#') = true
    · rw [cutFirst_fst_append_mem ('#' :: f) hm]
    · push_neg at hm
      have hall : ∀ ch ∈ (c :: t : PyStr), decide (ch = '#') = false := by
        intro ch hch
        simpa using hm ch hch
      rw [cutFirst_found '#' f hall (by decide), cutFirst_none hall]

theorem sha256Hex_length (msg : List Nat) : (sha256Hex msg).length = 64 := by
  simp [sha256Hex, sha256Words, word32Hex]

theorem sha256Hex_charset (msg : List Nat) :
    ∀ ch ∈ sha256Hex msg, ch ∈ s2l "0123456789abcdef" := by
  intro ch hch
  simp only [sha256Hex, List.mem_flatten, List.mem_map] at hch
  obtain ⟨hx, ⟨w, -, hw⟩, hmem⟩ := hch
  rw [← hw] at hmem
  simp only [word32Hex, List.mem_map, List.mem_range] at hmem
  obtain ⟨i, -, hi⟩ := hmem
  rw [← hi]
  have hlt : w >>> (28 - 4 * i) % 16 < 16 := Nat.mod_lt _ (by omega)
  generalize w >>> (28 - 4 * i) % 16 = m at hlt ⊢
  interval_cases m <;> decide

/-- C7 counterexample: `compute_issue_fingerprint` lowercases the category,
so the distinct categories `"A"` and `"a"` produce the SAME fingerprint —
changing one argument does not always change the output. -/
theorem fingerprint_counterexample :
    s2l "A" ≠ s2l "a" ∧
    computeIssueFingerprint (s2l "https://a.com/p") (s2l "A") (s2l "t")
        (s2l "e") none =
      computeIssueFingerprint (s2l "https://a.com/p") (s2l "a") (s2l "t")
        (s2l "e") none := by
  refine ⟨by decide, ?_⟩
  have h : fingerprintInput (s2l "https://a.com/p") (s2l "A") (s2l "t")
      (s2l "e") none =
      fingerprintInput (s2l "https://a.com/p") (s2l "a") (s2l "t")
      (s2l "e") none := by decide
  exact congrArg (fun x => sha256Hex (utf8Bytes x)) h

/-- C7 (amended): `compute_issue_fingerprint` is pure and deterministic by
construction, always yields a 64-character lowercase-hex string, and is
invariant under a trailing slash or an appended fragment in `page_url`;
but changing an argument does NOT always change the output (the category,
type, evidence and URL are normalized first — see the counterexample). -/
theorem fingerprint_properties :
    (∀ u c t e r, computeIssueFingerprint u c t e r =
      computeIssueFingerprint u c t e r) ∧
    (∀ u c t e r, (computeIssueFingerprint u c t e r).length = 64 ∧
      ∀ ch ∈ computeIssueFingerprint u c t e r, ch ∈ s2l "0123456789abcdef") ∧
    (∀ u c t e r, computeIssueFingerprint (u ++ ['/']) c t e r =
      computeIssueFingerprint u c t e r) ∧
    (∀ u f c t e r, computeIssueFingerprint (u ++ '#' :: f) c t e r =
      computeIssueFingerprint u c t e r) := by
  refine ⟨fun _ _ _ _ _ => rfl, fun u c t e r => ⟨sha256Hex_length _, sha256Hex_charset _⟩,
    fun u c t e r => ?_, fun u f c t e r => ?_⟩
  · simp only [computeIssueFingerprint, fingerprintInput, fpNormalizeUrl_slash]
  · simp only [computeIssueFingerprint, fingerprintInput, fpNormalizeUrl_frag]

/-- Witness for C7: slash invariance at a concrete URL. -/
theorem fingerprint_properties_witness :
    computeIssueFingerprint (s2l "https://a.com/p" ++ ['/']) (s2l "c")
        (s2l "t") (s2l "e") none =
      computeIssueFingerprint (s2l "https://a.com/p") (s2l "c") (s2l "t")
        (s2l "e") none :=
  fingerprint_properties.2.2.1 (s2l "https://a.com/p") (s2l "c") (s2l "t")
    (s2l "e") none

/-! ## Claim C8 -/

/-- C8 counterexample: `normalize_url` is NOT idempotent.  For
`http://h/a/;b/` the first pass strips the trailing slash to
`http://h/a/;b`; re-normalizing THAT splits `;b` off the last path segment
as params and yields `http://h/a;b`, a different string. -/
theorem normalizeUrl_counterexample :
    normalize1E (s2l "http://h/a/;b/") = Except.ok (s2l "http://h/a/;b") ∧
    normalize1E (s2l "http://h/a/;b") = Except.ok (s2l "http://h/a;b") ∧
    s2l "http://h/a/;b" ≠ s2l "http://h/a;b" :=
  ⟨by rfl, by rfl, by decide⟩

/-- C8 (amended): `normalize_url` IS idempotent on every URL whose path
contains no `;` (so no `;params` re-splitting can occur) and that does not
hit the empty-netloc/`//`-path corner of `urlunsplit` — and it does strip
fragments and trailing slashes, so `https://a.com/p/` and
`https://a.com/p#x` normalize to the identical string `https://a.com/p`.
Outside those conditions idempotency fails (see the counterexample). -/
theorem normalizeUrl_idem_amended :
    (∀ (u v : PyStr) (sr : SplitResult),
      urlsplitE u = Except.ok sr →
      (';' ∉ sr.path) →
      (sr.netloc = [] → (normPath sr.path).take 2 ≠ ['/', '/']) →
      normalize1E u = Except.ok v →
      normalize1E v = Except.ok v) ∧
    normalize1E (s2l "https://a.com/p/") = normalize1E (s2l "https://a.com/p#x") ∧
    normalize1E (s2l "https://a.com/p/") = Except.ok (s2l "https://a.com/p") :=
  ⟨fun _ _ _ hsr h1 h2 h3 => normalize1E_idem hsr h1 h2 h3, by rfl, by rfl⟩

/-- Witness for C8: one concrete normalization chain reaching a fixpoint. -/
theorem normalizeUrl_idem_witness :
    normalize1E (s2l "http://h/x") = Except.ok (s2l "http://h/x") :=
  normalizeUrl_idem_amended.1 (s2l "http://h/x/") (s2l "http://h/x")
    ⟨s2l "http", s2l "h", s2l "/x/", [], []⟩ (by rfl) (by decide)
    (fun hc => absurd hc (by decide)) (by rfl)

/-! ## Claim C1 -/

theorem scrapeLoop_spec (scrapeOk : Nat → Bool) :
    ∀ (l : List Nat) (c : Nat) (acc : List ScrapeSt),
      scrapeLoop scrapeOk l c acc =
        (c + l.length, acc ++ l.map fun i =>
          if scrapeOk i then ScrapeSt.done else ScrapeSt.failedS)
  | [], c, acc => by simp [scrapeLoop]
  | i :: rest, c, acc => by
    unfold scrapeLoop
    by_cases h : scrapeOk i
    · rw [if_pos h, scrapeLoop_spec scrapeOk rest (c + 1) (acc ++ [ScrapeSt.done])]
      simp [h, List.append_assoc]
      omega
    · rw [if_neg h, scrapeLoop_spec scrapeOk rest (c + 1) (acc ++ [ScrapeSt.failedS])]
      simp [h, List.append_assoc]
      omega

theorem validateLoop_spec (valIssues : Nat → List IssueData) (urls : List PyStr) :
    ∀ (l : List (Nat × ScrapeSt)) (c : Nat) (iss : List PyStr),
      validateLoop valIssues urls l c iss =
        (c + l.length, iss ++ l.flatMap fun p =>
          if p.2 = ScrapeSt.done then
            (valIssues p.1).map (mkIssueFp (urls.getD p.1 []))
          else [])
  | [], c, iss => by simp [validateLoop]
  | (i, st) :: rest, c, iss => by
    unfold validateLoop
    by_cases h : st = ScrapeSt.done
    · rw [if_pos h,
        validateLoop_spec valIssues urls rest (c + 1)
          (iss ++ (valIssues i).map (mkIssueFp (urls.getD i [])))]
      simp [h, List.append_assoc]
      omega
    · rw [if_neg h, validateLoop_spec valIssues urls rest (c + 1) iss]
      simp [h]
      omega

/-- C1: when every selected page's scrape fails, `run_validation_job`
(uninterrupted by infrastructure failure) still completes: status COMPLETED,
stage FINALIZING, `scraped = total_pages`, no issues recorded, every page
marked failed; and for ANY per-page scrape outcomes the job completes with
`scraped = total_pages` and exactly the failing pages marked failed — a
single page's scrape failure never aborts the loop.  The counters, page
statuses and issues here are COMPUTED by the embedded scraping/validating
loops (`scrapeLoop`, `validateLoop`); the conclusions are proven from their
recursions. -/
theorem job_all_scrapes_fail :
    ∀ (pages : List PyStr) (scrapeOk : Nat → Bool) (valIssues : Nat → List IssueData),
      (∀ i, i < pages.length → scrapeOk i = false) →
      (runValidationJob pages scrapeOk valIssues none).status = JobStatusL.completed ∧
      (runValidationJob pages scrapeOk valIssues none).finalizedStage = true ∧
      (runValidationJob pages scrapeOk valIssues none).scraped = pages.length ∧
      (runValidationJob pages scrapeOk valIssues none).validated = pages.length ∧
      (runValidationJob pages scrapeOk valIssues none).issues = [] ∧
      (runValidationJob pages scrapeOk valIssues none).pageStatus =
        List.replicate pages.length ScrapeSt.failedS ∧
      (∀ scrapeOk2 : Nat → Bool,
        (runValidationJob pages scrapeOk2 valIssues none).status = JobStatusL.completed ∧
        (runValidationJob pages scrapeOk2 valIssues none).scraped = pages.length ∧
        ∀ i, i < pages.length →
          (runValidationJob pages scrapeOk2 valIssues none).pageStatus[i]? =
            some (if scrapeOk2 i then ScrapeSt.done else ScrapeSt.failedS)) := by
  intro pages scrapeOk valIssues hall
  have hstat : ∀ s2 : Nat → Bool,
      (scrapeLoop s2 (List.range pages.length) 0 []).2 =
        (List.range pages.length).map fun i =>
          if s2 i then ScrapeSt.done else ScrapeSt.failedS := by
    intro s2
    rw [scrapeLoop_spec]
    simp
  have hcount : ∀ s2 : Nat → Bool,
      (scrapeLoop s2 (List.range pages.length) 0 []).1 = pages.length := by
    intro s2
    rw [scrapeLoop_spec]
    simp
  have hlenstat : ((scrapeLoop scrapeOk (List.range pages.length) 0 []).2).length =
      pages.length := by
    rw [hstat]
    simp
  refine ⟨rfl, rfl, hcount scrapeOk, ?_, ?_, ?_, ?_⟩
  · show (validateLoop valIssues pages
      ((List.range pages.length).zip
        (scrapeLoop scrapeOk (List.range pages.length) 0 []).2) 0 []).1 =
      pages.length
    rw [validateLoop_spec]
    simp [hlenstat]
  · show (validateLoop valIssues pages
      ((List.range pages.length).zip
        (scrapeLoop scrapeOk (List.range pages.length) 0 []).2) 0 []).2 = []
    rw [validateLoop_spec]
    simp only [List.nil_append]
    rw [List.flatMap_eq_nil_iff]
    intro p hp
    have hsnd : p.2 ∈ (scrapeLoop scrapeOk (List.range pages.length) 0 []).2 :=
      (List.of_mem_zip hp).2
    rw [hstat] at hsnd
    simp only [List.mem_map, List.mem_range] at hsnd
    obtain ⟨j, hj, hjs⟩ := hsnd
    rw [hall j hj] at hjs
    rw [if_neg (by rw [← hjs]; simp)]
  · show (scrapeLoop scrapeOk (List.range pages.length) 0 []).2 =
      List.replicate pages.length ScrapeSt.failedS
    rw [hstat]
    rw [List.eq_replicate_iff]
    refine ⟨by simp, ?_⟩
    intro b hb
    simp only [List.mem_map, List.mem_range] at hb
    obtain ⟨i, hi, hbi⟩ := hb
    rw [hall i hi] at hbi
    simpa using hbi.symm
  · intro s2
    refine ⟨rfl, hcount s2, ?_⟩
    intro i hi
    show (((scrapeLoop s2 (List.range pages.length) 0 []).2)[i]?) = _
    rw [hstat s2, List.getElem?_map, List.getElem?_range hi]
    rfl

/-- Witness for C1 on a one-page job whose scrape fails. -/
theorem job_all_scrapes_fail_witness :
    (runValidationJob [s2l "http://a.com/x"] (fun _ => false) (fun _ => [])
      none).status = JobStatusL.completed :=
  (job_all_scrapes_fail [s2l "http://a.com/x"] (fun _ => false) (fun _ => [])
    (fun _ _ => rfl)).1

/-! ## Claim C9 -/

theorem evLe_some {s1 s2 : EvStage} {t1 t2 : Option Nat} {a1 a2 b1 b2 : Nat}
    (h1 : a1 ≤ b1) (h2 : a2 ≤ b2) :
    evLe ⟨s1, t1, some a1, some a2⟩ ⟨s2, t2, some b1, some b2⟩ := by
  constructor <;> intro x y hx hy
  · injection hx with hx; injection hy with hy; subst hx; subst hy; exact h1
  · injection hx with hx; injection hy with hy; subst hx; subst hy; exact h2

theorem evLe_failed (a : Event) : evLe a failedEvent :=
  ⟨(fun _ _ _ hy => by cases hy), (fun _ _ _ hy => by cases hy)⟩

theorem jobFullEvents_decomp (n : Nat) (scrapeOk : Nat → Bool) :
    jobFullEvents n scrapeOk =
      ((⟨EvStage.scraping, some n, some 0, some 0⟩ ::
        (List.range n).map fun i => ⟨EvStage.scraping, some n, some i, some 0⟩) ++
       (⟨EvStage.validating, some n, some n, some 0⟩ ::
        (List.range n).filterMap fun i =>
          if scrapeOk i then some ⟨EvStage.validating, some n, some n, some i⟩
          else none)) ++
      [⟨EvStage.finalizing, some n, some n, some n⟩] := by
  rfl

theorem jobFullEvents_mem_shape (n : Nat) (scrapeOk : Nat → Bool) {x : Event}
    (hx : x ∈
      ((⟨EvStage.scraping, some n, some 0, some 0⟩ ::
        (List.range n).map fun i => ⟨EvStage.scraping, some n, some i, some 0⟩) ++
       (⟨EvStage.validating, some n, some n, some 0⟩ ::
        (List.range n).filterMap fun i =>
          if scrapeOk i then some ⟨EvStage.validating, some n, some n, some i⟩
          else none))) :
    ∃ st sc va, x = ⟨st, some n, some sc, some va⟩ ∧ sc ≤ n ∧ va ≤ n ∧
      isTerminalEv x = false := by
  rcases List.mem_append.mp hx with hx | hx
  · rcases List.mem_cons.mp hx with rfl | hx
    · exact ⟨EvStage.scraping, 0, 0, rfl, Nat.zero_le _, Nat.zero_le _, rfl⟩
    · simp only [List.mem_map, List.mem_range] at hx
      obtain ⟨i, hi, rfl⟩ := hx
      exact ⟨EvStage.scraping, i, 0, rfl, Nat.le_of_lt hi, Nat.zero_le _, rfl⟩
  · rcases List.mem_cons.mp hx with rfl | hx
    · exact ⟨EvStage.validating, n, 0, rfl, Nat.le_refl _, Nat.zero_le _, rfl⟩
    · simp only [List.mem_filterMap, List.mem_range] at hx
      obtain ⟨i, hi, hif⟩ := hx
      by_cases hs : scrapeOk i
      · rw [if_pos hs] at hif
        injection hif with hif
        subst hif
        exact ⟨EvStage.validating, n, i, rfl, Nat.le_refl _, Nat.le_of_lt hi, rfl⟩
      · rw [if_neg hs] at hif; cases hif

theorem jobFullEvents_pairwise (n : Nat) (scrapeOk : Nat → Bool) :
    List.Pairwise evLe (jobFullEvents n scrapeOk) := by
  rw [jobFullEvents_decomp]
  rw [List.pairwise_append]
  refine ⟨?_, List.pairwise_singleton _ _, ?_⟩
  · rw [List.pairwise_append]
    refine ⟨?_, ?_, ?_⟩
    · rw [List.pairwise_cons]
      refine ⟨?_, ?_⟩
      · intro y hy
        simp only [List.mem_map, List.mem_range] at hy
        obtain ⟨i, hi, rfl⟩ := hy
        exact evLe_some (Nat.zero_le _) (Nat.le_refl _)
      · rw [List.pairwise_map]
        refine (List.pairwise_lt_range n).imp ?_
        intro a b hab
        exact evLe_some (Nat.le_of_lt hab) (Nat.le_refl _)
    · rw [List.pairwise_cons]
      refine ⟨?_, ?_⟩
      · intro y hy
        simp only [List.mem_filterMap, List.mem_range] at hy
        obtain ⟨i, hi, hif⟩ := hy
        by_cases hs : scrapeOk i
        · rw [if_pos hs] at hif
          injection hif with hif
          subst hif
          exact evLe_some (Nat.le_refl _) (Nat.zero_le _)
        · rw [if_neg hs] at hif; cases hif
      · rw [List.pairwise_filterMap]
        refine (List.pairwise_lt_range n).imp ?_
        intro a b hab x hx y hy
        by_cases hsa : scrapeOk a
        · rw [if_pos hsa] at hx
          rw [Option.mem_some_iff] at hx
          subst hx
          by_cases hsb : scrapeOk b
          · rw [if_pos hsb] at hy
            rw [Option.mem_some_iff] at hy
            subst hy
            exact evLe_some (Nat.le_refl _) (Nat.le_of_lt hab)
          · rw [if_neg hsb] at hy
            cases hy
        · rw [if_neg hsa] at hx
          cases hx
    · intro a ha b hb
      have hashape : ∃ sc, (a = ⟨EvStage.scraping, some n, some sc, some 0⟩) := by
        rcases List.mem_cons.mp ha with rfl | ha
        · exact ⟨0, rfl⟩
        · simp only [List.mem_map, List.mem_range] at ha
          obtain ⟨i, -, rfl⟩ := ha
          exact ⟨i, rfl⟩
      obtain ⟨sc, rfl⟩ := hashape
      rcases List.mem_cons.mp hb with rfl | hb
      · exact evLe_some (by
          rcases List.mem_cons.mp ha with he | he
          · injection he with h1 h2 h3 h4
            injection h3 with h3
            omega
          · simp only [List.mem_map, List.mem_range] at he
            obtain ⟨i, hi, hee⟩ := he
            injection hee with h1 h2 h3 h4
            injection h3 with h3
            omega) (Nat.le_refl _)
      · simp only [List.mem_filterMap, List.mem_range] at hb
        obtain ⟨i, hi, hif⟩ := hb
        by_cases hs : scrapeOk i
        · rw [if_pos hs] at hif
          injection hif with hif
          subst hif
          refine evLe_some ?_ (Nat.zero_le _)
          rcases List.mem_cons.mp ha with he | he
          · injection he with h1 h2 h3 h4
            injection h3 with h3
            omega
          · simp only [List.mem_map, List.mem_range] at he
            obtain ⟨j, hj, hee⟩ := he
            injection hee with h1 h2 h3 h4
            injection h3 with h3
            omega
        · rw [if_neg hs] at hif; cases hif
  · intro a ha b hb
    rcases List.mem_singleton.mp hb with rfl
    obtain ⟨st, sc, va, rfl, hsc, hva, -⟩ := jobFullEvents_mem_shape n scrapeOk ha
    exact evLe_some hsc hva

/-- C9: for every execution of `run_validation_job` — including ones the
outer exception handler interrupts after any number of published events —
the observed event sequence has monotonically non-decreasing `scraped` and
`validated` counters (the counterless failure event constrains nothing) and
contains exactly one terminal event, which comes last: the finalizing event
on success, the failed event on pipeline failure.  The hypothesis says an
interrupt happens strictly before the finalizing publish (afterwards only
logging remains). -/
theorem job_events_properties :
    ∀ (pages : List PyStr) (scrapeOk : Nat → Bool) (valIssues : Nat → List IssueData)
      (interrupt : Option Nat),
      (∀ k, interrupt = some k → k < (jobFullEvents pages.length scrapeOk).length) →
      List.Chain' evLe (runValidationJob pages scrapeOk valIssues interrupt).events ∧
      ((runValidationJob pages scrapeOk valIssues interrupt).events.filter
        isTerminalEv).length = 1 ∧
      ∃ e, (runValidationJob pages scrapeOk valIssues interrupt).events.getLast? =
        some e ∧ isTerminalEv e = true := by
  intro pages scrapeOk valIssues interrupt hk
  have hev : (runValidationJob pages scrapeOk valIssues interrupt).events =
      jobEvents pages.length scrapeOk interrupt := by
    cases interrupt <;> rfl
  rw [hev]
  obtain ⟨X, hXeq, hXterm⟩ : ∃ X, jobFullEvents pages.length scrapeOk =
      X ++ [⟨EvStage.finalizing, some pages.length, some pages.length,
        some pages.length⟩] ∧ ∀ x ∈ X, isTerminalEv x = false := by
    refine ⟨_, jobFullEvents_decomp pages.length scrapeOk, ?_⟩
    intro x hx
    obtain ⟨-, -, -, -, -, -, ht⟩ := jobFullEvents_mem_shape pages.length scrapeOk hx
    exact ht
  cases interrupt with
  | none =>
    simp only [jobEvents]
    refine ⟨(jobFullEvents_pairwise pages.length scrapeOk).chain', ?_, ?_⟩
    · rw [hXeq, List.filter_append]
      have h1 : List.filter isTerminalEv X = [] :=
        List.filter_eq_nil_iff.mpr fun a ha => by simp [hXterm a ha]
      rw [h1]
      rfl
    · rw [hXeq, List.getLast?_concat]
      exact ⟨_, rfl, rfl⟩
  | some k =>
    simp only [jobEvents]
    have hk' := hk k rfl
    have hlen : (jobFullEvents pages.length scrapeOk).length = X.length + 1 := by
      rw [hXeq]; simp
    have hkX : k ≤ X.length := by omega
    have htake : (jobFullEvents pages.length scrapeOk).take k = X.take k := by
      rw [hXeq, List.take_append_of_le_length hkX]
    refine ⟨?_, ?_, ?_⟩
    · apply List.Pairwise.chain'
      rw [List.pairwise_append]
      refine ⟨List.Pairwise.sublist (List.take_sublist k _)
        (jobFullEvents_pairwise pages.length scrapeOk),
        List.pairwise_singleton _ _, ?_⟩
      intro a ha b hb
      rcases List.mem_singleton.mp hb with rfl
      exact evLe_failed a
    · rw [List.filter_append, htake]
      have h1 : List.filter isTerminalEv (X.take k) = [] :=
        List.filter_eq_nil_iff.mpr fun a ha => by
          simp [hXterm a (List.mem_of_mem_take ha)]
      rw [h1]
      rfl
    · rw [List.getLast?_concat]
      exact ⟨_, rfl, rfl⟩

/-- Witness for C9 on a one-page job interrupted after two events. -/
theorem job_events_properties_witness :
    List.Chain' evLe (runValidationJob [s2l "http://a.com/x"] (fun _ => true)
      (fun _ => []) (some 2)).events :=
  (job_events_properties [s2l "http://a.com/x"] (fun _ => true) (fun _ => [])
    (some 2) (fun k hk => by injection hk with hk; subst hk; decide)).1

/-! ## Claim C3 -/

theorem sitemapCollect_length {base : PyStr} {maxP : Nat} :
    ∀ (us acc : List PyStr), acc.length < maxP →
      (sitemapCollect base maxP us acc).length ≤ maxP
  | [], acc, h => Nat.le_of_lt h
  | u :: rest, acc, h => by
    unfold sitemapCollect
    by_cases hd : isSameDomain u base
    · rw [if_pos hd]
      simp only [List.length_append, List.length_singleton]
      by_cases hc : maxP ≤ acc.length + 1
      · rw [if_pos hc]
        simp only [List.length_append, List.length_singleton]
        omega
      · rw [if_neg hc]
        exact sitemapCollect_length rest (acc ++ [u]) (by simp; omega)
    · rw [if_neg hd]
      exact sitemapCollect_length rest acc h

theorem sitemapIndexCollect_length {base : PyStr} {maxP : Nat} :
    ∀ (subs : List (Except Unit (List PyStr))) (acc : List PyStr),
      acc.length < maxP →
      (sitemapIndexCollect base maxP subs acc).length ≤ maxP
  | [], acc, h => Nat.le_of_lt h
  | s :: rest, acc, h => by
    unfold sitemapIndexCollect
    rcases s with _ | us
    · exact sitemapIndexCollect_length rest acc h
    · simp only
      by_cases hc : maxP ≤ (sitemapCollect base maxP us acc).length
      · rw [if_pos hc]
        exact sitemapCollect_length us acc h
      · rw [if_neg hc]
        exact sitemapIndexCollect_length rest _ (Nat.lt_of_not_le hc)

theorem discoverSitemap_length (titleOf : PyStr → Option PyStr)
    (fetch : SitemapFetch) (base : PyStr) {maxP : Nat} (h : 0 < maxP) :
    (discoverSitemap titleOf fetch base maxP).length ≤ maxP := by
  rcases fetch with _ | _ | subs | us
  · exact Nat.zero_le _
  · exact Nat.zero_le _
  · simp only [discoverSitemap, List.length_map]
    exact sitemapIndexCollect_length _ [] (by simpa using h)
  · simp only [discoverSitemap, List.length_map]
    exact sitemapCollect_length _ [] (by simpa using h)

theorem dedupSimple_length :
    ∀ (lst : List DPage) (seen : List PyStr) (pages : List DPage)
      {s : List PyStr} {p : List DPage},
      dedupSimple lst seen pages = Except.ok (s, p) →
      p.length ≤ pages.length + lst.length
  | [], seen, pages, s, p, h => by
    unfold dedupSimple at h
    injection h with h
    injection h with h1 h2
    subst h2
    simp
  | q :: rest, seen, pages, s, p, h => by
    unfold dedupSimple at h
    rcases hn : normalize1E q.url with e | norm
    · rw [hn] at h; cases h
    · rw [hn] at h
      simp only at h
      by_cases hm : norm ∈ seen
      · rw [if_pos hm] at h
        have := dedupSimple_length rest seen pages h
        simp only [List.length_cons]
        omega
      · rw [if_neg hm] at h
        have := dedupSimple_length rest (norm :: seen) (pages ++ [q]) h
        simp only [List.length_append, List.length_singleton, List.length_cons,
          List.length_nil] at this ⊢
        omega

theorem dedupNav_length {base : PyStr} {maxP : Nat} :
    ∀ (lst : List DPage) (seen : List PyStr) (pages : List DPage)
      {s : List PyStr} {p : List DPage},
      pages.length < maxP →
      dedupNav base maxP lst seen pages = Except.ok (s, p) →
      p.length ≤ maxP
  | [], seen, pages, s, p, hlen, h => by
    unfold dedupNav at h
    injection h with h
    injection h with h1 h2
    subst h2
    exact Nat.le_of_lt hlen
  | q :: rest, seen, pages, s, p, hlen, h => by
    unfold dedupNav at h
    rcases hn : normalize1E q.url with e | norm
    · rw [hn] at h; cases h
    · rw [hn] at h
      simp only at h
      by_cases hm : norm ∉ seen ∧ isSameDomain q.url base
      · rw [if_pos hm] at h
        by_cases hc : maxP ≤ (pages ++ [q]).length
        · rw [if_pos hc] at h
          injection h with h
          injection h with h1 h2
          subst h2
          simp only [List.length_append, List.length_singleton]
          omega
        · rw [if_neg hc] at h
          exact dedupNav_length rest (norm :: seen) (pages ++ [q])
            (Nat.lt_of_not_le hc) h
      · rw [if_neg hm] at h
        exact dedupNav_length rest seen pages hlen h

theorem crawlStep_length (join : PyStr → PyStr → PyStr)
    (fetch : PyStr → CrawlFetch) (base : PyStr) (maxP maxD : Nat) :
    ∀ (fuel : Nat) (queue : List (PyStr × Nat)) (visited : List PyStr)
      (pages : List DPage),
      pages.length ≤ maxP →
      (crawlStep join fetch base maxP maxD fuel queue visited pages).length ≤ maxP
  | 0, _, _, pages, h => h
  | _ + 1, [], _, pages, h => h
  | fuel + 1, (url, depth) :: queue, visited, pages, h => by
    unfold crawlStep
    by_cases h1 : maxP ≤ pages.length
    · rw [if_pos h1]; exact h
    · rw [if_neg h1]
      by_cases h2 : maxD < depth
      · rw [if_pos h2]
        exact crawlStep_length join fetch base maxP maxD fuel queue visited pages h
      · rw [if_neg h2]
        rcases hn : normalize1E url with e | norm
        · exact Nat.le_of_not_le h1
        · simp only
          by_cases h3 : norm ∈ visited
          · rw [if_pos h3]
            exact crawlStep_length join fetch base maxP maxD fuel queue visited pages h
          · rw [if_neg h3]
            rcases fetch url with _ | _ | ⟨status, title, links⟩
            · exact crawlStep_length join fetch base maxP maxD fuel queue _ pages h
            · exact crawlStep_length join fetch base maxP maxD fuel queue _ pages h
            · simp only
              by_cases h4 : 400 ≤ status
              · rw [if_pos h4]
                exact crawlStep_length join fetch base maxP maxD fuel queue _ pages h
              · rw [if_neg h4]
                refine crawlStep_length join fetch base maxP maxD fuel _ _ _ ?_
                simp only [List.length_append, List.length_singleton]
                omega

/-- `_crawl_bfs` instrumented with a log of the `(url, depth)` pairs it
actually fetches (the observable "visits"); identical to `crawlStep`
otherwise (see `crawlStepLog_fst`). -/
def crawlStepLog (join : PyStr → PyStr → PyStr) (fetch : PyStr → CrawlFetch)
    (base : PyStr) (maxP maxD : Nat) :
    Nat → List (PyStr × Nat) → List PyStr → List DPage →
    List (PyStr × Nat) → List DPage × List (PyStr × Nat)
  | 0, _, _, pages, log => (pages, log)
  | _ + 1, [], _, pages, log => (pages, log)
  | fuel + 1, (url, depth) :: queue, visited, pages, log =>
    if maxP ≤ pages.length then (pages, log)
    else if maxD < depth then
      crawlStepLog join fetch base maxP maxD fuel queue visited pages log
    else
      match normalize1E url with
      | Except.error _ => (pages, log)
      | Except.ok norm =>
        if norm ∈ visited then
          crawlStepLog join fetch base maxP maxD fuel queue visited pages log
        else
          let visited' := norm :: visited
          let log' := log ++ [(url, depth)]
          match fetch url with
          | CrawlFetch.err =>
            crawlStepLog join fetch base maxP maxD fuel queue visited' pages log'
          | CrawlFetch.noResp =>
            crawlStepLog join fetch base maxP maxD fuel queue visited' pages log'
          | CrawlFetch.resp status title links =>
            if 400 ≤ status then
              crawlStepLog join fetch base maxP maxD fuel queue visited' pages log'
            else
              let pages' := pages ++ [⟨norm, title, PageSrc.crawl, true⟩]
              let newLinks :=
                if depth < maxD then
                  (links.take 100).filterMap fun l =>
                    match l with
                    | LinkRes.raised => none
                    | LinkRes.noHref => none
                    | LinkRes.href h =>
                      if h ≠ [] ∧ badHrefStart h = false then
                        match normalizeWithBaseE join url h with
                        | Except.error _ => none
                        | Except.ok full =>
                          if isSameDomain full base ∧ full ∉ visited' then
                            some (full, depth + 1)
                          else none
                      else none
                else []
              crawlStepLog join fetch base maxP maxD fuel (queue ++ newLinks)
                visited' pages' log'

theorem crawlStepLog_fst (join : PyStr → PyStr → PyStr)
    (fetch : PyStr → CrawlFetch) (base : PyStr) (maxP maxD : Nat) :
    ∀ (fuel : Nat) (queue : List (PyStr × Nat)) (visited : List PyStr)
      (pages : List DPage) (log : List (PyStr × Nat)),
      (crawlStepLog join fetch base maxP maxD fuel queue visited pages log).1 =
        crawlStep join fetch base maxP maxD fuel queue visited pages
  | 0, _, _, pages, log => rfl
  | _ + 1, [], _, pages, log => rfl
  | fuel + 1, (url, depth) :: queue, visited, pages, log => by
    unfold crawlStepLog crawlStep
    by_cases h1 : maxP ≤ pages.length
    · rw [if_pos h1, if_pos h1]
    · rw [if_neg h1, if_neg h1]
      by_cases h2 : maxD < depth
      · rw [if_pos h2, if_pos h2]
        exact crawlStepLog_fst join fetch base maxP maxD fuel queue visited pages log
      · rw [if_neg h2, if_neg h2]
        rcases hn : normalize1E url with e | norm
        · rfl
        · simp only
          by_cases h3 : norm ∈ visited
          · rw [if_pos h3, if_pos h3]
            exact crawlStepLog_fst join fetch base maxP maxD fuel queue visited pages log
          · rw [if_neg h3, if_neg h3]
            rcases fetch url with _ | _ | ⟨status, title, links⟩
            · exact crawlStepLog_fst join fetch base maxP maxD fuel queue _ pages _
            · exact crawlStepLog_fst join fetch base maxP maxD fuel queue _ pages _
            · simp only
              by_cases h4 : 400 ≤ status
              · rw [if_pos h4, if_pos h4]
                exact crawlStepLog_fst join fetch base maxP maxD fuel queue _ pages _
              · rw [if_neg h4, if_neg h4]
                exact crawlStepLog_fst join fetch base maxP maxD fuel _ _ _ _

theorem crawlStepLog_depth (join : PyStr → PyStr → PyStr)
    (fetch : PyStr → CrawlFetch) (base : PyStr) (maxP maxD : Nat) :
    ∀ (fuel : Nat) (queue : List (PyStr × Nat)) (visited : List PyStr)
      (pages : List DPage) (log : List (PyStr × Nat)),
      (∀ e ∈ log, e.2 ≤ maxD) →
      ∀ e ∈ (crawlStepLog join fetch base maxP maxD fuel queue visited pages
        log).2, e.2 ≤ maxD
  | 0, _, _, pages, log, hlog => hlog
  | _ + 1, [], _, pages, log, hlog => hlog
  | fuel + 1, (url, depth) :: queue, visited, pages, log, hlog => by
    unfold crawlStepLog
    by_cases h1 : maxP ≤ pages.length
    · rw [if_pos h1]; exact hlog
    · rw [if_neg h1]
      by_cases h2 : maxD < depth
      · rw [if_pos h2]
        exact crawlStepLog_depth join fetch base maxP maxD fuel queue visited
          pages log hlog
      · rw [if_neg h2]
        have hd : depth ≤ maxD := Nat.le_of_not_lt h2
        have hlog' : ∀ e ∈ log ++ [(url, depth)], e.2 ≤ maxD := by
          intro e he
          rcases List.mem_append.mp he with he | he
          · exact hlog e he
          · rcases List.mem_singleton.mp he with rfl
            exact hd
        rcases hn : normalize1E url with e | norm
        · exact hlog
        · simp only
          by_cases h3 : norm ∈ visited
          · rw [if_pos h3]
            exact crawlStepLog_depth join fetch base maxP maxD fuel queue
              visited pages log hlog
          · rw [if_neg h3]
            rcases fetch url with _ | _ | ⟨status, title, links⟩
            · exact crawlStepLog_depth join fetch base maxP maxD fuel queue _
                pages _ hlog'
            · exact crawlStepLog_depth join fetch base maxP maxD fuel queue _
                pages _ hlog'
            · simp only
              by_cases h4 : 400 ≤ status
              · rw [if_pos h4]
                exact crawlStepLog_depth join fetch base maxP maxD fuel queue _
                  pages _ hlog'
              · rw [if_neg h4]
                exact crawlStepLog_depth join fetch base maxP maxD fuel _ _ _ _
                  hlog'

/-- C3: `DiscoveryService.discover` returns at most `max_pages` pages in
`total_found` for every oracle behavior, flag combination and positive
effective `max_pages` (`max_pages or self.max_pages`); and the BFS crawl
never fetches a node whose depth exceeds `max_depth`: the instrumented
crawl (`crawlStepLog`, identical to the crawl by its first projection) only
logs visits with `depth ≤ max_depth`. -/
theorem discover_caps :
    (∀ (o : DiscoverOracles) (base : PyStr) (useS useN useC : Bool)
      (mp0 md0 defP defD : Nat) (rules : List ExRule) (r : DiscoverResult),
      0 < (if mp0 = 0 then defP else mp0) →
      discover o base useS useN useC mp0 md0 defP defD rules = Except.ok r →
      r.total_found ≤ (if mp0 = 0 then defP else mp0)) ∧
    (∀ (join : PyStr → PyStr → PyStr) (fetch : PyStr → CrawlFetch)
      (base : PyStr) (mp md fuel : Nat) (queue : List (PyStr × Nat))
      (visited : List PyStr) (pages : List DPage),
      (crawlStepLog join fetch base mp md fuel queue visited pages []).1 =
        crawlStep join fetch base mp md fuel queue visited pages ∧
      ∀ e ∈ (crawlStepLog join fetch base mp md fuel queue visited pages []).2,
        e.2 ≤ md) := by
  constructor
  · intro o base useS useN useC mp0 md0 defP defD rules r hpos hok
    simp only [discover] at hok
    rcases hv : validateUrlE o.resolve base with e | v
    · rw [hv] at hok
      rcases e with _ | _
      · cases hok
      · simp only at hok
        injection hok with hok
        rw [← hok]
        exact Nat.le_of_lt hpos
    · rw [hv] at hok
      simp only at hok
      set maxPages := if mp0 = 0 then defP else mp0 with hmp
      set maxDepth := if md0 = 0 then defD else md0 with hmd
      set smPages := (if useS = true then
        discoverSitemap o.titleOf o.sitemapFetch base maxPages else []) with hsm
      have hsmlen : smPages.length ≤ maxPages := by
        rw [hsm]
        split
        · exact discoverSitemap_length _ _ _ hpos
        · exact Nat.zero_le _
      rcases hd1 : dedupSimple smPages [] [] with e | ⟨seen1, pages1⟩
      · rw [hd1] at hok; cases hok
      · rw [hd1] at hok
        simp only at hok
        have hp1 : pages1.length ≤ maxPages := by
          have := dedupSimple_length smPages [] [] hd1
          simp only [List.length_nil, Nat.zero_add] at this
          omega
        set navPs := (if useN = true ∧ pages1.length < maxPages then
          discoverNav o.join o.navLinks base else []) with hnv
        rcases hd2 : dedupNav base maxPages navPs seen1 pages1 with e | ⟨seen2, pages2⟩
        · rw [hd2] at hok; cases hok
        · rw [hd2] at hok
          simp only at hok
          have hp2 : pages2.length ≤ maxPages := by
            by_cases hc : useN = true ∧ pages1.length < maxPages
            · rw [hnv, if_pos hc] at hd2
              exact dedupNav_length _ seen1 pages1 hc.2 hd2
            · rw [hnv, if_neg hc] at hd2
              unfold dedupNav at hd2
              injection hd2 with hd2
              injection hd2 with h1 h2
              subst h2
              exact hp1
          set crawlPs := (if useC = true ∧ pages2.length < maxPages then
            crawlStep o.join o.crawlFetch base (maxPages - pages2.length)
              maxDepth o.crawlFuel [(base, 0)] seen2 [] else []) with hcr
          have hcrlen : pages2.length + crawlPs.length ≤ maxPages := by
            by_cases hc : useC = true ∧ pages2.length < maxPages
            · rw [hcr, if_pos hc]
              have := crawlStep_length o.join o.crawlFetch base
                (maxPages - pages2.length) maxDepth o.crawlFuel [(base, 0)]
                seen2 [] (Nat.zero_le _)
              omega
            · rw [hcr, if_neg hc]
              simpa using hp2
          rcases hd3 : dedupSimple crawlPs seen2 pages2 with e | ⟨seen3, pages3⟩
          · rw [hd3] at hok; cases hok
          · rw [hd3] at hok
            simp only at hok
            have hp3 : pages3.length ≤ maxPages := by
              have := dedupSimple_length crawlPs seen2 pages2 hd3
              omega
            rcases hd4 : excludePartition o.rx rules pages3 with e | ⟨active, excl⟩
            · rw [hd4] at hok; cases hok
            · rw [hd4] at hok
              simp only at hok
              rcases hd5 : smartSuggestE (active.map DPage.url) with e | sugg
              · rw [hd5] at hok; cases hok
              · rw [hd5] at hok
                simp only at hok
                injection hok with hok
                rw [← hok]
                exact hp3
  · intro join fetch base mp md fuel queue visited pages
    exact ⟨crawlStepLog_fst join fetch base mp md fuel queue visited pages [],
      crawlStepLog_depth join fetch base mp md fuel queue visited pages []
        (fun e he => absurd he (List.not_mem_nil e))⟩

/-- Witness for C3 on empty oracles with `max_pages = 1`. -/
theorem discover_caps_witness :
    discover ⟨(fun _ => some [IPAddr.v4 1572067362]), (fun _ u => u),
        (fun _ => none), SitemapFetch.err, [], (fun _ => CrawlFetch.noResp), 1,
        (fun _ _ => false)⟩ (s2l "http://a.com/x") true true true 1 1 25 3 [] =
      Except.ok ⟨[], [], [], 0⟩ ∧
    (0 : Nat) ≤ 1 :=
  ⟨by rfl, discover_caps.1 ⟨(fun _ => some [IPAddr.v4 1572067362]),
    (fun _ u => u), (fun _ => none), SitemapFetch.err, [],
    (fun _ => CrawlFetch.noResp), 1, (fun _ _ => false)⟩
    (s2l "http://a.com/x") true true true 1 1 25 3 [] ⟨[], [], [], 0⟩
    (by decide) (by rfl)⟩

/-! ## Claim C4 -/

/-- Two URLs that `normalize_url` maps to different strings (whenever it
accepts both). -/
def normDistinct (u v : PyStr) : Prop :=
  ∀ nu nv, normalize1E u = Except.ok nu → normalize1E v = Except.ok nv →
    nu ≠ nv

theorem normDistinct_symm {u v : PyStr} (h : normDistinct u v) :
    normDistinct v u :=
  fun nv nu hv hu => (h nu nv hu hv).symm

theorem dedupSimple_inv :
    ∀ (lst : List DPage) (seen : List PyStr) (pages : List DPage)
      {s : List PyStr} {p : List DPage},
      dedupSimple lst seen pages = Except.ok (s, p) →
      (∀ q ∈ pages, ∀ nq, normalize1E q.url = Except.ok nq → nq ∈ seen) →
      List.Pairwise (fun a b => normDistinct a.url b.url) pages →
      ((∀ q ∈ p, ∀ nq, normalize1E q.url = Except.ok nq → nq ∈ s) ∧
       List.Pairwise (fun a b => normDistinct a.url b.url) p ∧
       (∀ x ∈ seen, x ∈ s) ∧
       (∃ t, p = pages ++ t) ∧
       (∀ q ∈ p, q ∈ pages ∨ (q ∈ lst ∧
         ∀ nq, normalize1E q.url = Except.ok nq → nq ∉ seen)))
  | [], seen, pages, s, p, h, inv1, inv2 => by
    unfold dedupSimple at h
    injection h with h
    injection h with h1 h2
    subst h1; subst h2
    exact ⟨inv1, inv2, fun x hx => hx, ⟨[], by simp⟩, fun q hq => Or.inl hq⟩
  | q :: rest, seen, pages, s, p, h, inv1, inv2 => by
    unfold dedupSimple at h
    rcases hn : normalize1E q.url with e | norm
    · rw [hn] at h; cases h
    · rw [hn] at h
      simp only at h
      by_cases hm : norm ∈ seen
      · rw [if_pos hm] at h
        obtain ⟨c1, c2, c3, c4, c5⟩ := dedupSimple_inv rest seen pages h inv1 inv2
        refine ⟨c1, c2, c3, c4, ?_⟩
        intro q' hq'
        rcases c5 q' hq' with hh | ⟨hh1, hh2⟩
        · exact Or.inl hh
        · exact Or.inr ⟨List.mem_cons_of_mem q hh1, hh2⟩
      · rw [if_neg hm] at h
        have inv1' : ∀ q' ∈ pages ++ [q], ∀ nq,
            normalize1E q'.url = Except.ok nq → nq ∈ norm :: seen := by
          intro q' hq' nq hnq
          rcases List.mem_append.mp hq' with hq' | hq'
          · exact List.mem_cons_of_mem norm (inv1 q' hq' nq hnq)
          · rcases List.mem_singleton.mp hq' with rfl
            rw [hn] at hnq
            injection hnq with hnq
            subst hnq
            exact List.mem_cons_self _ _
        have inv2' : List.Pairwise (fun a b => normDistinct a.url b.url)
            (pages ++ [q]) := by
          rw [List.pairwise_append]
          refine ⟨inv2, List.pairwise_singleton _ _, ?_⟩
          intro a ha b hb
          rcases List.mem_singleton.mp hb with rfl
          intro na nb hna hnb
          rw [hn] at hnb
          injection hnb with hnb
          subst hnb
          intro hc
          subst hc
          exact hm (inv1 a ha na hna)
        obtain ⟨c1, c2, c3, c4, c5⟩ := dedupSimple_inv rest (norm :: seen)
          (pages ++ [q]) h inv1' inv2'
        refine ⟨c1, c2, fun x hx => c3 x (List.mem_cons_of_mem norm hx), ?_, ?_⟩
        · obtain ⟨t, ht⟩ := c4
          exact ⟨q :: t, by rw [ht, List.append_assoc]; rfl⟩
        · intro q' hq'
          rcases c5 q' hq' with hh | ⟨hh1, hh2⟩
          · rcases List.mem_append.mp hh with hh | hh
            · exact Or.inl hh
            · rcases List.mem_singleton.mp hh with rfl
              refine Or.inr ⟨List.mem_cons_self _ _, ?_⟩
              intro nq hnq
              rw [hn] at hnq
              injection hnq with hnq
              subst hnq
              exact hm
          · refine Or.inr ⟨List.mem_cons_of_mem q hh1, ?_⟩
            intro nq hnq
            exact fun hc => hh2 nq hnq (List.mem_cons_of_mem norm hc)

theorem dedupNav_inv {base : PyStr} {maxP : Nat} :
    ∀ (lst : List DPage) (seen : List PyStr) (pages : List DPage)
      {s : List PyStr} {p : List DPage},
      dedupNav base maxP lst seen pages = Except.ok (s, p) →
      (∀ q ∈ pages, ∀ nq, normalize1E q.url = Except.ok nq → nq ∈ seen) →
      List.Pairwise (fun a b => normDistinct a.url b.url) pages →
      ((∀ q ∈ p, ∀ nq, normalize1E q.url = Except.ok nq → nq ∈ s) ∧
       List.Pairwise (fun a b => normDistinct a.url b.url) p ∧
       (∀ x ∈ seen, x ∈ s) ∧
       (∃ t, p = pages ++ t) ∧
       (∀ q ∈ p, q ∈ pages ∨ (q ∈ lst ∧
         ∀ nq, normalize1E q.url = Except.ok nq → nq ∉ seen)))
  | [], seen, pages, s, p, h, inv1, inv2 => by
    unfold dedupNav at h
    injection h with h
    injection h with h1 h2
    subst h1; subst h2
    exact ⟨inv1, inv2, fun x hx => hx, ⟨[], by simp⟩, fun q hq => Or.inl hq⟩
  | q :: rest, seen, pages, s, p, h, inv1, inv2 => by
    unfold dedupNav at h
    rcases hn : normalize1E q.url with e | norm
    · rw [hn] at h; cases h
    · rw [hn] at h
      simp only at h
      by_cases hm : norm ∉ seen ∧ isSameDomain q.url base
      · rw [if_pos hm] at h
        have inv1' : ∀ q' ∈ pages ++ [q], ∀ nq,
            normalize1E q'.url = Except.ok nq → nq ∈ norm :: seen := by
          intro q' hq' nq hnq
          rcases List.mem_append.mp hq' with hq' | hq'
          · exact List.mem_cons_of_mem norm (inv1 q' hq' nq hnq)
          · rcases List.mem_singleton.mp hq' with rfl
            rw [hn] at hnq
            injection hnq with hnq
            subst hnq
            exact List.mem_cons_self _ _
        have inv2' : List.Pairwise (fun a b => normDistinct a.url b.url)
            (pages ++ [q]) := by
          rw [List.pairwise_append]
          refine ⟨inv2, List.pairwise_singleton _ _, ?_⟩
          intro a ha b hb
          rcases List.mem_singleton.mp hb with rfl
          intro na nb hna hnb
          rw [hn] at hnb
          injection hnb with hnb
          subst hnb
          intro hc
          subst hc
          exact hm.1 (inv1 a ha na hna)
        by_cases hc : maxP ≤ (pages ++ [q]).length
        · rw [if_pos hc] at h
          injection h with h
          injection h with h1 h2
          subst h1; subst h2
          refine ⟨inv1', inv2',
            fun x hx => List.mem_cons_of_mem norm hx, ⟨[q], rfl⟩, ?_⟩
          intro q' hq'
          rcases List.mem_append.mp hq' with hh | hh
          · exact Or.inl hh
          · rcases List.mem_singleton.mp hh with rfl
            refine Or.inr ⟨List.mem_cons_self _ _, ?_⟩
            intro nq hnq
            rw [hn] at hnq
            injection hnq with hnq
            subst hnq
            exact hm.1
        · rw [if_neg hc] at h
          obtain ⟨c1, c2, c3, c4, c5⟩ := dedupNav_inv rest (norm :: seen)
            (pages ++ [q]) h inv1' inv2'
          refine ⟨c1, c2, fun x hx => c3 x (List.mem_cons_of_mem norm hx), ?_, ?_⟩
          · obtain ⟨t, ht⟩ := c4
            exact ⟨q :: t, by rw [ht, List.append_assoc]; rfl⟩
          · intro q' hq'
            rcases c5 q' hq' with hh | ⟨hh1, hh2⟩
            · rcases List.mem_append.mp hh with hh | hh
              · exact Or.inl hh
              · rcases List.mem_singleton.mp hh with rfl
                refine Or.inr ⟨List.mem_cons_self _ _, ?_⟩
                intro nq hnq
                rw [hn] at hnq
                injection hnq with hnq
                subst hnq
                exact hm.1
            · refine Or.inr ⟨List.mem_cons_of_mem q hh1, ?_⟩
              intro nq hnq
              exact fun hcon => hh2 nq hnq (List.mem_cons_of_mem norm hcon)
      · rw [if_neg hm] at h
        obtain ⟨c1, c2, c3, c4, c5⟩ := dedupNav_inv rest seen pages h inv1 inv2
        refine ⟨c1, c2, c3, c4, ?_⟩
        intro q' hq'
        rcases c5 q' hq' with hh | ⟨hh1, hh2⟩
        · exact Or.inl hh
        · exact Or.inr ⟨List.mem_cons_of_mem q hh1, hh2⟩

theorem excludePartition_perm (rx : RegexOracle) (rules : List ExRule) :
    ∀ (ps : List DPage) {a e : List DPage},
      excludePartition rx rules ps = Except.ok (a, e) →
      List.Perm ((a ++ e).map fun p => (p.url, p.source))
        (ps.map fun p => (p.url, p.source))
  | [], a, e, h => by
    unfold excludePartition at h
    injection h with h
    injection h with h1 h2
    subst h1; subst h2
    simp
  | p :: rest, a, e, h => by
    unfold excludePartition at h
    rcases hse : shouldExcludeE rx p.url rules with er | b
    · rw [hse] at h; cases h
    · rw [hse] at h
      rcases b with _ | _
      · simp only at h
        rcases hrec : excludePartition rx rules rest with er | ⟨a2, e2⟩
        · rw [hrec] at h; cases h
        · rw [hrec] at h
          simp only at h
          injection h with h
          injection h with h1 h2
          subst h1; subst h2
          simp only [List.cons_append, List.map_cons]
          exact (excludePartition_perm rx rules rest hrec).cons _
      · simp only at h
        rcases hrec : excludePartition rx rules rest with er | ⟨a2, e2⟩
        · rw [hrec] at h; cases h
        · rw [hrec] at h
          simp only at h
          injection h with h
          injection h with h1 h2
          subst h1; subst h2
          have hmid : ((a2 ++ ({ p with selected := false } :: e2)).map
              fun q => (q.url, q.source)) =
              a2.map (fun q => (q.url, q.source)) ++
                (p.url, p.source) :: e2.map (fun q => (q.url, q.source)) := by
            simp
          rw [hmid]
          refine List.Perm.trans List.perm_middle ?_
          simp only [List.map_cons]
          refine List.Perm.cons _ ?_
          have := excludePartition_perm rx rules rest hrec
          simpa using this

theorem discoverSitemap_source (titleOf : PyStr → Option PyStr)
    (fetch : SitemapFetch) (base : PyStr) (maxP : Nat) :
    ∀ p ∈ discoverSitemap titleOf fetch base maxP,
      p.source = PageSrc.sitemap := by
  intro p hp
  rcases fetch with _ | _ | subs | us
  · cases hp
  · cases hp
  · simp only [discoverSitemap, List.mem_map] at hp
    obtain ⟨u, -, rfl⟩ := hp
    rfl
  · simp only [discoverSitemap, List.mem_map] at hp
    obtain ⟨u, -, rfl⟩ := hp
    rfl

theorem discoverNav_source (join : PyStr → PyStr → PyStr)
    (navLinks : List (Option (PyStr × PyStr))) (base : PyStr) :
    ∀ p ∈ discoverNav join navLinks base, p.source = PageSrc.nav := by
  intro p hp
  simp only [discoverNav, List.mem_filterMap] at hp
  obtain ⟨l, -, hl⟩ := hp
  rcases l with _ | ⟨href, text⟩
  · cases hl
  · simp only at hl
    by_cases h1 : href ≠ [] ∧ badHrefStart href = false
    · rw [if_pos h1] at hl
      rcases hn : normalizeWithBaseE join base href with e | full
      · rw [hn] at hl; cases hl
      · rw [hn] at hl
        simp only at hl
        by_cases h2 : isSameDomain full base
        · rw [if_pos h2] at hl
          injection hl with hl
          rw [← hl]
        · rw [if_neg h2] at hl; cases hl
    · rw [if_neg h1] at hl; cases hl

/-- C4: in every successful `discover` run, no two entries of the returned
page set normalize to the same URL (per `url_security.normalize_url`); and
the fixed sitemap → nav → crawl priority holds whenever the SSRF gate
passed: every page the deduplicated sitemap stage kept appears in the
result with source `sitemap` and no result entry of a different source
shares a normalized URL with any sitemap-stage page — in particular a URL
found both by sitemap and by crawl is reported with source `sitemap` —
and likewise for the first two stages together: every page kept after the
nav stage (sitemap- or nav-sourced) survives to the result with its own
source, and no crawl-sourced result entry shares a normalized URL with any
of them, so a URL found by both nav and crawl is reported with source
`nav`. -/
theorem discover_dedup :
    ∀ (o : DiscoverOracles) (base : PyStr) (useS useN useC : Bool)
      (mp0 md0 defP defD : Nat) (rules : List ExRule) (r : DiscoverResult),
      discover o base useS useN useC mp0 md0 defP defD rules = Except.ok r →
      List.Pairwise (fun a b => normDistinct a.url b.url) r.pages ∧
      (∀ v, validateUrlE o.resolve base = Except.ok v →
        ∀ seen1 pages1,
          dedupSimple (if useS = true then
            discoverSitemap o.titleOf o.sitemapFetch base
              (if mp0 = 0 then defP else mp0) else []) [] [] =
            Except.ok (seen1, pages1) →
          (∀ sp ∈ pages1, ∃ q ∈ r.pages, q.url = sp.url ∧
            q.source = PageSrc.sitemap) ∧
          (∀ q ∈ r.pages, q.source ≠ PageSrc.sitemap →
            ∀ sp ∈ pages1, normDistinct sp.url q.url) ∧
          (∀ seen2 pages2,
            dedupNav base (if mp0 = 0 then defP else mp0)
              (if useN = true ∧
                  pages1.length < (if mp0 = 0 then defP else mp0) then
                discoverNav o.join o.navLinks base else [])
              seen1 pages1 = Except.ok (seen2, pages2) →
            (∀ np ∈ pages2, ∃ q ∈ r.pages, q.url = np.url ∧
              q.source = np.source) ∧
            (∀ q ∈ r.pages, q.source = PageSrc.crawl →
              ∀ np ∈ pages2, normDistinct np.url q.url))) := by
  intro o base useS useN useC mp0 md0 defP defD rules r hok
  simp only [discover] at hok
  rcases hv : validateUrlE o.resolve base with e | v
  · rw [hv] at hok
    rcases e with _ | _
    · cases hok
    · simp only at hok
      injection hok with hok
      rw [← hok]
      refine ⟨List.Pairwise.nil, ?_⟩
      intro v hv'
      cases hv'
  · rw [hv] at hok
    simp only at hok
    set maxPages := if mp0 = 0 then defP else mp0 with hmp
    set smPages := (if useS = true then
      discoverSitemap o.titleOf o.sitemapFetch base maxPages else []) with hsm
    have hsmsrc : ∀ p ∈ smPages, p.source = PageSrc.sitemap := by
      rw [hsm]
      split
      · exact discoverSitemap_source o.titleOf o.sitemapFetch base maxPages
      · intro p hp; cases hp
    rcases hd1 : dedupSimple smPages [] [] with e | ⟨seen1, pages1⟩
    · rw [hd1] at hok; cases hok
    · rw [hd1] at hok
      simp only at hok
      obtain ⟨i11, i12, -, -, i15⟩ := dedupSimple_inv smPages [] [] hd1
        (fun q hq => absurd hq (List.not_mem_nil q)) List.Pairwise.nil
      have hp1src : ∀ p ∈ pages1, p.source = PageSrc.sitemap := by
        intro p hp
        rcases i15 p hp with hh | ⟨hh, -⟩
        · cases hh
        · exact hsmsrc p hh
      set navPs := (if useN = true ∧ pages1.length < maxPages then
        discoverNav o.join o.navLinks base else []) with hnv
      rcases hd2 : dedupNav base maxPages navPs seen1 pages1 with e | ⟨seen2, pages2⟩
      · rw [hd2] at hok; cases hok
      · rw [hd2] at hok
        simp only at hok
        obtain ⟨i21, i22, i23, i24, i25⟩ := dedupNav_inv navPs seen1 pages1 hd2
          i11 i12
        set maxDepth := if md0 = 0 then defD else md0 with hmd
        set crawlPs := (if useC = true ∧ pages2.length < maxPages then
          crawlStep o.join o.crawlFetch base (maxPages - pages2.length)
            maxDepth o.crawlFuel [(base, 0)] seen2 [] else []) with hcr
        rcases hd3 : dedupSimple crawlPs seen2 pages2 with e | ⟨seen3, pages3⟩
        · rw [hd3] at hok; cases hok
        · rw [hd3] at hok
          simp only at hok
          obtain ⟨i31, i32, i33, i34, i35⟩ := dedupSimple_inv crawlPs seen2
            pages2 hd3 i21 i22
          rcases hd4 : excludePartition o.rx rules pages3 with e | ⟨active, excl⟩
          · rw [hd4] at hok; cases hok
          · rw [hd4] at hok
            simp only at hok
            rcases hd5 : smartSuggestE (active.map DPage.url) with e | sugg
            · rw [hd5] at hok; cases hok
            · rw [hd5] at hok
              simp only at hok
              injection hok with hok
              rw [← hok]
              have hperm := excludePartition_perm o.rx rules pages3 hd4
              have hSsymm : ∀ {x y : PyStr × PageSrc},
                  normDistinct x.1 y.1 → normDistinct y.1 x.1 :=
                fun h => normDistinct_symm h
              constructor
              · show List.Pairwise (fun a b => normDistinct a.url b.url)
                  (active ++ excl)
                have h3m : List.Pairwise
                    (fun x y : PyStr × PageSrc => normDistinct x.1 y.1)
                    (pages3.map fun p => (p.url, p.source)) :=
                  List.pairwise_map.mpr i32
                have hrm := (List.Perm.pairwise_iff hSsymm hperm).mpr h3m
                have := List.pairwise_map.mp hrm
                exact this
              · intro v2 hv2 seen1b pages1b hd1b
                injection hd1b with hd1c
                injection hd1c with hs1 hp1
                subst hs1; subst hp1
                have hsub13 : ∀ sp ∈ pages1, sp ∈ pages3 := by
                  intro sp hsp
                  obtain ⟨t2, ht2⟩ := i24
                  obtain ⟨t3, ht3⟩ := i34
                  rw [ht3, ht2, List.append_assoc]
                  exact List.mem_append_left _ hsp
                refine ⟨?_, ?_, ?_⟩
                · intro sp hsp
                  have hmem3 := hsub13 sp hsp
                  have hf : (sp.url, sp.source) ∈
                      pages3.map fun p => (p.url, p.source) :=
                    List.mem_map_of_mem _ hmem3
                  have hf2 := hperm.mem_iff.mpr hf
                  obtain ⟨q, hq, hfq⟩ := List.mem_map.mp hf2
                  have hqu : q.url = sp.url := congrArg Prod.fst hfq
                  have hqs : q.source = sp.source := congrArg Prod.snd hfq
                  exact ⟨q, hq, hqu, hqs.trans (hp1src sp hsp)⟩
                · intro q hq hqs sp hsp
                  have hfq : (q.url, q.source) ∈
                      (active ++ excl).map fun p => (p.url, p.source) :=
                    List.mem_map_of_mem _ hq
                  have hf3 := hperm.mem_iff.mp hfq
                  obtain ⟨p3, hp3, hfp3⟩ := List.mem_map.mp hf3
                  have hpu : p3.url = q.url := congrArg Prod.fst hfp3
                  have hps : p3.source = q.source := congrArg Prod.snd hfp3
                  have hp3n1 : p3 ∉ pages1 := by
                    intro hc
                    exact hqs (hps.symm.trans (hp1src p3 hc))
                  have hnot1 : ∀ n, normalize1E p3.url = Except.ok n →
                      n ∉ seen1 := by
                    rcases i35 p3 hp3 with hh | ⟨-, hh2⟩
                    · rcases i25 p3 hh with hh3 | ⟨-, hh4⟩
                      · exact absurd hh3 hp3n1
                      · exact hh4
                    · intro n hn hc
                      exact hh2 n hn (i23 n hc)
                  intro nsp nq hnsp hnq
                  have hnsp1 : nsp ∈ seen1 := i11 sp hsp nsp hnsp
                  intro hc
                  subst hc
                  rw [← hpu] at hnq
                  exact hnot1 nsp hnq hnsp1
                · intro seen2b pages2b hd2b
                  rw [← hnv] at hd2b
                  rw [hd2] at hd2b
                  injection hd2b with hd2c
                  injection hd2c with hs2 hp2
                  subst hs2; subst hp2
                  have hsub23 : ∀ np ∈ pages2, np ∈ pages3 := by
                    intro np hnp
                    obtain ⟨t3, ht3⟩ := i34
                    rw [ht3]
                    exact List.mem_append_left _ hnp
                  have hp2src : ∀ p ∈ pages2, p.source ≠ PageSrc.crawl := by
                    intro p hp
                    rcases i25 p hp with hin1 | ⟨hinNav, -⟩
                    · rw [hp1src p hin1]
                      intro hc; cases hc
                    · have hpn : p.source = PageSrc.nav := by
                        have h2 := hinNav
                        rw [hnv] at h2
                        by_cases hcnd : useN = true ∧ pages1.length < maxPages
                        · rw [if_pos hcnd] at h2
                          exact discoverNav_source o.join o.navLinks base p h2
                        · rw [if_neg hcnd] at h2
                          cases h2
                      rw [hpn]
                      intro hc; cases hc
                  constructor
                  · intro np hnp
                    have hmem3 := hsub23 np hnp
                    have hf : (np.url, np.source) ∈
                        pages3.map fun p => (p.url, p.source) :=
                      List.mem_map_of_mem _ hmem3
                    have hf2 := hperm.mem_iff.mpr hf
                    obtain ⟨q, hq, hfq⟩ := List.mem_map.mp hf2
                    exact ⟨q, hq, congrArg Prod.fst hfq, congrArg Prod.snd hfq⟩
                  · intro q hq hqs np hnp
                    have hfq : (q.url, q.source) ∈
                        (active ++ excl).map fun p => (p.url, p.source) :=
                      List.mem_map_of_mem _ hq
                    have hf3 := hperm.mem_iff.mp hfq
                    obtain ⟨p3, hp3, hfp3⟩ := List.mem_map.mp hf3
                    have hpu : p3.url = q.url := congrArg Prod.fst hfp3
                    have hps : p3.source = q.source := congrArg Prod.snd hfp3
                    have hp3n2 : p3 ∉ pages2 := by
                      intro hc
                      exact hp2src p3 hc (hps.trans hqs)
                    have hnot2 : ∀ n, normalize1E p3.url = Except.ok n →
                        n ∉ seen2 := by
                      rcases i35 p3 hp3 with hh | ⟨-, hh2⟩
                      · exact absurd hh hp3n2
                      · exact hh2
                    intro nnp nq hnnp hnq
                    have hnnp2 : nnp ∈ seen2 := i21 np hnp nnp hnnp
                    intro hc
                    subst hc
                    rw [← hpu] at hnq
                    exact hnot2 nnp hnq hnnp2

/-- Witness for C4 on empty oracles. -/
theorem discover_dedup_witness :
    List.Pairwise (fun a b => normDistinct a.url b.url)
      (⟨[], [], [], 0⟩ : DiscoverResult).pages :=
  (discover_dedup ⟨(fun _ => some [IPAddr.v4 1572067362]), (fun _ u => u),
    (fun _ => none), SitemapFetch.err, [], (fun _ => CrawlFetch.noResp), 1,
    (fun _ _ => false)⟩ (s2l "http://a.com/x") true true true 1 1 25 3 []
    ⟨[], [], [], 0⟩ (by rfl)).1
